import Mathlib

/-!
# QPACK header table (quic/core/qpack/qpack_header_table.cc) and instruction encoder

A shallow embedding of `QpackHeaderTable` and of `QpackInstructionEncoder`, and theorems
about them.

Modelling conventions.

* Byte strings (`QuicStringPiece`) are lists of byte values.
* `uint64_t` counters are natural numbers.  No wrap-around is modelled: string
  lengths and the number of entries are bounded by addressable memory, and the
  only subtraction that could wrap (in the eviction loop) is guarded, see below.
* A `QpackEntry*` stored in an index is modelled by the entry it points to.
  Entries are immutable and every dynamic entry carries its own absolute
  insertion index, so comparing two pointers to live entries is comparing the
  entries.
* `DCHECK`s are compiled out of release builds and are not part of the
  functions below, with one exception: the two `DCHECK`s of the eviction loop
  guard `front()` on an empty deque and an unsigned subtraction that would
  wrap, so the model returns `none` there.  `CHECK`s are always on; a failing
  `CHECK` is `none` as well.
-/

namespace quic

/-- Contents of a `QuicStringPiece`: a sequence of bytes. -/
abbrev Bytes := List Nat

/-- The constant `kEntrySizeOverhead`. -/
def kEntrySizeOverhead : Nat := 32

/-- The function `EntrySize(name, value)`. -/
def EntrySize (name value : Bytes) : Nat :=
  name.length + value.length + kEntrySizeOverhead

/-- An entry of the static or of the dynamic table (`QpackEntry`). -/
structure QpackEntry where
  name : Bytes
  value : Bytes
  is_static : Bool
  insertion_index : Nat
deriving DecidableEq, Repr

/-- The lookup entry built by `QpackEntry query(name, value)`. -/
def QpackEntry.query (name value : Bytes) : QpackEntry :=
  { name := name, value := value, is_static := false, insertion_index := 0 }

/-- Modelled from the spec: the comparison function of the exact-match index, declared in
the header that is not part of the sources.  It "only considers name and value, not actual
QpackEntry* address" (comment in `EvictDownToCurrentCapacity`). -/
def EntriesEq (lhs rhs : QpackEntry) : Bool :=
  lhs.name == rhs.name && lhs.value == rhs.value

/-- Modelled from the spec: the type of `static_index_` and `dynamic_index_`, an unordered
set of entry pointers holding at most one element per (name, value). -/
abbrev UnorderedEntrySet := List QpackEntry

/-- Set lookup `find(&query)`: the element equal to the query under `EntriesEq`, if any. -/
def UnorderedEntrySet.find (s : UnorderedEntrySet) (q : QpackEntry) : Option QpackEntry :=
  List.find? (fun e => EntriesEq e q) s

/-- Set insertion `insert(p)`: the set afterwards, the element the returned iterator points
to, and whether the insertion took place.  Nothing is inserted when an element equal under
`EntriesEq` is present. -/
def UnorderedEntrySet.insert (s : UnorderedEntrySet) (e : QpackEntry) :
    UnorderedEntrySet × QpackEntry × Bool :=
  match UnorderedEntrySet.find s e with
  | some old => (s, old, false)
  | none => (e :: s, e, true)

/-- Set removal `erase(it)` of the element an iterator points to. -/
def UnorderedEntrySet.erase (s : UnorderedEntrySet) (it : QpackEntry) : UnorderedEntrySet :=
  List.erase s it

/-- Modelled from the spec: the type of `static_name_index_` and `dynamic_name_index_`, an
unordered map from a name to an entry pointer. -/
abbrev NameToEntryMap := List (Bytes × QpackEntry)

/-- Map lookup `find(name)`: the key/value pair stored under `name`, if any. -/
def NameToEntryMap.find (m : NameToEntryMap) (name : Bytes) : Option (Bytes × QpackEntry) :=
  List.find? (fun p => p.1 == name) m

/-- Map insertion `insert({name, entry})`: the map afterwards, the pair the returned
iterator points to, and whether the insertion took place. -/
def NameToEntryMap.insert (m : NameToEntryMap) (kv : Bytes × QpackEntry) :
    NameToEntryMap × (Bytes × QpackEntry) × Bool :=
  match NameToEntryMap.find m kv.1 with
  | some old => (m, old, false)
  | none => (kv :: m, kv, true)

/-- Map removal `erase(it)` of the pair an iterator points to. -/
def NameToEntryMap.erase (m : NameToEntryMap) (it : Bytes × QpackEntry) : NameToEntryMap :=
  List.erase m it

/-- The static table returned by `ObtainQpackStaticTable()`.  Its contents are not part of
the sources and are a parameter of the development. -/
structure QpackStaticTable where
  static_entries : List QpackEntry
  static_index : UnorderedEntrySet
  static_name_index : NameToEntryMap
deriving DecidableEq, Repr

/-- The static indices agree with the static entry list: what an index holds are entries of
the list (filed under their own name), and every entry of the list is found under its name
and value, and under its name. -/
def QpackStaticTable.Consistent (s : QpackStaticTable) : Prop :=
  (∀ e ∈ s.static_index, e ∈ s.static_entries) ∧
  (∀ e ∈ s.static_entries, (UnorderedEntrySet.find s.static_index e).isSome = true) ∧
  (∀ p ∈ s.static_name_index, p.2 ∈ s.static_entries ∧ p.1 = p.2.name) ∧
  (∀ e ∈ s.static_entries, (NameToEntryMap.find s.static_name_index e.name).isSome = true)

instance (s : QpackStaticTable) : Decidable s.Consistent := by
  unfold QpackStaticTable.Consistent
  infer_instance

/-- The data members of `QpackHeaderTable`.  The deque `dynamic_entries_` is a list with the
oldest entry at the head. -/
structure QpackHeaderTable where
  static_entries : List QpackEntry
  static_index : UnorderedEntrySet
  static_name_index : NameToEntryMap
  dynamic_entries : List QpackEntry
  dynamic_index : UnorderedEntrySet
  dynamic_name_index : NameToEntryMap
  dynamic_table_size : Nat
  dynamic_table_capacity : Nat
  maximum_dynamic_table_capacity : Nat
  max_entries : Nat
  dropped_entry_count : Nat
deriving DecidableEq, Repr

/-- The constructor `QpackHeaderTable::QpackHeaderTable()`. -/
def QpackHeaderTable.new (s : QpackStaticTable) : QpackHeaderTable :=
  { static_entries := s.static_entries
    static_index := s.static_index
    static_name_index := s.static_name_index
    dynamic_entries := []
    dynamic_index := []
    dynamic_name_index := []
    dynamic_table_size := 0
    dynamic_table_capacity := 0
    maximum_dynamic_table_capacity := 0
    max_entries := 0
    dropped_entry_count := 0 }

/-- The method `QpackHeaderTable::LookupEntry`; `none` is `nullptr`. -/
def LookupEntry (t : QpackHeaderTable) (is_static : Bool) (index : Nat) : Option QpackEntry :=
  if is_static then
    if index ≥ t.static_entries.length then none
    else t.static_entries[index]?
  else if index < t.dropped_entry_count then none
  else
    let index := index - t.dropped_entry_count
    if index ≥ t.dynamic_entries.length then none
    else t.dynamic_entries[index]?

/-- The enumeration `QpackHeaderTable::MatchType`. -/
inductive MatchType where
  | kNameAndValue
  | kName
  | kNoMatch
deriving DecidableEq, Repr

/-- The method `QpackHeaderTable::FindHeaderField`.  The arguments `is_static` and `index`
are the contents of the two output parameters before the call; the result is the returned
match type with their contents after the call (untouched when nothing matches). -/
def FindHeaderField (t : QpackHeaderTable) (name value : Bytes) (is_static : Bool)
    (index : Nat) : MatchType × Bool × Nat :=
  let query := QpackEntry.query name value
  match UnorderedEntrySet.find t.static_index query with
  | some e => (MatchType.kNameAndValue, true, e.insertion_index)
  | none =>
    match UnorderedEntrySet.find t.dynamic_index query with
    | some e => (MatchType.kNameAndValue, false, e.insertion_index)
    | none =>
      match NameToEntryMap.find t.static_name_index name with
      | some p => (MatchType.kName, true, p.2.insertion_index)
      | none =>
        match NameToEntryMap.find t.dynamic_name_index name with
        | some p => (MatchType.kName, false, p.2.insertion_index)
        | none => (MatchType.kNoMatch, is_static, index)

/-- One pass through the body of the loop of `EvictDownToCurrentCapacity`, for a front entry
`entry` followed by `rest`: the state after `++dropped_entry_count_`, or `none` when the
subtraction would wrap. -/
def EvictFront (t : QpackHeaderTable) (entry : QpackEntry) (rest : List QpackEntry) :
    Option QpackHeaderTable :=
  let entry_size := EntrySize entry.name entry.value
  if t.dynamic_table_size < entry_size then none
  else
    let dynamic_index :=
      match UnorderedEntrySet.find t.dynamic_index entry with
      | some it => if it = entry then UnorderedEntrySet.erase t.dynamic_index it
                   else t.dynamic_index
      | none => t.dynamic_index
    let dynamic_name_index :=
      match NameToEntryMap.find t.dynamic_name_index entry.name with
      | some it => if it.2 = entry then NameToEntryMap.erase t.dynamic_name_index it
                   else t.dynamic_name_index
      | none => t.dynamic_name_index
    some { t with
      dynamic_table_size := t.dynamic_table_size - entry_size
      dynamic_index := dynamic_index
      dynamic_name_index := dynamic_name_index
      dynamic_entries := rest
      dropped_entry_count := t.dropped_entry_count + 1 }

/-- The loop of `EvictDownToCurrentCapacity`.  The first argument is the current content of
`dynamic_entries_`; every pass removes its head, which makes the recursion structural.
The result is `none` when the loop reaches `front()` on an empty deque or a wrapping
subtraction. -/
def EvictLoop : List QpackEntry → QpackHeaderTable → Option QpackHeaderTable
  | [], t => if t.dynamic_table_size > t.dynamic_table_capacity then none else some t
  | entry :: rest, t =>
    if t.dynamic_table_size > t.dynamic_table_capacity then
      match EvictFront t entry rest with
      | none => none
      | some t1 => EvictLoop rest t1
    else some t

/-- The method `QpackHeaderTable::EvictDownToCurrentCapacity`. -/
def EvictDownToCurrentCapacity (t : QpackHeaderTable) : Option QpackHeaderTable :=
  EvictLoop t.dynamic_entries t

/-- The method `QpackHeaderTable::InsertEntry`: the table afterwards and the returned
pointer (`none` is `nullptr`).  The outer `none` is a failed assertion: one inside the
eviction loop, or one of the two `CHECK(result.second)`, which are tested together once
both indices have been updated. -/
def InsertEntry (t : QpackHeaderTable) (name value : Bytes) :
    Option (QpackHeaderTable × Option QpackEntry) :=
  let entry_size := EntrySize name value
  if entry_size > t.dynamic_table_capacity then some (t, none)
  else
    let index := t.dropped_entry_count + t.dynamic_entries.length
    let new_entry : QpackEntry :=
      { name := name, value := value, is_static := false, insertion_index := index }
    let t1 := { t with
      dynamic_entries := t.dynamic_entries ++ [new_entry]
      dynamic_table_size := t.dynamic_table_size + entry_size }
    match EvictDownToCurrentCapacity t1 with
    | none => none
    | some t2 =>
      let index_result := UnorderedEntrySet.insert t2.dynamic_index new_entry
      let index_final :=
        if index_result.2.2 then (index_result.1, true)
        else
          let result := UnorderedEntrySet.insert
            (UnorderedEntrySet.erase index_result.1 index_result.2.1) new_entry
          (result.1, result.2.2)
      let name_result := NameToEntryMap.insert t2.dynamic_name_index (new_entry.name, new_entry)
      let name_final :=
        if name_result.2.2 then (name_result.1, true)
        else
          let result := NameToEntryMap.insert
            (NameToEntryMap.erase name_result.1 name_result.2.1) (new_entry.name, new_entry)
          (result.1, result.2.2)
      if index_final.2 && name_final.2 then
        some ({ t2 with dynamic_index := index_final.1, dynamic_name_index := name_final.1 },
              some new_entry)
      else none

/-- The method `QpackHeaderTable::UpdateTableSize`: the table afterwards and the returned
flag.  The outer `none` is a failed assertion of the eviction loop. -/
def UpdateTableSize (t : QpackHeaderTable) (max_size : Nat) :
    Option (QpackHeaderTable × Bool) :=
  if max_size > t.maximum_dynamic_table_capacity then some (t, false)
  else
    match EvictDownToCurrentCapacity { t with dynamic_table_capacity := max_size } with
    | none => none
    | some t1 => some (t1, true)

/-- The three `DCHECK_EQ`s at the head of `SetMaximumDynamicTableCapacity`. -/
def SetMaximumDynamicTableCapacity_DCHECKs (t : QpackHeaderTable) : Bool :=
  t.dynamic_table_capacity == 0 && t.maximum_dynamic_table_capacity == 0 && t.max_entries == 0

/-- The method `QpackHeaderTable::SetMaximumDynamicTableCapacity` (its three assignments). -/
def SetMaximumDynamicTableCapacity (t : QpackHeaderTable)
    (maximum_dynamic_table_capacity : Nat) : QpackHeaderTable :=
  { t with
    dynamic_table_capacity := maximum_dynamic_table_capacity
    maximum_dynamic_table_capacity := maximum_dynamic_table_capacity
    max_entries := maximum_dynamic_table_capacity / 32 }

/-- A call of one of the three mutating public methods. -/
inductive Call where
  | SetMaximumDynamicTableCapacity (maximum_dynamic_table_capacity : Nat)
  | InsertEntry (name value : Bytes)
  | UpdateTableSize (max_size : Nat)
deriving DecidableEq, Repr

/-- The table after one call; `none` when an assertion fails inside the call. -/
def runCall (t : QpackHeaderTable) : Call → Option QpackHeaderTable
  | Call.SetMaximumDynamicTableCapacity v => some (SetMaximumDynamicTableCapacity t v)
  | Call.InsertEntry name value => (InsertEntry t name value).map Prod.fst
  | Call.UpdateTableSize max_size => (UpdateTableSize t max_size).map Prod.fst

/-- The table after a sequence of calls, performed from left to right. -/
def runCalls : QpackHeaderTable → List Call → Option QpackHeaderTable
  | t, [] => some t
  | t, c :: cs =>
    match runCall t c with
    | none => none
    | some t1 => runCalls t1 cs

/-- The states a table constructed over the static table `s` can be in: those some sequence
of calls leads to from the freshly constructed table.  `SetMaximumDynamicTableCapacity` may
occur anywhere in the sequence, as a release build allows; the sequences that respect its
`DCHECK`s are among them. -/
def Reachable (s : QpackStaticTable) (t : QpackHeaderTable) : Prop :=
  ∃ calls, runCalls (QpackHeaderTable.new s) calls = some t

/-- The call is `InsertEntry` or `UpdateTableSize`. -/
def isUpdateCall : Call → Bool
  | Call.SetMaximumDynamicTableCapacity _ => false
  | Call.InsertEntry _ _ => true
  | Call.UpdateTableSize _ => true

/-- The entries returned by the successful `InsertEntry` calls of a sequence of calls, in
the order of the calls. -/
def insertedEntries : QpackHeaderTable → List Call → List QpackEntry
  | _, [] => []
  | t, Call.InsertEntry name value :: cs =>
    match InsertEntry t name value with
    | none => []
    | some (t1, none) => insertedEntries t1 cs
    | some (t1, some e) => e :: insertedEntries t1 cs
  | t, c :: cs =>
    match runCall t c with
    | none => []
    | some t1 => insertedEntries t1 cs

/-- The sum of the entry sizes of a list of entries. -/
def totalSize (l : List QpackEntry) : Nat :=
  (l.map (fun e => EntrySize e.name e.value)).sum

/-- Reference definition of the match type of `FindHeaderField`, over the table contents:
`kNameAndValue` when some static entry or some live dynamic entry has the name and the
value, otherwise `kName` when some static or live dynamic entry has the name, otherwise
`kNoMatch`. -/
def FindHeaderField_reference (t : QpackHeaderTable) (name value : Bytes) : MatchType :=
  if (t.static_entries ++ t.dynamic_entries).any (fun e => e.name == name && e.value == value)
  then MatchType.kNameAndValue
  else if (t.static_entries ++ t.dynamic_entries).any (fun e => e.name == name)
  then MatchType.kName
  else MatchType.kNoMatch

/-- The invariant of the table, also inside `InsertEntry` and the eviction loop.  The deque
holds `live ++ pend`: the indices describe `live`, and `pend` is empty or the entry that
`InsertEntry` has pushed and not indexed yet.  The size is the sum of the entry sizes, the
insertion indices count up from `dropped_entry_count_`, each index holds, for every key,
the youngest entry of `live` with that key, and holds one element per key. -/
structure TableInv (t : QpackHeaderTable) (live pend : List QpackEntry) : Prop where
  entries : t.dynamic_entries = live ++ pend
  size : t.dynamic_table_size = totalSize (live ++ pend)
  numbering : (live ++ pend).map (fun e => e.insertion_index) =
    List.range' t.dropped_entry_count (live ++ pend).length
  index_find : ∀ q, UnorderedEntrySet.find t.dynamic_index q =
    live.reverse.find? (fun e => EntriesEq e q)
  index_unique : t.dynamic_index.Pairwise (fun a b => EntriesEq a b = false)
  name_find : ∀ n, NameToEntryMap.find t.dynamic_name_index n =
    (live.reverse.find? (fun e => e.name == n)).map (fun e => (e.name, e))
  name_unique : t.dynamic_name_index.Pairwise (fun a b => a.1 ≠ b.1)

/-- The members `EvictDownToCurrentCapacity` never writes are the same in both tables. -/
def SameFrame (t t1 : QpackHeaderTable) : Prop :=
  t1.static_entries = t.static_entries ∧ t1.static_index = t.static_index ∧
  t1.static_name_index = t.static_name_index ∧
  t1.dynamic_table_capacity = t.dynamic_table_capacity ∧
  t1.maximum_dynamic_table_capacity = t.maximum_dynamic_table_capacity ∧
  t1.max_entries = t.max_entries

/-- What holds of every reachable table over the static table `s`: the invariant, and the
static members are those of `s`. -/
def WellFormed (s : QpackStaticTable) (t : QpackHeaderTable) : Prop :=
  TableInv t t.dynamic_entries [] ∧ t.static_entries = s.static_entries ∧
  t.static_index = s.static_index ∧ t.static_name_index = s.static_name_index

/-- The tables on which the public methods call `EvictDownToCurrentCapacity`: inside an
`UpdateTableSize` that is not refused, once the capacity has been set, and inside an
`InsertEntry` that is not refused, once the new entry has been pushed and its size added. -/
inductive EvictionCall (s : QpackStaticTable) : QpackHeaderTable → Prop where
  | update (t : QpackHeaderTable) (max_size : Nat) :
      Reachable s t → max_size ≤ t.maximum_dynamic_table_capacity →
      EvictionCall s { t with dynamic_table_capacity := max_size }
  | insert (t : QpackHeaderTable) (name value : Bytes) :
      Reachable s t → EntrySize name value ≤ t.dynamic_table_capacity →
      EvictionCall s { t with
        dynamic_entries := t.dynamic_entries ++
          [⟨name, value, false, t.dropped_entry_count + t.dynamic_entries.length⟩]
        dynamic_table_size := t.dynamic_table_size + EntrySize name value }

/-- A small static table used in examples: two entries, indexed. -/
def exampleStatic : QpackStaticTable :=
  { static_entries := [⟨[58, 97], [], true, 0⟩, ⟨[58, 112], [47], true, 1⟩]
    static_index := [⟨[58, 97], [], true, 0⟩, ⟨[58, 112], [47], true, 1⟩]
    static_name_index := [([58, 97], ⟨[58, 97], [], true, 0⟩), ([58, 112], ⟨[58, 112], [47], true, 1⟩)] }

/-- A sequence of calls used in examples: with capacity 70 the third insertion evicts the
first entry. -/
def exampleCalls : List Call :=
  [Call.SetMaximumDynamicTableCapacity 70, Call.InsertEntry [120] [49],
   Call.InsertEntry [120] [50], Call.InsertEntry [121] [49]]

/-- The table after `exampleCalls`. -/
def exampleTable : QpackHeaderTable :=
  { static_entries := exampleStatic.static_entries
    static_index := exampleStatic.static_index
    static_name_index := exampleStatic.static_name_index
    dynamic_entries := [⟨[120], [50], false, 1⟩, ⟨[121], [49], false, 2⟩]
    dynamic_index := [⟨[121], [49], false, 2⟩, ⟨[120], [50], false, 1⟩]
    dynamic_name_index := [([121], ⟨[121], [49], false, 2⟩), ([120], ⟨[120], [50], false, 1⟩)]
    dynamic_table_size := 68
    dynamic_table_capacity := 70
    maximum_dynamic_table_capacity := 70
    max_entries := 2
    dropped_entry_count := 1 }

/-- A second sequence of calls: one dynamic entry under a name of the static table. -/
def exampleCalls2 : List Call :=
  [Call.SetMaximumDynamicTableCapacity 100, Call.InsertEntry [58, 97] [49]]

/-- The table after `exampleCalls2`. -/
def exampleTable2 : QpackHeaderTable :=
  { static_entries := exampleStatic.static_entries
    static_index := exampleStatic.static_index
    static_name_index := exampleStatic.static_name_index
    dynamic_entries := [⟨[58, 97], [49], false, 0⟩]
    dynamic_index := [⟨[58, 97], [49], false, 0⟩]
    dynamic_name_index := [([58, 97], ⟨[58, 97], [49], false, 0⟩)]
    dynamic_table_size := 35
    dynamic_table_capacity := 100
    maximum_dynamic_table_capacity := 100
    max_entries := 3
    dropped_entry_count := 0 }

/-- The table after `InsertEntry([120], [50])` on `exampleTable`: the older entry with the
same name and value has been evicted. -/
def exampleTable3 : QpackHeaderTable :=
  { static_entries := exampleStatic.static_entries
    static_index := exampleStatic.static_index
    static_name_index := exampleStatic.static_name_index
    dynamic_entries := [⟨[121], [49], false, 2⟩, ⟨[120], [50], false, 3⟩]
    dynamic_index := [⟨[120], [50], false, 3⟩, ⟨[121], [49], false, 2⟩]
    dynamic_name_index := [([120], ⟨[120], [50], false, 3⟩), ([121], ⟨[121], [49], false, 2⟩)]
    dynamic_table_size := 68
    dynamic_table_capacity := 70
    maximum_dynamic_table_capacity := 70
    max_entries := 2
    dropped_entry_count := 2 }

/-- The table after `InsertEntry` of a 30-byte name with an empty value on `exampleTable`:
both older entries have been evicted. -/
def exampleTable4 : QpackHeaderTable :=
  { static_entries := exampleStatic.static_entries
    static_index := exampleStatic.static_index
    static_name_index := exampleStatic.static_name_index
    dynamic_entries := [⟨List.replicate 30 120, [], false, 3⟩]
    dynamic_index := [⟨List.replicate 30 120, [], false, 3⟩]
    dynamic_name_index := [(List.replicate 30 120, ⟨List.replicate 30 120, [], false, 3⟩)]
    dynamic_table_size := 62
    dynamic_table_capacity := 70
    maximum_dynamic_table_capacity := 70
    max_entries := 2
    dropped_entry_count := 3 }

/-- The table after `SetMaximumDynamicTableCapacity(200)` and `InsertEntry([120], [49])`. -/
def exampleTable5 : QpackHeaderTable :=
  { static_entries := exampleStatic.static_entries
    static_index := exampleStatic.static_index
    static_name_index := exampleStatic.static_name_index
    dynamic_entries := [⟨[120], [49], false, 0⟩]
    dynamic_index := [⟨[120], [49], false, 0⟩]
    dynamic_name_index := [([120], ⟨[120], [49], false, 0⟩)]
    dynamic_table_size := 34
    dynamic_table_capacity := 200
    maximum_dynamic_table_capacity := 200
    max_entries := 6
    dropped_entry_count := 0 }

/-! ## The instruction encoder (quic/core/qpack/qpack_instruction_encoder.h)

The header declares the states, the data members and one method per state.  The bodies of
the methods, the instruction schemas, the integer and Huffman coders and the encoder stream
sender are not part of the sources; they are modelled from the specification, and the byte
strings expected by `qpack_encoder_stream_sender_test.cc` are checked against the model. -/

/-- The enumeration `QpackInstructionEncoder::State`. -/
inductive QpackInstructionEncoder.State where
  | kOpcode
  | kStartField
  | kSbit
  | kVarintEncode
  | kStartString
  | kWriteString
deriving DecidableEq, Repr

/-- Modelled from the spec: the kinds of field of an instruction schema (the header
`qpack_instructions.h` is missing): the static bit, two integers, the name and the value
string. -/
inductive QpackInstructionFieldType where
  | kSbit
  | kVarint
  | kVarint2
  | kName
  | kValue
deriving DecidableEq, Repr

/-- Modelled from the spec: a field of an instruction schema (`qpack_instructions.h` is
missing).  The parameter is, for the static bit, the mask of the bit in the shared byte,
and for an integer or a string the number `N` of bits the integer or the string length has
in the shared byte; the Huffman bit of a string is the bit above these `N` bits. -/
structure QpackInstructionField where
  type : QpackInstructionFieldType
  param : Nat
deriving DecidableEq, Repr

/-- Modelled from the spec: an instruction schema (`qpack_instructions.h` is missing): the
opcode pattern, as the value of the byte that holds it, and the ordered list of fields. -/
structure QpackInstruction where
  opcode : Nat
  fields : List QpackInstructionField
deriving DecidableEq, Repr

/-- Modelled from the spec: an instruction with the values of its fields, the argument
type `QpackInstructionWithValues` of `Encode` (`qpack_instructions.h` is missing). -/
structure QpackInstructionWithValues where
  instruction : QpackInstruction
  s_bit : Bool
  varint : Nat
  varint2 : Nat
  name : Bytes
  value : Bytes
deriving DecidableEq, Repr

/-- Modelled from the spec: the Huffman coder, an external building block with a static code
table, taken as a parameter: the length in bytes of the Huffman form of a string, and the
Huffman form. -/
structure HuffmanCoder where
  HuffmanSize : Bytes → Nat
  HuffmanEncode : Bytes → Bytes

/-- Modelled from the spec: the continuation bytes of an integer that does not fit its
bits in the shared byte (the integer coder is missing from the sources): base 128, the
least significant seven bits first, the high bit of a byte set when more bytes follow.  The
first argument bounds the number of bytes; `HpackVarintEncode` passes the value itself. -/
def varintExtension : Nat → Nat → Bytes
  | 0, value => [value]
  | fuel + 1, value =>
    if value ≥ 128 then (value % 128 + 128) :: varintExtension fuel (value / 128)
    else [value]

/-- Modelled from the spec: the integer coder (missing from the sources).  An integer below
`2 ^ N - 1` is stored in the `N` low bits of the shared byte `high_bits`; otherwise these
bits are all ones and the integer minus `2 ^ N - 1` follows in continuation bytes.  The
result is the shared byte followed by the continuation bytes. -/
def HpackVarintEncode (high_bits N value : Nat) : Bytes :=
  if value < 2 ^ N - 1 then [high_bits ||| value]
  else (high_bits ||| (2 ^ N - 1)) ::
    varintExtension (value - (2 ^ N - 1)) (value - (2 ^ N - 1))

/-- The number a sequence of continuation bytes stands for, the least significant seven
bits first. -/
def base128Value : Bytes → Nat
  | [] => 0
  | b :: bs => b % 128 + 128 * base128Value bs

/-- The data members of `QpackInstructionEncoder`.  The iterator `field_` is the list of
the fields from the current one on. -/
structure QpackInstructionEncoder where
  use_huffman : Bool
  string_length : Nat
  byte : Nat
  state : QpackInstructionEncoder.State
  instruction : QpackInstruction
  field : List QpackInstructionField
deriving DecidableEq, Repr

/-- Modelled from the spec: the constructor `QpackInstructionEncoder()` (the source file of
the class is missing): no instruction, an empty shared byte, the opcode state. -/
def QpackInstructionEncoder.new : QpackInstructionEncoder :=
  { use_huffman := false
    string_length := 0
    byte := 0
    state := QpackInstructionEncoder.State.kOpcode
    instruction := { opcode := 0, fields := [] }
    field := [] }

/-- Modelled from the spec: `DoOpcode` (body missing) writes the opcode pattern of the
instruction to the shared byte, without output. -/
def DoOpcode (enc : QpackInstructionEncoder) : QpackInstructionEncoder :=
  { enc with byte := enc.instruction.opcode, state := QpackInstructionEncoder.State.kStartField }

/-- Modelled from the spec: `DoStartField` (body missing) selects the state by the kind of
the current field. -/
def DoStartField (enc : QpackInstructionEncoder) : QpackInstructionEncoder :=
  match enc.field with
  | [] => enc
  | f :: _ =>
    match f.type with
    | QpackInstructionFieldType.kSbit =>
      { enc with state := QpackInstructionEncoder.State.kSbit }
    | QpackInstructionFieldType.kVarint =>
      { enc with state := QpackInstructionEncoder.State.kVarintEncode }
    | QpackInstructionFieldType.kVarint2 =>
      { enc with state := QpackInstructionEncoder.State.kVarintEncode }
    | QpackInstructionFieldType.kName =>
      { enc with state := QpackInstructionEncoder.State.kStartString }
    | QpackInstructionFieldType.kValue =>
      { enc with state := QpackInstructionEncoder.State.kStartString }

/-- Modelled from the spec: `DoSBit` (body missing) writes the static bit to the shared
byte and moves to the next field. -/
def DoSBit (enc : QpackInstructionEncoder) (s_bit : Bool) : QpackInstructionEncoder :=
  match enc.field with
  | [] => enc
  | f :: rest =>
    { enc with
      byte := if s_bit then enc.byte ||| f.param else enc.byte
      field := rest
      state := QpackInstructionEncoder.State.kStartField }

/-- Modelled from the spec: `DoVarintEncode` (body missing) encodes `varint`, `varint2` or
the string length, by the kind of the current field, with the shared byte for the high
bits, appends the bytes to the output and empties the shared byte.  After an integer field
the next field starts; after a string length the string is written. -/
def DoVarintEncode (enc : QpackInstructionEncoder) (varint varint2 : Nat) (output : Bytes) :
    QpackInstructionEncoder × Bytes :=
  match enc.field with
  | [] => (enc, output)
  | f :: rest =>
    match f.type with
    | QpackInstructionFieldType.kVarint =>
      ({ enc with byte := 0, field := rest,
                  state := QpackInstructionEncoder.State.kStartField },
       output ++ HpackVarintEncode enc.byte f.param varint)
    | QpackInstructionFieldType.kVarint2 =>
      ({ enc with byte := 0, field := rest,
                  state := QpackInstructionEncoder.State.kStartField },
       output ++ HpackVarintEncode enc.byte f.param varint2)
    | _ =>
      ({ enc with byte := 0, state := QpackInstructionEncoder.State.kWriteString },
       output ++ HpackVarintEncode enc.byte f.param enc.string_length)

/-- Modelled from the spec: `DoStartString` (body missing) decides whether the name or the
value is Huffman encoded, which it is only when the Huffman form is strictly shorter, sets
`use_huffman_` and `string_length_`, and writes the Huffman bit to the shared byte. -/
def DoStartString (h : HuffmanCoder) (enc : QpackInstructionEncoder) (name value : Bytes) :
    QpackInstructionEncoder :=
  match enc.field with
  | [] => enc
  | f :: _ =>
    let string_to_write := if f.type = QpackInstructionFieldType.kName then name else value
    let encoded_size := h.HuffmanSize string_to_write
    if encoded_size < string_to_write.length then
      { enc with
        use_huffman := true
        string_length := encoded_size
        byte := enc.byte ||| 2 ^ f.param
        state := QpackInstructionEncoder.State.kVarintEncode }
    else
      { enc with
        use_huffman := false
        string_length := string_to_write.length
        state := QpackInstructionEncoder.State.kVarintEncode }

/-- Modelled from the spec: `DoWriteString` (body missing) appends the name or the value to
the output, Huffman encoded if `use_huffman_` is set, and moves to the next field. -/
def DoWriteString (h : HuffmanCoder) (enc : QpackInstructionEncoder) (name value : Bytes)
    (output : Bytes) : QpackInstructionEncoder × Bytes :=
  match enc.field with
  | [] => (enc, output)
  | f :: rest =>
    let string_to_write := if f.type = QpackInstructionFieldType.kName then name else value
    ({ enc with field := rest, state := QpackInstructionEncoder.State.kStartField },
     output ++ (if enc.use_huffman then h.HuffmanEncode string_to_write else string_to_write))

/-- Modelled from the spec: one transition of the state machine of `Encode` (body missing):
the method of the current state. -/
def EncodeStep (h : HuffmanCoder) (enc : QpackInstructionEncoder)
    (iv : QpackInstructionWithValues) (output : Bytes) : QpackInstructionEncoder × Bytes :=
  match enc.state with
  | QpackInstructionEncoder.State.kOpcode => (DoOpcode enc, output)
  | QpackInstructionEncoder.State.kStartField => (DoStartField enc, output)
  | QpackInstructionEncoder.State.kSbit => (DoSBit enc iv.s_bit, output)
  | QpackInstructionEncoder.State.kVarintEncode =>
    DoVarintEncode enc iv.varint iv.varint2 output
  | QpackInstructionEncoder.State.kStartString =>
    (DoStartString h enc iv.name iv.value, output)
  | QpackInstructionEncoder.State.kWriteString =>
    DoWriteString h enc iv.name iv.value output

/-- Modelled from the spec: the loop of `Encode` (body missing): transitions are made until
the last field has been written.  The first argument bounds the number of transitions;
`none` means that the bound was reached. -/
def EncodeLoop (h : HuffmanCoder) : Nat → QpackInstructionEncoder →
    QpackInstructionWithValues → Bytes → Option (QpackInstructionEncoder × Bytes)
  | 0, _, _, _ => none
  | fuel + 1, enc, iv, output =>
    let r := EncodeStep h enc iv output
    if r.1.field = [] then some r else EncodeLoop h fuel r.1 iv r.2

/-- Modelled from the spec: the method `QpackInstructionEncoder::Encode` (body missing)
appends the encoded instruction to the output: it starts in the opcode state at the first
field of the instruction and runs the state machine; an opcode and a field take at most
four transitions each. -/
def Encode (h : HuffmanCoder) (enc : QpackInstructionEncoder)
    (iv : QpackInstructionWithValues) (output : Bytes) :
    Option (QpackInstructionEncoder × Bytes) :=
  EncodeLoop h (4 * iv.instruction.fields.length + 1)
    { enc with
      state := QpackInstructionEncoder.State.kOpcode
      instruction := iv.instruction
      field := iv.instruction.fields }
    iv output

/-- Modelled from the spec: the schema of the insert-with-name-reference instruction
(`qpack_instructions.cc` is missing): top bit 1, the static bit below it, a name index of
6 bits, then the value with a length of 7 bits. -/
def InsertWithNameReferenceInstruction : QpackInstruction :=
  { opcode := 0x80
    fields := [⟨QpackInstructionFieldType.kSbit, 0x40⟩, ⟨QpackInstructionFieldType.kVarint, 6⟩,
               ⟨QpackInstructionFieldType.kValue, 7⟩] }

/-- Modelled from the spec: the schema of the insert-without-name-reference instruction
(`qpack_instructions.cc` is missing): top bits 01, the name with a length of 5 bits, then
the value with a length of 7 bits. -/
def InsertWithoutNameReferenceInstruction : QpackInstruction :=
  { opcode := 0x40
    fields := [⟨QpackInstructionFieldType.kName, 5⟩, ⟨QpackInstructionFieldType.kValue, 7⟩] }

/-- Modelled from the spec: the schema of the duplicate instruction (`qpack_instructions.cc`
is missing): top bits 000 and an index of 5 bits. -/
def DuplicateInstruction : QpackInstruction :=
  { opcode := 0x00, fields := [⟨QpackInstructionFieldType.kVarint, 5⟩] }

/-- Modelled from the spec: the schema of the dynamic table size update instruction
(`qpack_instructions.cc` is missing): top bits 001 and a capacity of 5 bits. -/
def DynamicTableSizeUpdateInstruction : QpackInstruction :=
  { opcode := 0x20, fields := [⟨QpackInstructionFieldType.kVarint, 5⟩] }

/-- Modelled from the spec: `QpackEncoderStreamSender::SendDuplicate` (the source file of
the sender is missing; its test is `qpack_encoder_stream_sender_test.cc`): the encoder of
the sender afterwards and the data passed to `Write` of the delegate. -/
def SendDuplicate (h : HuffmanCoder) (enc : QpackInstructionEncoder) (index : Nat) :
    Option (QpackInstructionEncoder × Bytes) :=
  Encode h enc
    { instruction := DuplicateInstruction, s_bit := false, varint := index, varint2 := 0,
      name := [], value := [] } []

/-- Modelled from the spec: `QpackEncoderStreamSender::SendDynamicTableSizeUpdate` (the
source file of the sender is missing; its test is `qpack_encoder_stream_sender_test.cc`):
the encoder of the sender afterwards and the data passed to `Write` of the delegate. -/
def SendDynamicTableSizeUpdate (h : HuffmanCoder) (enc : QpackInstructionEncoder)
    (max_size : Nat) : Option (QpackInstructionEncoder × Bytes) :=
  Encode h enc
    { instruction := DynamicTableSizeUpdateInstruction, s_bit := false, varint := max_size,
      varint2 := 0, name := [], value := [] } []

/-- Modelled from the spec: `QpackEncoderStreamSender::SendInsertWithNameReference` (the
source file of the sender is missing; its test is `qpack_encoder_stream_sender_test.cc`):
the encoder of the sender afterwards and the data passed to `Write` of the delegate. -/
def SendInsertWithNameReference (h : HuffmanCoder) (enc : QpackInstructionEncoder)
    (is_static : Bool) (name_index : Nat) (value : Bytes) :
    Option (QpackInstructionEncoder × Bytes) :=
  Encode h enc
    { instruction := InsertWithNameReferenceInstruction, s_bit := is_static,
      varint := name_index, varint2 := 0, name := [], value := value } []

/-- Modelled from the spec: `QpackEncoderStreamSender::SendInsertWithoutNameReference` (the
source file of the sender is missing; its test is `qpack_encoder_stream_sender_test.cc`):
the encoder of the sender afterwards and the data passed to `Write` of the delegate. -/
def SendInsertWithoutNameReference (h : HuffmanCoder) (enc : QpackInstructionEncoder)
    (name value : Bytes) : Option (QpackInstructionEncoder × Bytes) :=
  Encode h enc
    { instruction := InsertWithoutNameReferenceInstruction, s_bit := false, varint := 0,
      varint2 := 0, name := name, value := value } []

/-- Modelled from the spec: an entry of the static Huffman code table, which the spec names
as an external building block: the code of a byte, as a number, and its length in bits. -/
structure HuffmanSymbol where
  code : Nat
  length : Nat
deriving DecidableEq, Repr

/-- The bits of a code, the most significant first. -/
def HuffmanSymbol.bits (c : HuffmanSymbol) : List Bool :=
  (List.range c.length).map (fun i => Nat.testBit c.code (c.length - 1 - i))

/-- Modelled from the spec: the Huffman form of a string as a bit sequence: the codes of
its bytes one after the other. -/
def HuffmanBits (table : Nat → HuffmanSymbol) (s : Bytes) : List Bool :=
  (s.map (fun b => (table b).bits)).flatten

/-- The byte number `i` of a bit sequence cut into bytes, the most significant bit first;
positions past the end of the sequence count as ones (the padding of the last byte). -/
def PackedByte (bits : List Bool) (i : Nat) : Nat :=
  (List.range 8).foldl (fun acc j => 2 * acc + (if bits.getD (8 * i + j) true then 1 else 0)) 0

/-- Modelled from the spec: the Huffman coder given by a code table.  The size is the sum of
the code lengths of the bytes of the string, in bits, rounded up to bytes; the Huffman form
is the bit sequence cut into bytes, the last byte padded with ones. -/
def HuffmanCoder.ofTable (table : Nat → HuffmanSymbol) : HuffmanCoder :=
  { HuffmanSize := fun s => ((s.map (fun b => (table b).length)).sum + 7) / 8
    HuffmanEncode := fun s =>
      (List.range (((HuffmanBits table s).length + 7) / 8)).map
        (PackedByte (HuffmanBits table s)) }

/-- The codes of the static Huffman table for the bytes of the strings of
`qpack_encoder_stream_sender_test.cc`: a, b, f, o, r and Z (the table is external to the
sources).  Every other byte stands here with a 30-bit code of ones and occurs in no
example. -/
def testHuffmanTable (b : Nat) : HuffmanSymbol :=
  if b = 97 then ⟨0x3, 5⟩
  else if b = 98 then ⟨0x23, 6⟩
  else if b = 102 then ⟨0x25, 6⟩
  else if b = 111 then ⟨0x7, 5⟩
  else if b = 114 then ⟨0x2c, 6⟩
  else if b = 90 then ⟨0xfd, 8⟩
  else ⟨0x3fffffff, 30⟩

/-- Reference definition of the bytes written for a string field with `N` length bits and
shared byte `byte`: Huffman flag, length and bytes by the Huffman selection rule. -/
def StringFieldBytes (h : HuffmanCoder) (byte N : Nat) (s : Bytes) : Bytes :=
  if h.HuffmanSize s < s.length then
    HpackVarintEncode (byte ||| 2 ^ N) N (h.HuffmanSize s) ++ h.HuffmanEncode s
  else HpackVarintEncode byte N s.length ++ s

/-- Reference definition of the bytes written for a list of fields, from the values of the
instruction and the content of the shared byte alone. -/
def FieldsBytes (h : HuffmanCoder) (iv : QpackInstructionWithValues) :
    Nat → List QpackInstructionField → Bytes
  | _, [] => []
  | byte, f :: rest =>
    match f.type with
    | QpackInstructionFieldType.kSbit =>
      FieldsBytes h iv (if iv.s_bit then byte ||| f.param else byte) rest
    | QpackInstructionFieldType.kVarint =>
      HpackVarintEncode byte f.param iv.varint ++ FieldsBytes h iv 0 rest
    | QpackInstructionFieldType.kVarint2 =>
      HpackVarintEncode byte f.param iv.varint2 ++ FieldsBytes h iv 0 rest
    | QpackInstructionFieldType.kName =>
      StringFieldBytes h byte f.param iv.name ++ FieldsBytes h iv 0 rest
    | QpackInstructionFieldType.kValue =>
      StringFieldBytes h byte f.param iv.value ++ FieldsBytes h iv 0 rest

/-- Reference definition of the encoding of an instruction with values: a function of the
instruction and its values alone. -/
def InstructionBytes (h : HuffmanCoder) (iv : QpackInstructionWithValues) : Bytes :=
  FieldsBytes h iv iv.instruction.opcode iv.instruction.fields

/-- A sequence of `Encode` calls on one encoder and one output. -/
def EncodeAll (h : HuffmanCoder) : QpackInstructionEncoder →
    List QpackInstructionWithValues → Bytes → Option (QpackInstructionEncoder × Bytes)
  | enc, [], output => some (enc, output)
  | enc, iv :: ivs, output =>
    match Encode h enc iv output with
    | none => none
    | some r => EncodeAll h r.1 ivs r.2

/-- A number of transitions of the state machine of `Encode`, one after the other. -/
def EncodeSteps (h : HuffmanCoder) : Nat → QpackInstructionEncoder →
    QpackInstructionWithValues → Bytes → QpackInstructionEncoder × Bytes
  | 0, enc, _, output => (enc, output)
  | n + 1, enc, iv, output =>
    EncodeSteps h n (EncodeStep h enc iv output).1 iv (EncodeStep h enc iv output).2

/-- A Huffman coder used in examples that never shortens a string. -/
def exampleHuffman : HuffmanCoder :=
  { HuffmanSize := fun s => s.length, HuffmanEncode := fun s => s }

/-- The loop of `EvictDownToCurrentCapacity` with a counter of its passes: the same
recursion as `EvictLoop`, returning the table and the number of times the body has run. -/
def EvictLoopCount : List QpackEntry → QpackHeaderTable → Option (QpackHeaderTable × Nat)
  | [], t => if t.dynamic_table_size > t.dynamic_table_capacity then none else some (t, 0)
  | entry :: rest, t =>
    if t.dynamic_table_size > t.dynamic_table_capacity then
      match EvictFront t entry rest with
      | none => none
      | some t1 => (EvictLoopCount rest t1).map (fun r => (r.1, r.2 + 1))
    else some (t, 0)

/-- The tables at the head of the loop of `EvictDownToCurrentCapacity`, where its condition
is tested: a reachable table, a table on which a public method calls
`EvictDownToCurrentCapacity`, and the table after a pass of the loop body from such a
table. -/
inductive EvictionLoopHead (s : QpackStaticTable) : QpackHeaderTable → Prop where
  | reachable (t : QpackHeaderTable) : Reachable s t → EvictionLoopHead s t
  | call (t : QpackHeaderTable) : EvictionCall s t → EvictionLoopHead s t
  | pass (t t1 : QpackHeaderTable) (entry : QpackEntry) (rest : List QpackEntry) :
      EvictionLoopHead s t → t.dynamic_table_size > t.dynamic_table_capacity →
      t.dynamic_entries = entry :: rest → EvictFront t entry rest = some t1 →
      EvictionLoopHead s t1

/-! ## Lists -/

theorem find?_erase_of_false {β : Type} [BEq β] [LawfulBEq β] (p : β → Bool) (a : β)
    (h : p a = false) (l : List β) : (l.erase a).find? p = l.find? p := by
  induction l with
  | nil => rfl
  | cons x xs ih =>
    by_cases hx : x = a
    · subst hx
      simp [List.find?_cons, h]
    · have hb : ¬ (x == a) = true := by simpa using hx
      rw [List.erase_cons_tail hb]
      simp [List.find?_cons, ih]

theorem find?_erase_of_unique {β : Type} [BEq β] [LawfulBEq β] (p : β → Bool) (a : β)
    (hp : p a = true) (l : List β) (ha : a ∈ l)
    (hu : l.Pairwise (fun x y => ¬ (p x = true ∧ p y = true))) :
    (l.erase a).find? p = none := by
  induction l with
  | nil => simp at ha
  | cons x xs ih =>
    rw [List.pairwise_cons] at hu
    by_cases hx : x = a
    · subst hx
      simp only [List.erase_cons_head]
      rw [List.find?_eq_none]
      intro y hy hpy
      exact hu.1 y hy ⟨hp, hpy⟩
    · have hb : ¬ (x == a) = true := by simpa using hx
      have ha1 : a ∈ xs := by
        rcases List.mem_cons.1 ha with h | h
        · exact absurd h.symm hx
        · exact h
      have hpx : p x = false := by
        cases hpx : p x with
        | false => rfl
        | true => exact absurd ⟨hpx, hp⟩ (hu.1 a ha1)
      rw [List.erase_cons_tail hb, List.find?_cons, hpx]
      exact ih ha1 hu.2

theorem unique_of_pairwise_key {β κ : Type} (kβ : β → κ) (k : κ) [BEq κ] [LawfulBEq κ] (l : List β)
    (hu : l.Pairwise (fun x y => kβ x ≠ kβ y)) :
    l.Pairwise (fun x y => ¬ ((kβ x == k) = true ∧ (kβ y == k) = true)) := by
  refine hu.imp ?_
  intro x y hxy h
  simp only [beq_iff_eq] at h
  exact hxy (h.1.trans h.2.symm)

/-- What the eviction loop does to an index when the front entry `e` leaves the deque: the
index described `e :: live` and afterwards describes `live`. -/
theorem index_evict {α β κ : Type} [DecidableEq α] [BEq β] [LawfulBEq β] [BEq κ] [LawfulBEq κ]
    (kα : α → κ) (kβ : β → κ) (f : α → β) (ptr : β → α)
    (hk : ∀ a, kβ (f a) = kα a) (hptr : ∀ a, ptr (f a) = a)
    (I : List β) (e : α) (live : List α) (hnd : e ∉ live)
    (hfind : ∀ k, I.find? (fun b => kβ b == k) =
      ((e :: live).reverse.find? (fun a => kα a == k)).map f)
    (huniq : I.Pairwise (fun x y => kβ x ≠ kβ y)) :
    ∃ J, (match I.find? (fun b => kβ b == kα e) with
          | some it => if ptr it = e then I.erase it else I
          | none => I) = J ∧
      (∀ k, J.find? (fun b => kβ b == k) = (live.reverse.find? (fun a => kα a == k)).map f) ∧
      J.Pairwise (fun x y => kβ x ≠ kβ y) := by
  have hsplit : ∀ k, I.find? (fun b => kβ b == k) =
      ((live.reverse.find? (fun a => kα a == k)).or
        (if kα e == k then some e else none)).map f := by
    intro k
    rw [hfind k, List.reverse_cons, List.find?_append]
    cases hek : kα e == k
    · simp [List.find?_cons, hek]
    · simp [List.find?_cons, hek]
  have h1 := hsplit (kα e)
  cases hl : live.reverse.find? (fun a => kα a == kα e) with
  | none =>
    rw [hl] at h1
    simp only [beq_self_eq_true, if_true, Option.none_or, Option.map_some'] at h1
    refine ⟨I.erase (f e), ?_, ?_, huniq.sublist (List.erase_sublist _ _)⟩
    · rw [h1]
      simp [hptr]
    · intro k
      by_cases hek : kα e = k
      · subst hek
        rw [hl]
        exact find?_erase_of_unique _ (f e) (by simp [hk]) I
          (List.mem_of_find?_eq_some h1) (unique_of_pairwise_key kβ _ I huniq)
      · rw [find?_erase_of_false _ (f e) (by simp [hk, hek]) I, hsplit k]
        simp [hek]
  | some e1 =>
    rw [hl] at h1
    simp only [Option.or_some, Option.map_some'] at h1
    have hmem : e1 ∈ live := by
      have := List.mem_of_find?_eq_some hl
      simpa using this
    have hne : e1 ≠ e := by
      intro h
      exact hnd (h ▸ hmem)
    refine ⟨I, ?_, ?_, huniq⟩
    · rw [h1]
      simp [hptr, hne]
    · intro k
      rw [hsplit k]
      by_cases hek : kα e = k
      · subst hek
        rw [hl]
        simp
      · simp [hek]

/-- What `InsertEntry` does to an index for the entry `new` pushed on the deque: the index
described `live` and afterwards describes `live ++ [new]`.  The index `J` is the one after
the stored element with the key of `new`, if any, has been erased. -/
theorem index_insert {α β κ : Type} [BEq β] [LawfulBEq β] [BEq κ] [LawfulBEq κ]
    (kα : α → κ) (kβ : β → κ) (f : α → β)
    (hk : ∀ a, kβ (f a) = kα a)
    (I : List β) (new : α) (live : List α)
    (hfind : ∀ k, I.find? (fun b => kβ b == k) =
      (live.reverse.find? (fun a => kα a == k)).map f)
    (huniq : I.Pairwise (fun x y => kβ x ≠ kβ y)) :
    ∃ J, (match I.find? (fun b => kβ b == kα new) with
          | some old => I.erase old
          | none => I) = J ∧
      J.find? (fun b => kβ b == kα new) = none ∧
      (∀ k, (f new :: J).find? (fun b => kβ b == k) =
        ((live ++ [new]).reverse.find? (fun a => kα a == k)).map f) ∧
      (f new :: J).Pairwise (fun x y => kβ x ≠ kβ y) := by
  have key : ∀ J : List β, J.find? (fun b => kβ b == kα new) = none →
      (∀ k, kα new ≠ k → J.find? (fun b => kβ b == k) = I.find? (fun b => kβ b == k)) →
      J.Pairwise (fun x y => kβ x ≠ kβ y) →
      (∀ k, (f new :: J).find? (fun b => kβ b == k) =
        ((live ++ [new]).reverse.find? (fun a => kα a == k)).map f) ∧
      (f new :: J).Pairwise (fun x y => kβ x ≠ kβ y) := by
    intro J hnone hother hJ
    constructor
    · intro k
      rw [List.reverse_append, List.reverse_singleton, List.singleton_append]
      by_cases hek : kα new = k
      · simp [List.find?_cons, hk, hek]
      · have hb : (kα new == k) = false := by simpa using hek
        simp only [List.find?_cons, hk, hb]
        rw [hother k hek, hfind k]
    · rw [List.pairwise_cons]
      refine ⟨?_, hJ⟩
      intro y hy
      rw [List.find?_eq_none] at hnone
      have := hnone y hy
      simp only [beq_iff_eq] at this
      rw [hk]
      exact fun h => this h.symm
  cases hI : I.find? (fun b => kβ b == kα new) with
  | none =>
    refine ⟨I, rfl, hI, ?_⟩
    exact key I hI (fun _ _ => rfl) huniq
  | some old =>
    have hold : kβ old = kα new := by
      have := List.find?_some hI
      simpa using this
    have hnone : (I.erase old).find? (fun b => kβ b == kα new) = none :=
      find?_erase_of_unique _ old (by simp [hold]) I (List.mem_of_find?_eq_some hI)
        (unique_of_pairwise_key kβ _ I huniq)
    refine ⟨I.erase old, rfl, hnone, ?_⟩
    refine key _ hnone ?_ (huniq.sublist (List.erase_sublist _ _))
    intro k hek
    exact find?_erase_of_false _ old (by simp [hold, hek]) I

/-! ## The indices of the dynamic table -/

theorem EntriesEq_fun (q : QpackEntry) :
    (fun e : QpackEntry => EntriesEq e q) =
      (fun e : QpackEntry => (e.name, e.value) == (q.name, q.value)) := by
  funext e
  rfl

theorem set_find_key (s : UnorderedEntrySet) (q : QpackEntry) :
    UnorderedEntrySet.find s q =
      List.find? (fun e : QpackEntry => (e.name, e.value) == (q.name, q.value)) s := by
  unfold UnorderedEntrySet.find
  rw [EntriesEq_fun]

theorem set_unique_key (s : UnorderedEntrySet)
    (h : s.Pairwise (fun a b => EntriesEq a b = false)) :
    s.Pairwise (fun a b : QpackEntry => (a.name, a.value) ≠ (b.name, b.value)) := by
  refine h.imp ?_
  intro a b hab heq
  simp only [Prod.mk.injEq] at heq
  simp [EntriesEq, heq.1, heq.2] at hab

theorem set_unique_of_key (s : UnorderedEntrySet)
    (h : s.Pairwise (fun a b : QpackEntry => (a.name, a.value) ≠ (b.name, b.value))) :
    s.Pairwise (fun a b => EntriesEq a b = false) := by
  refine h.imp ?_
  intro a b hab
  cases hE : EntriesEq a b with
  | false => rfl
  | true =>
    simp only [EntriesEq, Bool.and_eq_true, beq_iff_eq] at hE
    exact absurd (Prod.ext hE.1 hE.2) hab

theorem set_evict (I : UnorderedEntrySet) (e : QpackEntry) (live : List QpackEntry)
    (hnd : e ∉ live)
    (hfind : ∀ q, UnorderedEntrySet.find I q = (e :: live).reverse.find? (fun x => EntriesEq x q))
    (huniq : I.Pairwise (fun a b => EntriesEq a b = false)) :
    ∃ J, (match UnorderedEntrySet.find I e with
          | some it => if it = e then UnorderedEntrySet.erase I it else I
          | none => I) = J ∧
      (∀ q, UnorderedEntrySet.find J q = live.reverse.find? (fun x => EntriesEq x q)) ∧
      J.Pairwise (fun a b => EntriesEq a b = false) := by
  obtain ⟨J, hJ, hJfind, hJuniq⟩ := index_evict
    (fun x : QpackEntry => (x.name, x.value)) (fun x : QpackEntry => (x.name, x.value))
    (fun x => x) (fun x => x) (fun _ => rfl) (fun _ => rfl) I e live hnd
    (by
      intro k
      have := hfind (QpackEntry.query k.1 k.2)
      rw [set_find_key, EntriesEq_fun] at this
      simpa [QpackEntry.query] using this)
    (set_unique_key I huniq)
  refine ⟨J, ?_, ?_, set_unique_of_key J hJuniq⟩
  · rw [set_find_key, ← hJ]
    unfold UnorderedEntrySet.erase
    generalize List.find? _ I = o
    cases o <;> rfl
  · intro q
    rw [set_find_key, EntriesEq_fun]
    simpa using hJfind (q.name, q.value)

theorem map_evict (I : NameToEntryMap) (e : QpackEntry) (live : List QpackEntry)
    (hnd : e ∉ live)
    (hfind : ∀ n, NameToEntryMap.find I n =
      ((e :: live).reverse.find? (fun x => x.name == n)).map (fun x => (x.name, x)))
    (huniq : I.Pairwise (fun a b => a.1 ≠ b.1)) :
    ∃ J, (match NameToEntryMap.find I e.name with
          | some it => if it.2 = e then NameToEntryMap.erase I it else I
          | none => I) = J ∧
      (∀ n, NameToEntryMap.find J n =
        (live.reverse.find? (fun x => x.name == n)).map (fun x => (x.name, x))) ∧
      J.Pairwise (fun a b => a.1 ≠ b.1) := by
  obtain ⟨J, hJ, hJfind, hJuniq⟩ := index_evict
    (fun x : QpackEntry => x.name) (fun p : Bytes × QpackEntry => p.1)
    (fun x => (x.name, x)) (fun p => p.2) (fun _ => rfl) (fun _ => rfl) I e live hnd
    hfind huniq
  refine ⟨J, ?_, hJfind, hJuniq⟩
  rw [← hJ]
  unfold NameToEntryMap.find NameToEntryMap.erase
  generalize List.find? _ I = o
  cases o <;> rfl

theorem set_insert (I : UnorderedEntrySet) (new : QpackEntry) (live : List QpackEntry)
    (hfind : ∀ q, UnorderedEntrySet.find I q = live.reverse.find? (fun x => EntriesEq x q))
    (huniq : I.Pairwise (fun a b => EntriesEq a b = false)) :
    ∃ J, (match UnorderedEntrySet.find I new with
          | some old => UnorderedEntrySet.erase I old
          | none => I) = J ∧
      UnorderedEntrySet.find J new = none ∧
      (∀ q, UnorderedEntrySet.find (new :: J) q =
        (live ++ [new]).reverse.find? (fun x => EntriesEq x q)) ∧
      List.Pairwise (fun a b => EntriesEq a b = false) (new :: J) := by
  obtain ⟨J, hJ, hnone, hJfind, hJuniq⟩ := index_insert
    (fun x : QpackEntry => (x.name, x.value)) (fun x : QpackEntry => (x.name, x.value))
    (fun x => x) (fun _ => rfl) I new live
    (by
      intro k
      have := hfind (QpackEntry.query k.1 k.2)
      rw [set_find_key, EntriesEq_fun] at this
      simpa [QpackEntry.query] using this)
    (set_unique_key I huniq)
  refine ⟨J, ?_, ?_, ?_, set_unique_of_key _ hJuniq⟩
  · rw [set_find_key, ← hJ]
    unfold UnorderedEntrySet.erase
    generalize List.find? _ I = o
    cases o <;> rfl
  · rw [set_find_key]
    exact hnone
  · intro q
    rw [set_find_key, EntriesEq_fun]
    simpa using hJfind (q.name, q.value)

theorem map_insert (I : NameToEntryMap) (new : QpackEntry) (live : List QpackEntry)
    (hfind : ∀ n, NameToEntryMap.find I n =
      (live.reverse.find? (fun x => x.name == n)).map (fun x => (x.name, x)))
    (huniq : I.Pairwise (fun a b => a.1 ≠ b.1)) :
    ∃ J, (match NameToEntryMap.find I new.name with
          | some old => NameToEntryMap.erase I old
          | none => I) = J ∧
      NameToEntryMap.find J new.name = none ∧
      (∀ n, NameToEntryMap.find ((new.name, new) :: J) n =
        ((live ++ [new]).reverse.find? (fun x => x.name == n)).map (fun x => (x.name, x))) ∧
      List.Pairwise (fun a b : Bytes × QpackEntry => a.1 ≠ b.1) ((new.name, new) :: J) := by
  obtain ⟨J, hJ, hnone, hJfind, hJuniq⟩ := index_insert
    (fun x : QpackEntry => x.name) (fun p : Bytes × QpackEntry => p.1)
    (fun x => (x.name, x)) (fun _ => rfl) I new live hfind huniq
  refine ⟨J, ?_, hnone, hJfind, hJuniq⟩
  rw [← hJ]
  unfold NameToEntryMap.find NameToEntryMap.erase
  generalize List.find? _ I = o
  cases o <;> rfl

/-! ## The eviction loop -/

theorem totalSize_cons (e : QpackEntry) (l : List QpackEntry) :
    totalSize (e :: l) = EntrySize e.name e.value + totalSize l := by
  simp [totalSize]

theorem totalSize_append (l m : List QpackEntry) :
    totalSize (l ++ m) = totalSize l + totalSize m := by
  simp [totalSize]

theorem nodup_of_numbering (l : List QpackEntry) (d : Nat)
    (h : l.map (fun e => e.insertion_index) = List.range' d l.length) : l.Nodup := by
  apply List.Nodup.of_map (fun e : QpackEntry => e.insertion_index)
  rw [h]
  exact List.nodup_range' d l.length

theorem EvictFront_inv (t : QpackHeaderTable) (e : QpackEntry) (live pend : List QpackEntry)
    (h : TableInv t (e :: live) pend) :
    ∃ t1, EvictFront t e (live ++ pend) = some t1 ∧ TableInv t1 live pend ∧ SameFrame t t1 ∧
      t1.dropped_entry_count = t.dropped_entry_count + 1 := by
  have hnodup := nodup_of_numbering _ _ h.numbering
  have hnd : e ∉ live := by
    rw [List.cons_append, List.nodup_cons] at hnodup
    exact fun hm => hnodup.1 (List.mem_append_left _ hm)
  obtain ⟨J, hJ, hJfind, hJuniq⟩ := set_evict t.dynamic_index e live hnd h.index_find h.index_unique
  obtain ⟨K, hK, hKfind, hKuniq⟩ :=
    map_evict t.dynamic_name_index e live hnd h.name_find h.name_unique
  have hsize : t.dynamic_table_size = EntrySize e.name e.value + totalSize (live ++ pend) := by
    rw [h.size, List.cons_append, totalSize_cons]
  have hlt : ¬ t.dynamic_table_size < EntrySize e.name e.value := by omega
  refine ⟨{ t with
      dynamic_table_size := t.dynamic_table_size - EntrySize e.name e.value
      dynamic_index := J
      dynamic_name_index := K
      dynamic_entries := live ++ pend
      dropped_entry_count := t.dropped_entry_count + 1 }, ?_, ?_, ?_, ?_⟩
  · unfold EvictFront
    simp only [hlt, if_false]
    rw [hJ, hK]
  · refine ⟨rfl, ?_, ?_, hJfind, hJuniq, hKfind, hKuniq⟩
    · show t.dynamic_table_size - EntrySize e.name e.value = totalSize (live ++ pend)
      omega
    · show List.map _ (live ++ pend) = List.range' (t.dropped_entry_count + 1) _
      have := h.numbering
      rw [List.cons_append, List.map_cons, List.length_cons, List.range'_succ] at this
      exact (List.cons.inj this).2
  · exact ⟨rfl, rfl, rfl, rfl, rfl, rfl⟩
  · rfl

theorem EvictLoop_done (l : List QpackEntry) (t : QpackHeaderTable)
    (h : t.dynamic_table_size ≤ t.dynamic_table_capacity) : EvictLoop l t = some t := by
  have hn : ¬ t.dynamic_table_size > t.dynamic_table_capacity := by omega
  cases l <;> simp [EvictLoop, hn]

theorem SameFrame.refl (t : QpackHeaderTable) : SameFrame t t :=
  ⟨rfl, rfl, rfl, rfl, rfl, rfl⟩

theorem SameFrame.trans {t t1 t2 : QpackHeaderTable} (h1 : SameFrame t t1)
    (h2 : SameFrame t1 t2) : SameFrame t t2 :=
  ⟨h2.1.trans h1.1, h2.2.1.trans h1.2.1, h2.2.2.1.trans h1.2.2.1,
   h2.2.2.2.1.trans h1.2.2.2.1, h2.2.2.2.2.1.trans h1.2.2.2.2.1,
   h2.2.2.2.2.2.trans h1.2.2.2.2.2⟩

/-- The eviction loop on a deque `live ++ pend` whose part `pend` fits the capacity: it
returns, having removed the `k` oldest entries of `live`, for the least `k` that brings the
size down to the capacity. -/
theorem EvictLoop_inv (live pend : List QpackEntry) :
    ∀ t : QpackHeaderTable, TableInv t live pend →
      totalSize pend ≤ t.dynamic_table_capacity →
      ∃ k t1, k ≤ live.length ∧ EvictLoop (live ++ pend) t = some t1 ∧
        TableInv t1 (live.drop k) pend ∧ SameFrame t t1 ∧
        t1.dropped_entry_count = t.dropped_entry_count + k ∧
        t1.dynamic_table_size ≤ t1.dynamic_table_capacity ∧
        (∀ j, j < k → t.dynamic_table_capacity < totalSize (live.drop j ++ pend)) := by
  induction live with
  | nil =>
    intro t h hp
    have hle : t.dynamic_table_size ≤ t.dynamic_table_capacity := by
      rw [h.size]
      simpa using hp
    exact ⟨0, t, Nat.le_refl _, EvictLoop_done _ t hle, h, SameFrame.refl t, rfl, hle,
      fun j hj => absurd hj (Nat.not_lt_zero j)⟩
  | cons e live ih =>
    intro t h hp
    by_cases hle : t.dynamic_table_size ≤ t.dynamic_table_capacity
    · exact ⟨0, t, Nat.zero_le _, EvictLoop_done _ t hle, h, SameFrame.refl t, rfl, hle,
        fun j hj => absurd hj (Nat.not_lt_zero j)⟩
    · have hgt : t.dynamic_table_size > t.dynamic_table_capacity := by omega
      obtain ⟨t1, hfront, hinv1, hframe1, hdrop1⟩ := EvictFront_inv t e live pend h
      have hcap1 : t1.dynamic_table_capacity = t.dynamic_table_capacity := hframe1.2.2.2.1
      obtain ⟨k, t2, hk, hloop, hinv2, hframe2, hdrop2, hle2, hmin⟩ :=
        ih t1 hinv1 (by rw [hcap1]; exact hp)
      refine ⟨k + 1, t2, by simpa using hk, ?_, by simpa using hinv2,
        hframe1.trans hframe2, by omega, hle2, ?_⟩
      · rw [List.cons_append]
        simp only [EvictLoop, hgt, if_true, hfront]
        exact hloop
      · intro j hj
        cases j with
        | zero =>
          rw [List.drop_zero, ← h.size]
          exact hgt
        | succ j =>
          rw [List.drop_succ_cons, ← hcap1]
          exact hmin j (by omega)

/-! ## The public methods -/

theorem set_insert_final (I : UnorderedEntrySet) (new : QpackEntry) (J : UnorderedEntrySet)
    (hJ : (match UnorderedEntrySet.find I new with
          | some old => UnorderedEntrySet.erase I old
          | none => I) = J)
    (hnone : UnorderedEntrySet.find J new = none) :
    (if (UnorderedEntrySet.insert I new).2.2 then ((UnorderedEntrySet.insert I new).1, true)
     else
      ((UnorderedEntrySet.insert (UnorderedEntrySet.erase (UnorderedEntrySet.insert I new).1
          (UnorderedEntrySet.insert I new).2.1) new).1,
       (UnorderedEntrySet.insert (UnorderedEntrySet.erase (UnorderedEntrySet.insert I new).1
          (UnorderedEntrySet.insert I new).2.1) new).2.2)) = (new :: J, true) := by
  cases hf : UnorderedEntrySet.find I new with
  | none =>
    rw [hf] at hJ
    simp only at hJ
    subst hJ
    simp [UnorderedEntrySet.insert, hf]
  | some old =>
    rw [hf] at hJ
    simp only at hJ
    subst hJ
    simp [UnorderedEntrySet.insert, hf, hnone]

theorem map_insert_final (I : NameToEntryMap) (kv : Bytes × QpackEntry) (J : NameToEntryMap)
    (hJ : (match NameToEntryMap.find I kv.1 with
          | some old => NameToEntryMap.erase I old
          | none => I) = J)
    (hnone : NameToEntryMap.find J kv.1 = none) :
    (if (NameToEntryMap.insert I kv).2.2 then ((NameToEntryMap.insert I kv).1, true)
     else
      ((NameToEntryMap.insert (NameToEntryMap.erase (NameToEntryMap.insert I kv).1
          (NameToEntryMap.insert I kv).2.1) kv).1,
       (NameToEntryMap.insert (NameToEntryMap.erase (NameToEntryMap.insert I kv).1
          (NameToEntryMap.insert I kv).2.1) kv).2.2)) = (kv :: J, true) := by
  cases hf : NameToEntryMap.find I kv.1 with
  | none =>
    rw [hf] at hJ
    simp only at hJ
    subst hJ
    simp [NameToEntryMap.insert, hf]
  | some old =>
    rw [hf] at hJ
    simp only at hJ
    subst hJ
    simp [NameToEntryMap.insert, hf, hnone]

/-- A successful `InsertEntry` on a table that satisfies the invariant: the `k` oldest
entries are evicted, for the least `k` that makes room, and the new entry is appended and
indexed. -/
theorem InsertEntry_inv (t : QpackHeaderTable) (h : TableInv t t.dynamic_entries [])
    (name value : Bytes) (hfit : EntrySize name value ≤ t.dynamic_table_capacity) :
    ∃ k t1, k ≤ t.dynamic_entries.length ∧
      InsertEntry t name value = some (t1, some ⟨name, value, false,
        t.dropped_entry_count + t.dynamic_entries.length⟩) ∧
      t1.dynamic_entries = t.dynamic_entries.drop k ++ [⟨name, value, false,
        t.dropped_entry_count + t.dynamic_entries.length⟩] ∧
      TableInv t1 t1.dynamic_entries [] ∧ SameFrame t t1 ∧
      t1.dropped_entry_count = t.dropped_entry_count + k ∧
      t1.dynamic_table_size ≤ t1.dynamic_table_capacity ∧
      UnorderedEntrySet.find t1.dynamic_index (QpackEntry.query name value) =
        some ⟨name, value, false, t.dropped_entry_count + t.dynamic_entries.length⟩ ∧
      NameToEntryMap.find t1.dynamic_name_index name =
        some (name, ⟨name, value, false, t.dropped_entry_count + t.dynamic_entries.length⟩) ∧
      (∀ j, j < k → t.dynamic_table_capacity < totalSize (t.dynamic_entries.drop j) +
        EntrySize name value) := by
  generalize hnew : (⟨name, value, false,
    t.dropped_entry_count + t.dynamic_entries.length⟩ : QpackEntry) = new
  have hnn : new.name = name := by rw [← hnew]
  have hnv : new.value = value := by rw [← hnew]
  have hinv0 : TableInv { t with
      dynamic_entries := t.dynamic_entries ++ [new]
      dynamic_table_size := t.dynamic_table_size + EntrySize name value }
      t.dynamic_entries [new] := by
    refine ⟨rfl, ?_, ?_, h.index_find, h.index_unique, h.name_find, h.name_unique⟩
    · show t.dynamic_table_size + EntrySize name value = totalSize (t.dynamic_entries ++ [new])
      rw [totalSize_append, h.size, List.append_nil, totalSize_cons, hnn, hnv]
      simp [totalSize]
    · show List.map _ (t.dynamic_entries ++ [new]) = List.range' t.dropped_entry_count _
      have := h.numbering
      rw [List.append_nil] at this
      rw [List.map_append, this, List.length_append, List.length_singleton,
        List.range'_concat, ← hnew]
      simp
  obtain ⟨k, t2, hk, hloop, hinv2, hframe, hdrop, hle, hmin⟩ :=
    EvictLoop_inv t.dynamic_entries [new] _ hinv0 (by
      rw [totalSize_cons, hnn, hnv]
      simpa [totalSize] using hfit)
  obtain ⟨J, hJ, hJnone, hJfind, hJuniq⟩ :=
    set_insert t2.dynamic_index new _ hinv2.index_find hinv2.index_unique
  obtain ⟨K, hK, hKnone, hKfind, hKuniq⟩ :=
    map_insert t2.dynamic_name_index new _ hinv2.name_find hinv2.name_unique
  rw [hnn] at hK hKnone hKfind hKuniq
  have hnot : ¬ EntrySize name value > t.dynamic_table_capacity := by omega
  refine ⟨k, { t2 with dynamic_index := new :: J, dynamic_name_index := (name, new) :: K },
    hk, ?_, hinv2.entries, ?_, hframe, hdrop, hle, ?_, ?_, ?_⟩
  · unfold InsertEntry EvictDownToCurrentCapacity
    simp only [hnot, if_false, hnew, hloop]
    rw [set_insert_final _ _ J hJ hJnone, map_insert_final _ _ K hK hKnone]
    simp
  · show TableInv _ (t2.dynamic_entries) []
    rw [hinv2.entries]
    refine ⟨by simp [hinv2.entries], ?_, ?_, hJfind, hJuniq, hKfind, hKuniq⟩
    · simpa using hinv2.size
    · simpa using hinv2.numbering
  · show UnorderedEntrySet.find (new :: J) (QpackEntry.query name value) = some new
    simp [UnorderedEntrySet.find, EntriesEq, QpackEntry.query, hnn, hnv]
  · show NameToEntryMap.find ((name, new) :: K) name = some (name, new)
    simp [NameToEntryMap.find]
  · intro j hj
    have := hmin j hj
    rw [totalSize_append, totalSize_cons, hnn, hnv] at this
    simpa [totalSize] using this

theorem InsertEntry_reject (t : QpackHeaderTable) (name value : Bytes)
    (h : EntrySize name value > t.dynamic_table_capacity) :
    InsertEntry t name value = some (t, none) := by
  unfold InsertEntry
  simp only [h, if_true]

theorem ite_some_shape {α β : Type} (b : Bool) (x : α) (y : β) :
    (if b = true then some (x, some y) else none) = none ∨
      ∃ x1, (if b = true then some (x, some y) else none) = some (x1, some y) := by
  cases b
  · exact Or.inl rfl
  · exact Or.inr ⟨x, rfl⟩

theorem InsertEntry_shape (t : QpackHeaderTable) (name value : Bytes)
    (hn : ¬ EntrySize name value > t.dynamic_table_capacity) :
    InsertEntry t name value = none ∨
      ∃ t1, InsertEntry t name value = some (t1, some ⟨name, value, false,
        t.dropped_entry_count + t.dynamic_entries.length⟩) := by
  unfold InsertEntry
  simp only [hn, if_false]
  generalize EvictDownToCurrentCapacity _ = o
  cases o with
  | none => exact Or.inl rfl
  | some t2 => exact ite_some_shape _ _ _

theorem InsertEntry_null (t t1 : QpackHeaderTable) (name value : Bytes)
    (h : InsertEntry t name value = some (t1, none)) :
    EntrySize name value > t.dynamic_table_capacity := by
  by_contra hn
  rcases InsertEntry_shape t name value hn with h1 | ⟨t2, h2⟩
  · rw [h1] at h
    exact Option.noConfusion h
  · rw [h2] at h
    simp at h

/-- A successful `UpdateTableSize` on a table that satisfies the invariant: the capacity is
set and the `k` oldest entries are evicted, for the least `k` that fits the capacity. -/
theorem UpdateTableSize_inv (t : QpackHeaderTable) (h : TableInv t t.dynamic_entries [])
    (max_size : Nat) (hfit : max_size ≤ t.maximum_dynamic_table_capacity) :
    ∃ k t1, k ≤ t.dynamic_entries.length ∧
      UpdateTableSize t max_size = some (t1, true) ∧
      t1.dynamic_entries = t.dynamic_entries.drop k ∧
      TableInv t1 t1.dynamic_entries [] ∧
      t1.static_entries = t.static_entries ∧ t1.static_index = t.static_index ∧
      t1.static_name_index = t.static_name_index ∧
      t1.dynamic_table_capacity = max_size ∧
      t1.maximum_dynamic_table_capacity = t.maximum_dynamic_table_capacity ∧
      t1.max_entries = t.max_entries ∧
      t1.dropped_entry_count = t.dropped_entry_count + k ∧
      t1.dynamic_table_size ≤ t1.dynamic_table_capacity ∧
      (∀ j, j < k → max_size < totalSize (t.dynamic_entries.drop j)) := by
  have hinv0 : TableInv { t with dynamic_table_capacity := max_size } t.dynamic_entries [] :=
    ⟨h.entries, h.size, h.numbering, h.index_find, h.index_unique, h.name_find, h.name_unique⟩
  obtain ⟨k, t1, hk, hloop, hinv1, hframe, hdrop, hle, hmin⟩ :=
    EvictLoop_inv t.dynamic_entries [] _ hinv0 (by simp [totalSize])
  obtain ⟨f1, f2, f3, f4, f5, f6⟩ := hframe
  have hent : t1.dynamic_entries = t.dynamic_entries.drop k := by
    simpa using hinv1.entries
  have hnot : ¬ max_size > t.maximum_dynamic_table_capacity := by omega
  refine ⟨k, t1, hk, ?_, hent, ?_, f1, f2, f3, f4, f5, f6, hdrop, hle, ?_⟩
  · unfold UpdateTableSize EvictDownToCurrentCapacity
    simp only [hnot, if_false]
    rw [List.append_nil] at hloop
    rw [hloop]
  · rw [hent]
    exact hinv1
  · intro j hj
    simpa using hmin j hj

theorem UpdateTableSize_reject (t : QpackHeaderTable) (max_size : Nat)
    (h : max_size > t.maximum_dynamic_table_capacity) :
    UpdateTableSize t max_size = some (t, false) := by
  unfold UpdateTableSize
  simp only [h, if_true]

theorem UpdateTableSize_false (t t1 : QpackHeaderTable) (max_size : Nat)
    (h : UpdateTableSize t max_size = some (t1, false)) :
    max_size > t.maximum_dynamic_table_capacity := by
  by_contra hn
  unfold UpdateTableSize at h
  simp only [hn, if_false] at h
  split at h
  · exact Option.noConfusion h
  · simp at h

theorem WellFormed_new (s : QpackStaticTable) : WellFormed s (QpackHeaderTable.new s) := by
  refine ⟨⟨rfl, rfl, rfl, ?_, List.Pairwise.nil, ?_, List.Pairwise.nil⟩, rfl, rfl, rfl⟩
  · intro q
    rfl
  · intro n
    rfl

theorem WellFormed_SetMaximumDynamicTableCapacity (s : QpackStaticTable)
    (t : QpackHeaderTable) (h : WellFormed s t) (v : Nat) :
    WellFormed s (SetMaximumDynamicTableCapacity t v) := by
  obtain ⟨hinv, h1, h2, h3⟩ := h
  exact ⟨⟨hinv.entries, hinv.size, hinv.numbering, hinv.index_find, hinv.index_unique,
    hinv.name_find, hinv.name_unique⟩, h1, h2, h3⟩

theorem WellFormed_InsertEntry (s : QpackStaticTable) (t : QpackHeaderTable)
    (h : WellFormed s t) (name value : Bytes) :
    ∃ t1 r, InsertEntry t name value = some (t1, r) ∧ WellFormed s t1 ∧
      (t.dynamic_table_size ≤ t.dynamic_table_capacity →
        t1.dynamic_table_size ≤ t1.dynamic_table_capacity) ∧
      t1.dynamic_table_capacity = t.dynamic_table_capacity ∧
      t1.maximum_dynamic_table_capacity = t.maximum_dynamic_table_capacity ∧
      t1.max_entries = t.max_entries := by
  by_cases hfit : EntrySize name value ≤ t.dynamic_table_capacity
  · obtain ⟨k, t1, _, hins, _, hinv, hframe, _, hle, _⟩ := InsertEntry_inv t h.1 name value hfit
    obtain ⟨f1, f2, f3, f4, f5, f6⟩ := hframe
    exact ⟨t1, _, hins, ⟨hinv, f1.trans h.2.1, f2.trans h.2.2.1, f3.trans h.2.2.2⟩,
      fun _ => hle, f4, f5, f6⟩
  · exact ⟨t, none, InsertEntry_reject t name value (by omega), h, fun hb => hb, rfl, rfl, rfl⟩

theorem WellFormed_UpdateTableSize (s : QpackStaticTable) (t : QpackHeaderTable)
    (h : WellFormed s t) (max_size : Nat) :
    ∃ t1 r, UpdateTableSize t max_size = some (t1, r) ∧ WellFormed s t1 ∧
      (t.dynamic_table_size ≤ t.dynamic_table_capacity →
        t1.dynamic_table_size ≤ t1.dynamic_table_capacity) := by
  by_cases hfit : max_size ≤ t.maximum_dynamic_table_capacity
  · obtain ⟨k, t1, _, hupd, _, hinv, f1, f2, f3, _, _, _, _, hle, _⟩ :=
      UpdateTableSize_inv t h.1 max_size hfit
    exact ⟨t1, true, hupd, ⟨hinv, f1.trans h.2.1, f2.trans h.2.2.1, f3.trans h.2.2.2⟩,
      fun _ => hle⟩
  · exact ⟨t, false, UpdateTableSize_reject t max_size (by omega), h, fun hb => hb⟩

theorem WellFormed_runCall (s : QpackStaticTable) (t : QpackHeaderTable)
    (h : WellFormed s t) (c : Call) :
    ∃ t1, runCall t c = some t1 ∧ WellFormed s t1 ∧
      (isUpdateCall c = true → t.dynamic_table_size ≤ t.dynamic_table_capacity →
        t1.dynamic_table_size ≤ t1.dynamic_table_capacity) := by
  cases c with
  | SetMaximumDynamicTableCapacity v =>
    exact ⟨_, rfl, WellFormed_SetMaximumDynamicTableCapacity s t h v,
      fun hc => Bool.noConfusion hc⟩
  | InsertEntry name value =>
    obtain ⟨t1, r, hins, hwf, hle, _⟩ := WellFormed_InsertEntry s t h name value
    exact ⟨t1, by simp [runCall, hins], hwf, fun _ => hle⟩
  | UpdateTableSize max_size =>
    obtain ⟨t1, r, hupd, hwf, hle⟩ := WellFormed_UpdateTableSize s t h max_size
    exact ⟨t1, by simp [runCall, hupd], hwf, fun _ => hle⟩

theorem WellFormed_runCalls (s : QpackStaticTable) (calls : List Call) :
    ∀ t : QpackHeaderTable, WellFormed s t →
      ∃ t1, runCalls t calls = some t1 ∧ WellFormed s t1 ∧
        ((∀ c ∈ calls, isUpdateCall c = true) →
          t.dynamic_table_size ≤ t.dynamic_table_capacity →
          t1.dynamic_table_size ≤ t1.dynamic_table_capacity) := by
  induction calls with
  | nil =>
    intro t h
    exact ⟨t, rfl, h, fun _ hb => hb⟩
  | cons c cs ih =>
    intro t h
    obtain ⟨t1, hrun, hwf, hle⟩ := WellFormed_runCall s t h c
    obtain ⟨t2, hruns, hwf2, hle2⟩ := ih t1 hwf
    refine ⟨t2, by simp [runCalls, hrun, hruns], hwf2, ?_⟩
    intro hall hb
    exact hle2 (fun c1 hc1 => hall c1 (List.mem_cons_of_mem _ hc1))
      (hle (hall c (List.mem_cons_self _ _)) hb)

theorem Reachable.wellFormed {s : QpackStaticTable} {t : QpackHeaderTable}
    (h : Reachable s t) : WellFormed s t := by
  obtain ⟨calls, hrun⟩ := h
  obtain ⟨t1, hrun1, hwf, _⟩ := WellFormed_runCalls s calls _ (WellFormed_new s)
  rw [hrun] at hrun1
  exact (Option.some.inj hrun1) ▸ hwf

/-! ## Consequences of the invariant -/

theorem numbering_getElem? (l : List QpackEntry) (d : Nat)
    (h : l.map (fun e => e.insertion_index) = List.range' d l.length)
    (j : Nat) (e : QpackEntry) (he : l[j]? = some e) : e.insertion_index = d + j := by
  have hj : j < l.length := by
    rcases Nat.lt_or_ge j l.length with hlt | hge
    · exact hlt
    · rw [List.getElem?_eq_none hge] at he
      exact Option.noConfusion he
  have h1 : (l.map (fun e => e.insertion_index))[j]? = some e.insertion_index := by
    rw [List.getElem?_map, he]
    rfl
  rw [h, List.getElem?_range' d 1 hj] at h1
  have := Option.some.inj h1
  omega

theorem LookupEntry_dynamic_eq (t : QpackHeaderTable) (i : Nat) :
    LookupEntry t false i =
      if i < t.dropped_entry_count ∨ i - t.dropped_entry_count ≥ t.dynamic_entries.length
      then none else t.dynamic_entries[i - t.dropped_entry_count]? := by
  unfold LookupEntry
  by_cases h1 : i < t.dropped_entry_count
  · simp [h1]
  · by_cases h2 : i - t.dropped_entry_count ≥ t.dynamic_entries.length
    · simp [h1, h2]
    · simp [h1, h2]

theorem LookupEntry_of_getElem? (t : QpackHeaderTable) (h : TableInv t t.dynamic_entries [])
    (j : Nat) (e : QpackEntry) (he : t.dynamic_entries[j]? = some e) :
    e.insertion_index = t.dropped_entry_count + j ∧
      LookupEntry t false e.insertion_index = some e := by
  have hnum := h.numbering
  rw [List.append_nil] at hnum
  have hidx := numbering_getElem? _ _ hnum j e he
  have hj : j < t.dynamic_entries.length := by
    rcases Nat.lt_or_ge j t.dynamic_entries.length with hlt | hge
    · exact hlt
    · rw [List.getElem?_eq_none hge] at he
      exact Option.noConfusion he
  refine ⟨hidx, ?_⟩
  rw [LookupEntry_dynamic_eq, hidx]
  have h1 : ¬ (t.dropped_entry_count + j < t.dropped_entry_count ∨
      t.dropped_entry_count + j - t.dropped_entry_count ≥ t.dynamic_entries.length) := by
    omega
  rw [if_neg h1]
  have h2 : t.dropped_entry_count + j - t.dropped_entry_count = j := by omega
  rw [h2]
  exact he

theorem LookupEntry_of_mem (t : QpackHeaderTable) (h : TableInv t t.dynamic_entries [])
    (e : QpackEntry) (he : e ∈ t.dynamic_entries) :
    t.dropped_entry_count ≤ e.insertion_index ∧
      LookupEntry t false e.insertion_index = some e := by
  obtain ⟨j, hj⟩ := List.getElem?_of_mem he
  obtain ⟨h1, h2⟩ := LookupEntry_of_getElem? t h j e hj
  exact ⟨by omega, h2⟩

theorem insertedEntries_spec (s : QpackStaticTable) (calls : List Call) :
    ∀ t : QpackHeaderTable, WellFormed s t →
      (∀ (k : Nat) (e : QpackEntry), (insertedEntries t calls)[k]? = some e →
        e.insertion_index = t.dropped_entry_count + t.dynamic_entries.length + k) ∧
      ∃ t1, runCalls t calls = some t1 ∧
        t1.dropped_entry_count + t1.dynamic_entries.length =
          t.dropped_entry_count + t.dynamic_entries.length +
            (insertedEntries t calls).length := by
  induction calls with
  | nil =>
    intro t _
    exact ⟨fun k e h => by simp [insertedEntries] at h, t, rfl, rfl⟩
  | cons c cs ih =>
    intro t h
    cases c with
    | SetMaximumDynamicTableCapacity v =>
      obtain ⟨h1, t2, h2, h3⟩ := ih _ (WellFormed_SetMaximumDynamicTableCapacity s t h v)
      have heq : insertedEntries t (Call.SetMaximumDynamicTableCapacity v :: cs) =
          insertedEntries (SetMaximumDynamicTableCapacity t v) cs := by
        simp [insertedEntries, runCall]
      rw [heq]
      exact ⟨h1, t2, by simpa [runCalls, runCall] using h2, h3⟩
    | UpdateTableSize max_size =>
      by_cases hfit : max_size ≤ t.maximum_dynamic_table_capacity
      · obtain ⟨k, t1, hk, hupd, hent, hinv, f1, f2, f3, _, _, _, hdrop, _, _⟩ :=
          UpdateTableSize_inv t h.1 max_size hfit
        have hwf : WellFormed s t1 :=
          ⟨hinv, f1.trans h.2.1, f2.trans h.2.2.1, f3.trans h.2.2.2⟩
        have hcount : t1.dropped_entry_count + t1.dynamic_entries.length =
            t.dropped_entry_count + t.dynamic_entries.length := by
          rw [hdrop, hent, List.length_drop]
          omega
        obtain ⟨h1, t2, h2, h3⟩ := ih t1 hwf
        have heq : insertedEntries t (Call.UpdateTableSize max_size :: cs) =
            insertedEntries t1 cs := by
          simp [insertedEntries, runCall, hupd]
        rw [heq, ← hcount]
        exact ⟨h1, t2, by simpa [runCalls, runCall, hupd] using h2, h3⟩
      · have hupd := UpdateTableSize_reject t max_size (by omega)
        obtain ⟨h1, t2, h2, h3⟩ := ih t h
        have heq : insertedEntries t (Call.UpdateTableSize max_size :: cs) =
            insertedEntries t cs := by
          simp [insertedEntries, runCall, hupd]
        rw [heq]
        exact ⟨h1, t2, by simpa [runCalls, runCall, hupd] using h2, h3⟩
    | InsertEntry name value =>
      by_cases hfit : EntrySize name value ≤ t.dynamic_table_capacity
      · obtain ⟨k, t1, hk, hins, hent, hinv, hframe, hdrop, _⟩ :=
          InsertEntry_inv t h.1 name value hfit
        obtain ⟨f1, f2, f3, _⟩ := hframe
        have hwf : WellFormed s t1 :=
          ⟨hinv, f1.trans h.2.1, f2.trans h.2.2.1, f3.trans h.2.2.2⟩
        have hcount : t1.dropped_entry_count + t1.dynamic_entries.length =
            t.dropped_entry_count + t.dynamic_entries.length + 1 := by
          rw [hdrop, hent, List.length_append, List.length_drop, List.length_singleton]
          omega
        obtain ⟨h1, t2, h2, h3⟩ := ih t1 hwf
        have heq : insertedEntries t (Call.InsertEntry name value :: cs) =
            ⟨name, value, false, t.dropped_entry_count + t.dynamic_entries.length⟩ ::
              insertedEntries t1 cs := by
          simp [insertedEntries, hins]
        rw [heq]
        refine ⟨?_, t2, by simpa [runCalls, runCall, hins] using h2, ?_⟩
        · intro j e he
          cases j with
          | zero =>
            simp only [List.getElem?_cons_zero, Option.some.injEq] at he
            rw [← he]
            rfl
          | succ j =>
            simp only [List.getElem?_cons_succ] at he
            have := h1 j e he
            omega
        · rw [h3, List.length_cons]
          omega
      · have hins := InsertEntry_reject t name value (by omega)
        obtain ⟨h1, t2, h2, h3⟩ := ih t h
        have heq : insertedEntries t (Call.InsertEntry name value :: cs) =
            insertedEntries t cs := by
          simp [insertedEntries, hins]
        rw [heq]
        exact ⟨h1, t2, by simpa [runCalls, runCall, hins] using h2, h3⟩

theorem find?_reverse_isSome {α : Type} (p : α → Bool) (l : List α) :
    (l.reverse.find? p).isSome = l.any p := by
  rw [Bool.eq_iff_iff, List.find?_isSome, List.any_eq_true]
  constructor
  · rintro ⟨x, hx, hp⟩
    exact ⟨x, List.mem_reverse.1 hx, hp⟩
  · rintro ⟨x, hx, hp⟩
    exact ⟨x, List.mem_reverse.2 hx, hp⟩

theorem set_find_query (I : UnorderedEntrySet) (name value : Bytes) :
    UnorderedEntrySet.find I (QpackEntry.query name value) =
      List.find? (fun e : QpackEntry => e.name == name && e.value == value) I := rfl

theorem dynamic_find_query (t : QpackHeaderTable) (h : TableInv t t.dynamic_entries [])
    (name value : Bytes) :
    UnorderedEntrySet.find t.dynamic_index (QpackEntry.query name value) =
      t.dynamic_entries.reverse.find? (fun e => e.name == name && e.value == value) :=
  h.index_find (QpackEntry.query name value)

theorem static_find_isSome (s : QpackStaticTable) (hs : s.Consistent) (name value : Bytes) :
    (UnorderedEntrySet.find s.static_index (QpackEntry.query name value)).isSome =
      s.static_entries.any (fun e => e.name == name && e.value == value) := by
  obtain ⟨h1, h2, _, _⟩ := hs
  rw [Bool.eq_iff_iff, set_find_query, List.find?_isSome, List.any_eq_true]
  constructor
  · rintro ⟨x, hx, hp⟩
    exact ⟨x, h1 x hx, hp⟩
  · rintro ⟨x, hx, hp⟩
    have := h2 x hx
    rw [set_find_key, List.find?_isSome] at this
    obtain ⟨y, hy, hxy⟩ := this
    refine ⟨y, hy, ?_⟩
    simp only [beq_iff_eq, Prod.mk.injEq, Bool.and_eq_true] at hxy hp ⊢
    exact ⟨hxy.1.trans hp.1, hxy.2.trans hp.2⟩

theorem static_name_isSome (s : QpackStaticTable) (hs : s.Consistent) (name : Bytes) :
    (NameToEntryMap.find s.static_name_index name).isSome =
      s.static_entries.any (fun e => e.name == name) := by
  obtain ⟨_, _, h3, h4⟩ := hs
  unfold NameToEntryMap.find
  rw [Bool.eq_iff_iff, List.find?_isSome, List.any_eq_true]
  constructor
  · rintro ⟨x, hx, hp⟩
    obtain ⟨hm, hn⟩ := h3 x hx
    refine ⟨x.2, hm, ?_⟩
    rw [← hn]
    exact hp
  · rintro ⟨x, hx, hp⟩
    have := h4 x hx
    unfold NameToEntryMap.find at this
    rw [List.find?_isSome] at this
    obtain ⟨y, hy, hxy⟩ := this
    refine ⟨y, hy, ?_⟩
    simp only [beq_iff_eq] at hxy hp ⊢
    exact hxy.trans hp

theorem FindHeaderField_fst (t : QpackHeaderTable) (name value : Bytes) (b : Bool) (i : Nat) :
    (FindHeaderField t name value b i).1 =
      if ((UnorderedEntrySet.find t.static_index (QpackEntry.query name value)).isSome ||
          (UnorderedEntrySet.find t.dynamic_index (QpackEntry.query name value)).isSome) = true
      then MatchType.kNameAndValue
      else if ((NameToEntryMap.find t.static_name_index name).isSome ||
          (NameToEntryMap.find t.dynamic_name_index name).isSome) = true
      then MatchType.kName
      else MatchType.kNoMatch := by
  simp only [FindHeaderField]
  generalize UnorderedEntrySet.find t.static_index (QpackEntry.query name value) = o1
  generalize UnorderedEntrySet.find t.dynamic_index (QpackEntry.query name value) = o2
  generalize NameToEntryMap.find t.static_name_index name = o3
  generalize NameToEntryMap.find t.dynamic_name_index name = o4
  cases o1 <;> cases o2 <;> cases o3 <;> cases o4 <;> rfl

theorem runCalls_append (cs : List Call) (c : Call) :
    ∀ t : QpackHeaderTable,
      runCalls t (cs ++ [c]) = (runCalls t cs).bind (fun t1 => runCall t1 c) := by
  induction cs with
  | nil =>
    intro t
    simp only [List.nil_append, runCalls, Option.some_bind]
    cases runCall t c <;> rfl
  | cons d ds ih =>
    intro t
    simp only [List.cons_append, runCalls]
    cases runCall t d with
    | none => rfl
    | some t1 => exact ih t1

theorem Reachable.runCall {s : QpackStaticTable} {t t1 : QpackHeaderTable}
    (h : Reachable s t) (c : Call) (hc : quic.runCall t c = some t1) : Reachable s t1 := by
  obtain ⟨cs, hcs⟩ := h
  exact ⟨cs ++ [c], by rw [runCalls_append, hcs]; exact hc⟩

theorem Reachable.InsertEntry {s : QpackStaticTable} {t t1 : QpackHeaderTable}
    (h : Reachable s t) (name value : Bytes) (r : Option QpackEntry)
    (hc : quic.InsertEntry t name value = some (t1, r)) : Reachable s t1 :=
  h.runCall (Call.InsertEntry name value) (by simp [quic.runCall, hc])

/-- What a successful `InsertEntry` returns and leaves behind, read off its result. -/
theorem InsertEntry_some (t : QpackHeaderTable) (h : TableInv t t.dynamic_entries [])
    (name value : Bytes) (t1 : QpackHeaderTable) (e : QpackEntry)
    (hins : InsertEntry t name value = some (t1, some e)) :
    EntrySize name value ≤ t.dynamic_table_capacity ∧
    e = ⟨name, value, false, t.dropped_entry_count + t.dynamic_entries.length⟩ ∧
    ∃ k, k ≤ t.dynamic_entries.length ∧
      t1.dynamic_entries = t.dynamic_entries.drop k ++ [e] ∧
      TableInv t1 t1.dynamic_entries [] ∧ SameFrame t t1 ∧
      t1.dropped_entry_count = t.dropped_entry_count + k ∧
      UnorderedEntrySet.find t1.dynamic_index (QpackEntry.query name value) = some e ∧
      NameToEntryMap.find t1.dynamic_name_index name = some (name, e) := by
  have hfit : EntrySize name value ≤ t.dynamic_table_capacity := by
    by_contra hn
    rw [InsertEntry_reject t name value (by omega)] at hins
    simp at hins
  obtain ⟨k, t2, hk, hins2, hent, hinv, hframe, hdrop, _, hfind, hnfind, _⟩ :=
    InsertEntry_inv t h name value hfit
  rw [hins2] at hins
  simp only [Option.some.injEq, Prod.mk.injEq] at hins
  obtain ⟨ht, he⟩ := hins
  subst ht
  subst he
  exact ⟨hfit, rfl, k, hk, hent, hinv, hframe, hdrop, hfind, hnfind⟩

/-! ## The claims -/

/-- C1. Capacity invariant: on a freshly constructed table, after one call of
`SetMaximumDynamicTableCapacity(m)` and then any sequence of `InsertEntry` and
`UpdateTableSize` calls with arbitrary arguments, every call returns and
`dynamic_table_size_ <= dynamic_table_capacity_` holds after every call (after the first
`n` calls, for every `n`). -/
theorem capacity_invariant (s : QpackStaticTable) (m : Nat) (calls : List Call)
    (h : ∀ c ∈ calls, isUpdateCall c = true) (n : Nat) :
    ∃ t, runCalls (SetMaximumDynamicTableCapacity (QpackHeaderTable.new s) m)
        (calls.take n) = some t ∧
      t.dynamic_table_size ≤ t.dynamic_table_capacity := by
  obtain ⟨t, hrun, _, hle⟩ := WellFormed_runCalls s (calls.take n) _
    (WellFormed_SetMaximumDynamicTableCapacity s _ (WellFormed_new s) m)
  exact ⟨t, hrun, hle (fun c hc => h c (List.mem_of_mem_take hc)) (Nat.zero_le m)⟩

theorem capacity_invariant_witness :
    (∀ c ∈ [Call.InsertEntry [120] [49], Call.InsertEntry [120] [50],
        Call.UpdateTableSize 40, Call.InsertEntry [121] [49, 50, 51, 52, 53, 54, 55, 56]],
        isUpdateCall c = true) ∧
    ∃ t, runCalls (SetMaximumDynamicTableCapacity (QpackHeaderTable.new exampleStatic) 70)
        ([Call.InsertEntry [120] [49], Call.InsertEntry [120] [50],
          Call.UpdateTableSize 40,
          Call.InsertEntry [121] [49, 50, 51, 52, 53, 54, 55, 56]].take 3) = some t ∧
      t.dynamic_table_size ≤ t.dynamic_table_capacity :=
  ⟨by decide, capacity_invariant exampleStatic 70 _ (by decide) 3⟩

/-- C2. `InsertEntry(name, value)` on a reachable table is rejected (returns a null
pointer) if and only if `len(name) + len(value) + 32 > dynamic_table_capacity_`; a rejected
call leaves the whole table as it was (entries, size, capacity, dropped entry count and
both indices), and a call that is not rejected returns an entry. -/
theorem InsertEntry_rejected_iff (s : QpackStaticTable) (t : QpackHeaderTable)
    (hr : Reachable s t) (name value : Bytes) :
    ((∃ t1, InsertEntry t name value = some (t1, none)) ↔
      name.length + value.length + 32 > t.dynamic_table_capacity) ∧
    (name.length + value.length + 32 > t.dynamic_table_capacity →
      InsertEntry t name value = some (t, none)) ∧
    (¬ name.length + value.length + 32 > t.dynamic_table_capacity →
      ∃ t1 e, InsertEntry t name value = some (t1, some e)) := by
  refine ⟨⟨?_, ?_⟩, ?_, ?_⟩
  · rintro ⟨t1, h1⟩
    exact InsertEntry_null t t1 name value h1
  · intro h
    exact ⟨t, InsertEntry_reject t name value h⟩
  · intro h
    exact InsertEntry_reject t name value h
  · intro h
    obtain ⟨k, t1, _, hins, _⟩ := InsertEntry_inv t hr.wellFormed.1 name value
      (Nat.le_of_not_gt h)
    exact ⟨t1, _, hins⟩

theorem InsertEntry_rejected_iff_witness :
    Reachable exampleStatic (SetMaximumDynamicTableCapacity (QpackHeaderTable.new exampleStatic) 100) ∧
    InsertEntry (SetMaximumDynamicTableCapacity (QpackHeaderTable.new exampleStatic) 100)
        (List.replicate 60 120) (List.replicate 9 49) =
      some (SetMaximumDynamicTableCapacity (QpackHeaderTable.new exampleStatic) 100, none) :=
  ⟨⟨[Call.SetMaximumDynamicTableCapacity 100], rfl⟩,
   (InsertEntry_rejected_iff exampleStatic _ ⟨[Call.SetMaximumDynamicTableCapacity 100], rfl⟩
      (List.replicate 60 120) (List.replicate 9 49)).2.1 (by decide)⟩

/-- C3. `UpdateTableSize(max_size)` on a reachable table returns false if and only if
`max_size > maximum_dynamic_table_capacity_`, and then the table is unchanged; otherwise it
returns true, `dynamic_table_capacity_` equals `max_size` afterwards and
`maximum_dynamic_table_capacity_` is unchanged. -/
theorem UpdateTableSize_contract (s : QpackStaticTable) (t : QpackHeaderTable)
    (hr : Reachable s t) (max_size : Nat) :
    ((∃ t1, UpdateTableSize t max_size = some (t1, false)) ↔
      max_size > t.maximum_dynamic_table_capacity) ∧
    (max_size > t.maximum_dynamic_table_capacity →
      UpdateTableSize t max_size = some (t, false)) ∧
    (¬ max_size > t.maximum_dynamic_table_capacity →
      ∃ t1, UpdateTableSize t max_size = some (t1, true) ∧
        t1.dynamic_table_capacity = max_size ∧
        t1.maximum_dynamic_table_capacity = t.maximum_dynamic_table_capacity) := by
  refine ⟨⟨?_, ?_⟩, ?_, ?_⟩
  · rintro ⟨t1, h1⟩
    exact UpdateTableSize_false t t1 max_size h1
  · intro h
    exact ⟨t, UpdateTableSize_reject t max_size h⟩
  · intro h
    exact UpdateTableSize_reject t max_size h
  · intro h
    obtain ⟨k, t1, _, hupd, _, _, _, _, _, hcap, hmax, _⟩ :=
      UpdateTableSize_inv t hr.wellFormed.1 max_size (Nat.le_of_not_gt h)
    exact ⟨t1, hupd, hcap, hmax⟩

theorem UpdateTableSize_contract_witness :
    Reachable exampleStatic (SetMaximumDynamicTableCapacity (QpackHeaderTable.new exampleStatic) 100) ∧
    UpdateTableSize (SetMaximumDynamicTableCapacity (QpackHeaderTable.new exampleStatic) 100) 101 =
      some (SetMaximumDynamicTableCapacity (QpackHeaderTable.new exampleStatic) 100, false) :=
  ⟨⟨[Call.SetMaximumDynamicTableCapacity 100], rfl⟩,
   (UpdateTableSize_contract exampleStatic _ ⟨[Call.SetMaximumDynamicTableCapacity 100], rfl⟩
      101).2.1 (by decide)⟩

/-- C4. On a reachable table `LookupEntry(false, i)` returns a null pointer exactly when
`i < dropped_entry_count_` or `i - dropped_entry_count_` is at least the number of live
dynamic entries; otherwise it returns the live entry at offset `i - dropped_entry_count_`
from the front, and that entry is the one and only live dynamic entry whose insertion
index is `i`. -/
theorem LookupEntry_dynamic (s : QpackStaticTable) (t : QpackHeaderTable)
    (hr : Reachable s t) (i : Nat) :
    (LookupEntry t false i = none ↔
      (i < t.dropped_entry_count ∨
        i - t.dropped_entry_count ≥ t.dynamic_entries.length)) ∧
    (¬ (i < t.dropped_entry_count ∨
        i - t.dropped_entry_count ≥ t.dynamic_entries.length) →
      ∃ e, LookupEntry t false i = some e ∧
        t.dynamic_entries[i - t.dropped_entry_count]? = some e ∧
        e.insertion_index = i ∧
        ∀ e1 ∈ t.dynamic_entries, e1.insertion_index = i → e1 = e) := by
  have hinv := hr.wellFormed.1
  have hex : ¬ (i < t.dropped_entry_count ∨
        i - t.dropped_entry_count ≥ t.dynamic_entries.length) →
      ∃ e, LookupEntry t false i = some e ∧
        t.dynamic_entries[i - t.dropped_entry_count]? = some e ∧
        e.insertion_index = i ∧
        ∀ e1 ∈ t.dynamic_entries, e1.insertion_index = i → e1 = e := by
    intro hn
    have hlt : i - t.dropped_entry_count < t.dynamic_entries.length := by omega
    obtain ⟨e, he⟩ : ∃ e, t.dynamic_entries[i - t.dropped_entry_count]? = some e :=
      ⟨_, List.getElem?_eq_getElem hlt⟩
    obtain ⟨hidx, hlook⟩ := LookupEntry_of_getElem? t hinv _ e he
    have hi : e.insertion_index = i := by omega
    refine ⟨e, hi ▸ hlook, he, hi, ?_⟩
    intro e1 he1 hi1
    obtain ⟨j, hj⟩ := List.getElem?_of_mem he1
    obtain ⟨hidx1, _⟩ := LookupEntry_of_getElem? t hinv j e1 hj
    have hjeq : j = i - t.dropped_entry_count := by omega
    rw [hjeq, he] at hj
    exact (Option.some.inj hj).symm
  refine ⟨⟨?_, ?_⟩, hex⟩
  · intro hnone
    by_contra hn
    obtain ⟨e, he, _⟩ := hex hn
    rw [hnone] at he
    exact Option.noConfusion he
  · intro h
    rw [LookupEntry_dynamic_eq, if_pos h]

theorem LookupEntry_dynamic_witness :
    Reachable exampleStatic exampleTable ∧
    ∃ e, LookupEntry exampleTable false 2 = some e ∧
      exampleTable.dynamic_entries[2 - exampleTable.dropped_entry_count]? = some e ∧
      e.insertion_index = 2 ∧
      ∀ e1 ∈ exampleTable.dynamic_entries, e1.insertion_index = 2 → e1 = e :=
  ⟨⟨exampleCalls, by decide⟩,
   (LookupEntry_dynamic exampleStatic exampleTable ⟨exampleCalls, by decide⟩ 2).2
     (by decide)⟩

/-- C5. Insertion index monotonicity: in any sequence of calls on one table, the entry
returned by the `k`-th successful `InsertEntry` (counting from 0) has insertion index `k`;
the number of successful insertions so far always equals `dropped_entry_count_` plus the
number of live entries, and a successful `InsertEntry` returns an entry whose insertion
index is that sum as it was before the call.  Hence successive successful insertions
return strictly increasing indices, whatever rejections, evictions and other calls
lie between them. -/
theorem insertion_index_monotone (s : QpackStaticTable) (calls : List Call) :
    (∀ (k : Nat) (e : QpackEntry),
      (insertedEntries (QpackHeaderTable.new s) calls)[k]? = some e →
      e.insertion_index = k) ∧
    (∃ t, runCalls (QpackHeaderTable.new s) calls = some t ∧
      (insertedEntries (QpackHeaderTable.new s) calls).length =
        t.dropped_entry_count + t.dynamic_entries.length) ∧
    (∀ t name value t1 e, runCalls (QpackHeaderTable.new s) calls = some t →
      InsertEntry t name value = some (t1, some e) →
      e.insertion_index = t.dropped_entry_count + t.dynamic_entries.length ∧
      e.insertion_index = (insertedEntries (QpackHeaderTable.new s) calls).length) := by
  obtain ⟨h1, t, h2, h3⟩ := insertedEntries_spec s calls _ (WellFormed_new s)
  have h3a : (insertedEntries (QpackHeaderTable.new s) calls).length =
      t.dropped_entry_count + t.dynamic_entries.length := by
    rw [h3]
    simp [QpackHeaderTable.new]
  refine ⟨?_, ⟨t, h2, h3a⟩, ?_⟩
  · intro k e he
    have := h1 k e he
    simpa [QpackHeaderTable.new] using this
  · intro t0 name value t1 e hrun hins
    rw [h2] at hrun
    have ht : t = t0 := Option.some.inj hrun
    subst ht
    have hfit : ¬ EntrySize name value > t.dynamic_table_capacity := by
      intro hgt
      rw [InsertEntry_reject t name value hgt] at hins
      simp at hins
    rcases InsertEntry_shape t name value hfit with hnone | ⟨t2, hsome⟩
    · rw [hnone] at hins
      exact Option.noConfusion hins
    · rw [hsome] at hins
      have he : e = ⟨name, value, false,
          t.dropped_entry_count + t.dynamic_entries.length⟩ := by
        simp only [Option.some.injEq, Prod.mk.injEq] at hins
        exact hins.2.symm
      rw [he, h3a]
      exact ⟨rfl, rfl⟩

theorem insertion_index_monotone_witness :
    (insertedEntries (QpackHeaderTable.new exampleStatic)
      (exampleCalls ++ [Call.InsertEntry (List.replicate 40 120) [],
        Call.UpdateTableSize 0, Call.UpdateTableSize 70, Call.InsertEntry [122] []]))[3]? =
      some ⟨[122], [], false, 3⟩ ∧
    (⟨[122], [], false, 3⟩ : QpackEntry).insertion_index = 3 :=
  ⟨by decide,
   (insertion_index_monotone exampleStatic
      (exampleCalls ++ [Call.InsertEntry (List.replicate 40 120) [],
        Call.UpdateTableSize 0, Call.UpdateTableSize 70, Call.InsertEntry [122] []])).1 3
      ⟨[122], [], false, 3⟩ (by decide)⟩

/-- C6. On a reachable table whose static indices agree with the static entry list, the
match type returned by `FindHeaderField(name, value)` is the one of the reference
definition over the table contents: `kNameAndValue` if and only if some static entry or
some live dynamic entry has that name and value, otherwise `kName` if and only if some
static or live dynamic entry has that name, otherwise `kNoMatch`. -/
theorem FindHeaderField_refines_reference (s : QpackStaticTable) (hs : s.Consistent)
    (t : QpackHeaderTable) (hr : Reachable s t) (name value : Bytes) (b : Bool) (i : Nat) :
    (FindHeaderField t name value b i).1 = FindHeaderField_reference t name value := by
  obtain ⟨hinv, h1, h2, h3⟩ := hr.wellFormed
  rw [FindHeaderField_fst, h2, h3, static_find_isSome s hs, static_name_isSome s hs,
    dynamic_find_query t hinv, find?_reverse_isSome]
  have hname : (NameToEntryMap.find t.dynamic_name_index name).isSome =
      t.dynamic_entries.any (fun e => e.name == name) := by
    have := hinv.name_find name
    rw [this, Option.isSome_map', find?_reverse_isSome]
  rw [hname]
  unfold FindHeaderField_reference
  rw [List.any_append, List.any_append, h1]

theorem FindHeaderField_refines_reference_witness :
    exampleStatic.Consistent ∧ Reachable exampleStatic exampleTable ∧
    (FindHeaderField exampleTable [120] [49] false 0).1 = MatchType.kName ∧
    (FindHeaderField exampleTable [120] [49] false 0).1 =
      FindHeaderField_reference exampleTable [120] [49] :=
  ⟨by decide, ⟨exampleCalls, by decide⟩, by decide,
   FindHeaderField_refines_reference exampleStatic (by decide) exampleTable
     ⟨exampleCalls, by decide⟩ [120] [49] false 0⟩

/-- C7. At the same match level the static table wins over the dynamic table.  If the
static exact index holds (name, value), `FindHeaderField` returns `kNameAndValue` with
`is_static = true` and the index of the static entry, whatever the dynamic table contains.
If neither table has an exact match and the static name index holds the name, it returns
`kName` with `is_static = true` and the index of the static entry, also when a live dynamic
entry has the same name. -/
theorem static_table_wins :
    (∀ (t : QpackHeaderTable) (name value : Bytes) (b : Bool) (i : Nat) (e : QpackEntry),
      UnorderedEntrySet.find t.static_index (QpackEntry.query name value) = some e →
      FindHeaderField t name value b i =
        (MatchType.kNameAndValue, true, e.insertion_index)) ∧
    (∀ (s : QpackStaticTable) (t : QpackHeaderTable) (name value : Bytes) (b : Bool)
      (i : Nat) (p : Bytes × QpackEntry),
      Reachable s t →
      UnorderedEntrySet.find t.static_index (QpackEntry.query name value) = none →
      (∀ e ∈ t.dynamic_entries, ¬ (e.name = name ∧ e.value = value)) →
      NameToEntryMap.find t.static_name_index name = some p →
      FindHeaderField t name value b i = (MatchType.kName, true, p.2.insertion_index)) := by
  constructor
  · intro t name value b i e h
    simp only [FindHeaderField, h]
  · intro s t name value b i p hr hstat hdyn hname
    have hd : UnorderedEntrySet.find t.dynamic_index (QpackEntry.query name value) = none := by
      rw [dynamic_find_query t hr.wellFormed.1, List.find?_eq_none]
      intro e he
      have := hdyn e (List.mem_reverse.1 he)
      simpa using this
    simp only [FindHeaderField, hstat, hd, hname]

theorem static_table_wins_witness :
    Reachable exampleStatic exampleTable2 ∧
    UnorderedEntrySet.find exampleTable2.static_index (QpackEntry.query [58, 97] [50]) = none ∧
    (∀ e ∈ exampleTable2.dynamic_entries, ¬ (e.name = [58, 97] ∧ e.value = [50])) ∧
    NameToEntryMap.find exampleTable2.static_name_index [58, 97] =
      some ([58, 97], ⟨[58, 97], [], true, 0⟩) ∧
    (∃ e ∈ exampleTable2.dynamic_entries, e.name = [58, 97]) ∧
    FindHeaderField exampleTable2 [58, 97] [50] false 7 = (MatchType.kName, true, 0) :=
  ⟨⟨exampleCalls2, by decide⟩, by decide, by decide, by decide, by decide,
   static_table_wins.2 exampleStatic exampleTable2 [58, 97] [50] false 7
     ([58, 97], ⟨[58, 97], [], true, 0⟩) ⟨exampleCalls2, by decide⟩
     (by decide) (by decide) (by decide)⟩

/-- C8. Most-recent-wins for exact matches: on a reachable table whose static indices
agree with the static entry list, for (name, value) that is not a static entry, right
after a successful `InsertEntry(name, value)` the call `FindHeaderField(name, value)`
returns `kNameAndValue` with `is_static = false` and the insertion index of the entry just
inserted; and when the entry fits the capacity, two insertions in a row succeed and the
answer is the index of the second, which is larger than the index of the first. -/
theorem most_recent_wins_exact (s : QpackStaticTable) (hs : s.Consistent)
    (t : QpackHeaderTable) (hr : Reachable s t) (name value : Bytes)
    (hstat : ∀ e ∈ s.static_entries, ¬ (e.name = name ∧ e.value = value))
    (b : Bool) (i : Nat) :
    (∀ t1 e, InsertEntry t name value = some (t1, some e) →
      FindHeaderField t1 name value b i =
        (MatchType.kNameAndValue, false, e.insertion_index)) ∧
    (name.length + value.length + 32 ≤ t.dynamic_table_capacity →
      ∃ t1 e1 t2 e2, InsertEntry t name value = some (t1, some e1) ∧
        InsertEntry t1 name value = some (t2, some e2) ∧
        e1.insertion_index < e2.insertion_index ∧
        FindHeaderField t2 name value b i =
          (MatchType.kNameAndValue, false, e2.insertion_index)) := by
  have hnone : UnorderedEntrySet.find s.static_index (QpackEntry.query name value) = none := by
    have h := static_find_isSome s hs name value
    have hany : s.static_entries.any (fun e => e.name == name && e.value == value) = false := by
      rw [Bool.eq_false_iff]
      intro hc
      rw [List.any_eq_true] at hc
      obtain ⟨e, he, hp⟩ := hc
      simp only [Bool.and_eq_true, beq_iff_eq] at hp
      exact hstat e he hp
    rw [hany] at h
    cases hf : UnorderedEntrySet.find s.static_index (QpackEntry.query name value) with
    | none => rfl
    | some e =>
      rw [hf] at h
      exact Bool.noConfusion h
  have key : ∀ t0 : QpackHeaderTable, Reachable s t0 → ∀ t1 e,
      InsertEntry t0 name value = some (t1, some e) →
      FindHeaderField t1 name value b i =
        (MatchType.kNameAndValue, false, e.insertion_index) := by
    intro t0 hr0 t1 e hins
    obtain ⟨_, _, k, _, _, _, hframe, _, hfind, _⟩ :=
      InsertEntry_some t0 hr0.wellFormed.1 name value t1 e hins
    have hst : t1.static_index = s.static_index := hframe.2.1.trans hr0.wellFormed.2.2.1
    simp only [FindHeaderField, hst, hnone, hfind]
  refine ⟨key t hr, ?_⟩
  intro hfit
  obtain ⟨k1, t1, _, hins1, hent1, hinv1, hframe1, hdrop1, _⟩ :=
    InsertEntry_inv t hr.wellFormed.1 name value hfit
  have hr1 : Reachable s t1 := hr.InsertEntry name value _ hins1
  have hcap : t1.dynamic_table_capacity = t.dynamic_table_capacity := hframe1.2.2.2.1
  obtain ⟨k2, t2, _, hins2, _⟩ :=
    InsertEntry_inv t1 hinv1 name value (by rw [hcap]; exact hfit)
  refine ⟨t1, _, t2, _, hins1, hins2, ?_, key t1 hr1 t2 _ hins2⟩
  show t.dropped_entry_count + t.dynamic_entries.length <
    t1.dropped_entry_count + t1.dynamic_entries.length
  rw [hdrop1, hent1, List.length_append, List.length_drop, List.length_singleton]
  omega

theorem most_recent_wins_exact_witness :
    exampleStatic.Consistent ∧ Reachable exampleStatic exampleTable ∧
    (∀ e ∈ exampleStatic.static_entries, ¬ (e.name = [120] ∧ e.value = [50])) ∧
    InsertEntry exampleTable [120] [50] = some (exampleTable3, some ⟨[120], [50], false, 3⟩) ∧
    FindHeaderField exampleTable3 [120] [50] true 0 = (MatchType.kNameAndValue, false, 3) :=
  ⟨by decide, ⟨exampleCalls, by decide⟩, by decide, by decide,
   (most_recent_wins_exact exampleStatic (by decide) exampleTable ⟨exampleCalls, by decide⟩
      [120] [50] (by decide) true 0).1 exampleTable3 ⟨[120], [50], false, 3⟩ (by decide)⟩

/-- C9. No stale references: on a reachable table, whenever `FindHeaderField(name, value)`
reports a match in the dynamic table (`is_static = false`) with index `i`, the index is not
one of an evicted entry and `LookupEntry(false, i)` returns a live entry whose name is
`name`, and whose value is `value` when the match type is `kNameAndValue`.  An evicted
entry is therefore never the answer. -/
theorem no_stale_reference (s : QpackStaticTable) (t : QpackHeaderTable)
    (hr : Reachable s t) (name value : Bytes) (b : Bool) (i : Nat) :
    (FindHeaderField t name value b i).1 ≠ MatchType.kNoMatch →
    (FindHeaderField t name value b i).2.1 = false →
    ∃ e, LookupEntry t false (FindHeaderField t name value b i).2.2 = some e ∧
      e ∈ t.dynamic_entries ∧
      t.dropped_entry_count ≤ (FindHeaderField t name value b i).2.2 ∧
      e.name = name ∧
      ((FindHeaderField t name value b i).1 = MatchType.kNameAndValue → e.value = value) := by
  have hinv := hr.wellFormed.1
  have hdyn := dynamic_find_query t hinv name value
  have hnm := hinv.name_find name
  simp only [FindHeaderField]
  cases h1 : UnorderedEntrySet.find t.static_index (QpackEntry.query name value) with
  | some e =>
    intro _ hb
    exact Bool.noConfusion hb
  | none =>
    cases h2 : UnorderedEntrySet.find t.dynamic_index (QpackEntry.query name value) with
    | some e =>
      intro _ _
      rw [h2] at hdyn
      have hmem : e ∈ t.dynamic_entries := List.mem_reverse.1 (List.mem_of_find?_eq_some hdyn.symm)
      have hp := List.find?_some hdyn.symm
      simp only [Bool.and_eq_true, beq_iff_eq] at hp
      obtain ⟨hge, hlook⟩ := LookupEntry_of_mem t hinv e hmem
      exact ⟨e, hlook, hmem, hge, hp.1, fun _ => hp.2⟩
    | none =>
      cases h3 : NameToEntryMap.find t.static_name_index name with
      | some p =>
        intro _ hb
        exact Bool.noConfusion hb
      | none =>
        cases h4 : NameToEntryMap.find t.dynamic_name_index name with
        | some p =>
          intro _ _
          rw [h4] at hnm
          cases h5 : t.dynamic_entries.reverse.find? (fun e => e.name == name) with
          | none =>
            rw [h5] at hnm
            exact Option.noConfusion hnm
          | some e =>
            rw [h5] at hnm
            simp only [Option.map_some', Option.some.injEq] at hnm
            subst hnm
            have hmem : e ∈ t.dynamic_entries :=
              List.mem_reverse.1 (List.mem_of_find?_eq_some h5)
            have hp := List.find?_some h5
            simp only [beq_iff_eq] at hp
            obtain ⟨hge, hlook⟩ := LookupEntry_of_mem t hinv e hmem
            exact ⟨e, hlook, hmem, hge, hp, fun hc => MatchType.noConfusion hc⟩
        | none =>
          intro hne _
          exact absurd rfl hne

theorem no_stale_reference_witness :
    Reachable exampleStatic exampleTable ∧
    FindHeaderField exampleTable [120] [49] true 0 = (MatchType.kName, false, 1) ∧
    ∃ e, LookupEntry exampleTable false
        (FindHeaderField exampleTable [120] [49] true 0).2.2 = some e ∧
      e ∈ exampleTable.dynamic_entries ∧
      exampleTable.dropped_entry_count ≤ (FindHeaderField exampleTable [120] [49] true 0).2.2 ∧
      e.name = [120] ∧
      ((FindHeaderField exampleTable [120] [49] true 0).1 = MatchType.kNameAndValue →
        e.value = [49]) :=
  ⟨⟨exampleCalls, by decide⟩, by decide,
   no_stale_reference exampleStatic exampleTable ⟨exampleCalls, by decide⟩ [120] [49] true 0
     (by decide) (by decide)⟩

/-- C10. A successful `InsertEntry` never evicts the entry it inserts: on a reachable table,
when `InsertEntry(name, value)` returns an entry, that entry has this name and value, it is
the last live dynamic entry right after the call, and `LookupEntry(false, i)` returns it
for its insertion index `i`, also when every older entry had to be evicted.  The call does
return an entry whenever the entry size is within the capacity. -/
theorem InsertEntry_keeps_new_entry (s : QpackStaticTable) (t : QpackHeaderTable)
    (hr : Reachable s t) (name value : Bytes) :
    (∀ t1 e, InsertEntry t name value = some (t1, some e) →
      t1.dynamic_entries.getLast? = some e ∧ e.name = name ∧ e.value = value ∧
      LookupEntry t1 false e.insertion_index = some e) ∧
    (name.length + value.length + 32 ≤ t.dynamic_table_capacity →
      ∃ t1 e, InsertEntry t name value = some (t1, some e)) := by
  constructor
  · intro t1 e hins
    obtain ⟨_, he, k, _, hent, hinv1, _⟩ :=
      InsertEntry_some t hr.wellFormed.1 name value t1 e hins
    have hlast : t1.dynamic_entries.getLast? = some e := by
      rw [hent]
      simp
    have hmem : e ∈ t1.dynamic_entries := by
      rw [hent]
      simp
    refine ⟨hlast, ?_, ?_, (LookupEntry_of_mem t1 hinv1 e hmem).2⟩
    · rw [he]
    · rw [he]
  · intro hfit
    obtain ⟨k, t1, _, hins, _⟩ := InsertEntry_inv t hr.wellFormed.1 name value hfit
    exact ⟨t1, _, hins⟩

theorem InsertEntry_keeps_new_entry_witness :
    Reachable exampleStatic exampleTable ∧
    InsertEntry exampleTable (List.replicate 30 120) [] =
      some (exampleTable4, some ⟨List.replicate 30 120, [], false, 3⟩) ∧
    exampleTable4.dynamic_entries = [⟨List.replicate 30 120, [], false, 3⟩] ∧
    LookupEntry exampleTable4 false 3 = some ⟨List.replicate 30 120, [], false, 3⟩ :=
  ⟨⟨exampleCalls, by decide⟩, by decide, by decide,
   ((InsertEntry_keeps_new_entry exampleStatic exampleTable ⟨exampleCalls, by decide⟩
      (List.replicate 30 120) []).1 exampleTable4 ⟨List.replicate 30 120, [], false, 3⟩
      (by decide)).2.2.2⟩

/-! ## Eviction order, ceiling, initialisation, accounting -/

theorem EvictionCall_inv (s : QpackStaticTable) (t0 : QpackHeaderTable)
    (h : EvictionCall s t0) :
    ∃ live pend, TableInv t0 live pend ∧ totalSize pend ≤ t0.dynamic_table_capacity := by
  cases h with
  | update t max_size hr _ =>
    have hinv := hr.wellFormed.1
    exact ⟨t.dynamic_entries, [],
      ⟨hinv.entries, hinv.size, hinv.numbering, hinv.index_find, hinv.index_unique,
        hinv.name_find, hinv.name_unique⟩, by simp [totalSize]⟩
  | insert t name value hr hfit =>
    have hinv := hr.wellFormed.1
    refine ⟨t.dynamic_entries, [⟨name, value, false,
      t.dropped_entry_count + t.dynamic_entries.length⟩],
      ⟨rfl, ?_, ?_, hinv.index_find, hinv.index_unique, hinv.name_find, hinv.name_unique⟩,
      by simpa [totalSize] using hfit⟩
    · show t.dynamic_table_size + EntrySize name value = totalSize (t.dynamic_entries ++ _)
      rw [totalSize_append, hinv.size, List.append_nil]
      simp [totalSize]
    · show List.map _ (t.dynamic_entries ++ _) = List.range' t.dropped_entry_count _
      have := hinv.numbering
      rw [List.append_nil] at this
      rw [List.map_append, this, List.length_append, List.length_singleton,
        List.range'_concat]
      simp

/-- C11. Eviction is oldest-first and minimal.  When `EvictDownToCurrentCapacity` runs
inside an `UpdateTableSize` or `InsertEntry` call that is not refused, on a deque `L`, it
returns; the deque afterwards is `L` without its `k` oldest entries, in the same order, where
the remaining suffix has total entry size at most the capacity and every longer suffix
exceeds the capacity; `dropped_entry_count_` grows by `k`; and when the size was within the
capacity already, nothing is evicted and the table is unchanged. -/
theorem eviction_oldest_first_minimal (s : QpackStaticTable) (t0 : QpackHeaderTable)
    (h : EvictionCall s t0) :
    ∃ k t1, k ≤ t0.dynamic_entries.length ∧
      EvictDownToCurrentCapacity t0 = some t1 ∧
      t1.dynamic_entries = t0.dynamic_entries.drop k ∧
      totalSize (t0.dynamic_entries.drop k) ≤ t0.dynamic_table_capacity ∧
      (∀ j, j < k → t0.dynamic_table_capacity < totalSize (t0.dynamic_entries.drop j)) ∧
      t1.dropped_entry_count = t0.dropped_entry_count + k ∧
      (t0.dynamic_table_size ≤ t0.dynamic_table_capacity → k = 0 ∧ t1 = t0) := by
  obtain ⟨live, pend, hinv, hp⟩ := EvictionCall_inv s t0 h
  obtain ⟨k, t1, hk, hloop, hinv1, hframe, hdrop, hle, hmin⟩ :=
    EvictLoop_inv live pend t0 hinv hp
  have hdropk : ∀ j, j ≤ live.length → (live ++ pend).drop j = live.drop j ++ pend :=
    fun j hj => List.drop_append_of_le_length hj
  have hcap : t1.dynamic_table_capacity = t0.dynamic_table_capacity := hframe.2.2.2.1
  have hmin1 : ∀ j, j < k →
      t0.dynamic_table_capacity < totalSize (t0.dynamic_entries.drop j) := by
    intro j hj
    rw [hinv.entries, hdropk j (by omega)]
    exact hmin j hj
  refine ⟨k, t1, ?_, ?_, ?_, ?_, hmin1, hdrop, ?_⟩
  · rw [hinv.entries, List.length_append]
    omega
  · unfold EvictDownToCurrentCapacity
    rw [hinv.entries]
    exact hloop
  · rw [hinv1.entries, hinv.entries, hdropk k hk]
  · rw [hinv.entries, hdropk k hk, ← hinv1.size, ← hcap]
    exact hle
  · intro hsize
    have hk0 : k = 0 := by
      by_contra hne
      have := hmin1 0 (by omega)
      rw [List.drop_zero, hinv.entries, ← hinv.size] at this
      omega
    refine ⟨hk0, ?_⟩
    have hdone := EvictLoop_done (live ++ pend) t0 hsize
    rw [hloop] at hdone
    exact Option.some.inj hdone

theorem eviction_oldest_first_minimal_witness :
    EvictionCall exampleStatic { exampleTable with
      dynamic_entries := exampleTable.dynamic_entries ++
        [⟨List.replicate 30 120, [], false,
          exampleTable.dropped_entry_count + exampleTable.dynamic_entries.length⟩]
      dynamic_table_size := exampleTable.dynamic_table_size +
        EntrySize (List.replicate 30 120) [] } ∧
    ∃ k t1, k ≤ 3 ∧
      EvictDownToCurrentCapacity { exampleTable with
        dynamic_entries := exampleTable.dynamic_entries ++
          [⟨List.replicate 30 120, [], false,
            exampleTable.dropped_entry_count + exampleTable.dynamic_entries.length⟩]
        dynamic_table_size := exampleTable.dynamic_table_size +
          EntrySize (List.replicate 30 120) [] } = some t1 ∧
      t1.dynamic_entries = List.drop k (exampleTable.dynamic_entries ++
        [⟨List.replicate 30 120, [], false, 3⟩]) ∧
      totalSize (List.drop k (exampleTable.dynamic_entries ++
        [⟨List.replicate 30 120, [], false, 3⟩])) ≤ 70 ∧
      (∀ j, j < k → 70 < totalSize (List.drop j (exampleTable.dynamic_entries ++
        [⟨List.replicate 30 120, [], false, 3⟩]))) ∧
      t1.dropped_entry_count = 1 + k ∧
      ((130 : Nat) ≤ 70 → k = 0 ∧ t1 = { exampleTable with
        dynamic_entries := exampleTable.dynamic_entries ++
          [⟨List.replicate 30 120, [], false,
            exampleTable.dropped_entry_count + exampleTable.dynamic_entries.length⟩]
        dynamic_table_size := exampleTable.dynamic_table_size +
          EntrySize (List.replicate 30 120) [] }) :=
  ⟨EvictionCall.insert exampleTable (List.replicate 30 120) []
      ⟨exampleCalls, by decide⟩ (by decide),
   eviction_oldest_first_minimal exampleStatic _
     (EvictionCall.insert exampleTable (List.replicate 30 120) []
        ⟨exampleCalls, by decide⟩ (by decide))⟩

theorem ceiling_runCall (s : QpackStaticTable) (t : QpackHeaderTable) (h : WellFormed s t)
    (c : Call) :
    ∃ t1, runCall t c = some t1 ∧ WellFormed s t1 ∧
      (t.dynamic_table_capacity ≤ t.maximum_dynamic_table_capacity →
        t1.dynamic_table_capacity ≤ t1.maximum_dynamic_table_capacity) ∧
      (isUpdateCall c = true →
        t1.maximum_dynamic_table_capacity = t.maximum_dynamic_table_capacity) := by
  cases c with
  | SetMaximumDynamicTableCapacity v =>
    exact ⟨_, rfl, WellFormed_SetMaximumDynamicTableCapacity s t h v,
      fun _ => Nat.le_refl v, fun hc => Bool.noConfusion hc⟩
  | InsertEntry name value =>
    obtain ⟨t1, r, hins, hwf, _, hcap, hmax, _⟩ := WellFormed_InsertEntry s t h name value
    refine ⟨t1, by simp [runCall, hins], hwf, ?_, fun _ => hmax⟩
    intro hle
    rw [hcap, hmax]
    exact hle
  | UpdateTableSize max_size =>
    by_cases hfit : max_size ≤ t.maximum_dynamic_table_capacity
    · obtain ⟨k, t1, _, hupd, _, hinv, f1, f2, f3, hcap, hmax, _⟩ :=
        UpdateTableSize_inv t h.1 max_size hfit
      refine ⟨t1, by simp [runCall, hupd],
        ⟨hinv, f1.trans h.2.1, f2.trans h.2.2.1, f3.trans h.2.2.2⟩, ?_, fun _ => hmax⟩
      intro _
      rw [hcap, hmax]
      exact hfit
    · have hupd := UpdateTableSize_reject t max_size (by omega)
      exact ⟨t, by simp [runCall, hupd], h, fun hle => hle, fun _ => rfl⟩

theorem ceiling_runCalls (s : QpackStaticTable) (calls : List Call) :
    ∀ t : QpackHeaderTable, WellFormed s t →
      ∃ t1, runCalls t calls = some t1 ∧
        (t.dynamic_table_capacity ≤ t.maximum_dynamic_table_capacity →
          t1.dynamic_table_capacity ≤ t1.maximum_dynamic_table_capacity) ∧
        ((∀ c ∈ calls, isUpdateCall c = true) →
          t1.maximum_dynamic_table_capacity = t.maximum_dynamic_table_capacity) := by
  induction calls with
  | nil =>
    intro t _
    exact ⟨t, rfl, fun hle => hle, fun _ => rfl⟩
  | cons c cs ih =>
    intro t h
    obtain ⟨t1, hrun, hwf, hle, hmax⟩ := ceiling_runCall s t h c
    obtain ⟨t2, hruns, hle2, hmax2⟩ := ih t1 hwf
    refine ⟨t2, by simp [runCalls, hrun, hruns], fun hb => hle2 (hle hb), ?_⟩
    intro hall
    rw [hmax2 (fun c1 hc1 => hall c1 (List.mem_cons_of_mem _ hc1)),
      hmax (hall c (List.mem_cons_self _ _))]

/-- C12. Ceiling invariant: in every state reachable from a fresh table by any sequence of
`SetMaximumDynamicTableCapacity`, `UpdateTableSize` and `InsertEntry` calls,
`dynamic_table_capacity_ <= maximum_dynamic_table_capacity_`. -/
theorem ceiling_invariant (s : QpackStaticTable) (t : QpackHeaderTable)
    (hr : Reachable s t) :
    t.dynamic_table_capacity ≤ t.maximum_dynamic_table_capacity := by
  obtain ⟨calls, hrun⟩ := hr
  obtain ⟨t1, hrun1, hle, _⟩ := ceiling_runCalls s calls _ (WellFormed_new s)
  rw [hrun] at hrun1
  rw [Option.some.inj hrun1]
  exact hle (Nat.le_refl 0)

theorem ceiling_invariant_witness :
    Reachable exampleStatic exampleTable ∧
    exampleTable.dynamic_table_capacity ≤ exampleTable.maximum_dynamic_table_capacity :=
  ⟨⟨exampleCalls, by decide⟩,
   ceiling_invariant exampleStatic exampleTable ⟨exampleCalls, by decide⟩⟩

/-- C13. `SetMaximumDynamicTableCapacity(v)`, called on a table whose capacity, ceiling and
`max_entries_` are all zero, sets `maximum_dynamic_table_capacity_` and
`dynamic_table_capacity_` to `v` and `max_entries_` to `v / 32` rounded down, and leaves
the live entries, `dynamic_table_size_`, `dropped_entry_count_` and both dynamic indices
(and the static members) unchanged. -/
theorem SetMaximumDynamicTableCapacity_contract (t : QpackHeaderTable) (v : Nat)
    (h : SetMaximumDynamicTableCapacity_DCHECKs t = true) :
    (SetMaximumDynamicTableCapacity t v).maximum_dynamic_table_capacity = v ∧
    (SetMaximumDynamicTableCapacity t v).dynamic_table_capacity = v ∧
    (SetMaximumDynamicTableCapacity t v).max_entries = v / 32 ∧
    32 * (SetMaximumDynamicTableCapacity t v).max_entries ≤ v ∧
    v < 32 * ((SetMaximumDynamicTableCapacity t v).max_entries + 1) ∧
    (SetMaximumDynamicTableCapacity t v).dynamic_entries = t.dynamic_entries ∧
    (SetMaximumDynamicTableCapacity t v).dynamic_table_size = t.dynamic_table_size ∧
    (SetMaximumDynamicTableCapacity t v).dropped_entry_count = t.dropped_entry_count ∧
    (SetMaximumDynamicTableCapacity t v).dynamic_index = t.dynamic_index ∧
    (SetMaximumDynamicTableCapacity t v).dynamic_name_index = t.dynamic_name_index ∧
    (SetMaximumDynamicTableCapacity t v).static_entries = t.static_entries ∧
    (SetMaximumDynamicTableCapacity t v).static_index = t.static_index ∧
    (SetMaximumDynamicTableCapacity t v).static_name_index = t.static_name_index := by
  have _ := h
  refine ⟨rfl, rfl, rfl, ?_, ?_, rfl, rfl, rfl, rfl, rfl, rfl, rfl, rfl⟩
  · show 32 * (v / 32) ≤ v
    omega
  · show v < 32 * (v / 32 + 1)
    omega

theorem SetMaximumDynamicTableCapacity_contract_witness :
    SetMaximumDynamicTableCapacity_DCHECKs (QpackHeaderTable.new exampleStatic) = true ∧
    (SetMaximumDynamicTableCapacity (QpackHeaderTable.new exampleStatic) 70).max_entries
      = 2 :=
  ⟨by decide,
   (SetMaximumDynamicTableCapacity_contract (QpackHeaderTable.new exampleStatic) 70
      (by decide)).2.2.1⟩

/-- C14, as stated, fails: after a first call `SetMaximumDynamicTableCapacity(0)` the three
members are still zero, also after later `InsertEntry` and `UpdateTableSize` calls, so the
assertions of a second call hold. -/
theorem second_call_after_zero_passes :
    ¬ (∀ (s : QpackStaticTable) (v : Nat) (calls : List Call) (t : QpackHeaderTable),
        (∀ c ∈ calls, isUpdateCall c = true) →
        runCalls (SetMaximumDynamicTableCapacity (QpackHeaderTable.new s) v) calls = some t →
        SetMaximumDynamicTableCapacity_DCHECKs t = false) := by
  intro h
  have := h exampleStatic 0 [Call.InsertEntry [120] [49], Call.UpdateTableSize 0]
    (SetMaximumDynamicTableCapacity (QpackHeaderTable.new exampleStatic) 0)
    (by decide) (by decide)
  exact absurd this (by decide)

/-- C14, amended. One-time initialisation: on a table on which
`SetMaximumDynamicTableCapacity` has been called once with a value other than zero, after
every later sequence of `InsertEntry` and `UpdateTableSize` calls, a second call violates
the assertions of the method: `maximum_dynamic_table_capacity_` is still the value of the
first call, which is not zero. -/
theorem one_time_initialisation (s : QpackStaticTable) (v : Nat) (calls : List Call)
    (hv : v ≠ 0) (hc : ∀ c ∈ calls, isUpdateCall c = true) :
    ∃ t, runCalls (SetMaximumDynamicTableCapacity (QpackHeaderTable.new s) v) calls = some t ∧
      t.maximum_dynamic_table_capacity = v ∧
      SetMaximumDynamicTableCapacity_DCHECKs t = false := by
  obtain ⟨t, hrun, _, hmax⟩ := ceiling_runCalls s calls _
    (WellFormed_SetMaximumDynamicTableCapacity s _ (WellFormed_new s) v)
  have hm : t.maximum_dynamic_table_capacity = v := hmax hc
  refine ⟨t, hrun, hm, ?_⟩
  unfold SetMaximumDynamicTableCapacity_DCHECKs
  have hne : (t.maximum_dynamic_table_capacity == 0) = false := by
    rw [hm]
    simpa using hv
  rw [hne]
  simp

theorem one_time_initialisation_witness :
    (20 : Nat) ≠ 0 ∧
    (∀ c ∈ [Call.InsertEntry [120] [49], Call.UpdateTableSize 0], isUpdateCall c = true) ∧
    ∃ t, runCalls (SetMaximumDynamicTableCapacity (QpackHeaderTable.new exampleStatic) 20)
        [Call.InsertEntry [120] [49], Call.UpdateTableSize 0] = some t ∧
      t.maximum_dynamic_table_capacity = 20 ∧
      SetMaximumDynamicTableCapacity_DCHECKs t = false :=
  ⟨by decide, by decide,
   one_time_initialisation exampleStatic 20 _ (by decide) (by decide)⟩

theorem totalSize_eq_zero (l : List QpackEntry) : totalSize l = 0 ↔ l = [] := by
  cases l with
  | nil => simp [totalSize]
  | cons e l =>
    rw [totalSize_cons]
    simp [EntrySize, kEntrySizeOverhead]

/-- C15. Size accounting invariant: in every reachable state `dynamic_table_size_` is the
sum over the live dynamic entries of `len(name) + len(value) + 32`, so it is zero exactly
when the dynamic table is empty. -/
theorem size_accounting (s : QpackStaticTable) (t : QpackHeaderTable)
    (hr : Reachable s t) :
    t.dynamic_table_size =
      (t.dynamic_entries.map (fun e => e.name.length + e.value.length + 32)).sum ∧
    (t.dynamic_table_size = 0 ↔ t.dynamic_entries = []) := by
  have hsize := hr.wellFormed.1.size
  rw [List.append_nil] at hsize
  refine ⟨hsize, ?_⟩
  rw [hsize]
  exact totalSize_eq_zero _

theorem size_accounting_witness :
    Reachable exampleStatic exampleTable ∧
    exampleTable.dynamic_table_size =
      (exampleTable.dynamic_entries.map (fun e => e.name.length + e.value.length + 32)).sum :=
  ⟨⟨exampleCalls, by decide⟩,
   (size_accounting exampleStatic exampleTable ⟨exampleCalls, by decide⟩).1⟩

/-! ## Stability of absolute indices -/

theorem LookupEntry_history (t : QpackHeaderTable) (H : List QpackEntry)
    (hH : t.dynamic_entries = H.drop t.dropped_entry_count) (i : Nat) :
    LookupEntry t false i = if i < t.dropped_entry_count then none else H[i]? := by
  rw [LookupEntry_dynamic_eq]
  by_cases h1 : i < t.dropped_entry_count
  · simp [h1]
  · have hi : t.dropped_entry_count + (i - t.dropped_entry_count) = i := by omega
    by_cases h2 : i - t.dropped_entry_count ≥ t.dynamic_entries.length
    · have hlen : H.length ≤ i := by
        rw [hH, List.length_drop] at h2
        omega
      simp [h1, h2, List.getElem?_eq_none hlen]
    · have hor : ¬ (i < t.dropped_entry_count ∨
          i - t.dropped_entry_count ≥ t.dynamic_entries.length) := by
        intro hc
        rcases hc with hc | hc
        · exact h1 hc
        · exact h2 hc
      rw [if_neg hor, if_neg h1, hH, List.getElem?_drop, hi]

theorem history_runCall (s : QpackStaticTable) (t : QpackHeaderTable) (h : WellFormed s t)
    (c : Call) (H : List QpackEntry)
    (hH : t.dynamic_entries = H.drop t.dropped_entry_count)
    (hd : t.dropped_entry_count ≤ H.length) :
    ∃ t1 ext, runCall t c = some t1 ∧ WellFormed s t1 ∧
      t1.dynamic_entries = (H ++ ext).drop t1.dropped_entry_count ∧
      t.dropped_entry_count ≤ t1.dropped_entry_count ∧
      t1.dropped_entry_count ≤ (H ++ ext).length := by
  have hlen : t.dynamic_entries.length = H.length - t.dropped_entry_count := by
    rw [hH, List.length_drop]
  cases c with
  | SetMaximumDynamicTableCapacity v =>
    exact ⟨_, [], rfl, WellFormed_SetMaximumDynamicTableCapacity s t h v,
      by simpa using hH, Nat.le_refl _, by simpa using hd⟩
  | InsertEntry name value =>
    by_cases hfit : EntrySize name value ≤ t.dynamic_table_capacity
    · obtain ⟨k, t1, hk, hins, hent, hinv, hframe, hdrop, _⟩ :=
        InsertEntry_inv t h.1 name value hfit
      obtain ⟨f1, f2, f3, _⟩ := hframe
      refine ⟨t1, [⟨name, value, false,
        t.dropped_entry_count + t.dynamic_entries.length⟩], by simp [runCall, hins],
        ⟨hinv, f1.trans h.2.1, f2.trans h.2.2.1, f3.trans h.2.2.2⟩, ?_, by omega, ?_⟩
      · rw [hent, hH, List.drop_drop, hdrop,
          List.drop_append_of_le_length (by omega)]
      · rw [List.length_append, List.length_singleton]
        omega
    · have hins := InsertEntry_reject t name value (by omega)
      exact ⟨t, [], by simp [runCall, hins], h, by simpa using hH, Nat.le_refl _,
        by simpa using hd⟩
  | UpdateTableSize max_size =>
    by_cases hfit : max_size ≤ t.maximum_dynamic_table_capacity
    · obtain ⟨k, t1, hk, hupd, hent, hinv, f1, f2, f3, _, _, _, hdrop, _⟩ :=
        UpdateTableSize_inv t h.1 max_size hfit
      refine ⟨t1, [], by simp [runCall, hupd],
        ⟨hinv, f1.trans h.2.1, f2.trans h.2.2.1, f3.trans h.2.2.2⟩, ?_, by omega, ?_⟩
      · rw [hent, hH, List.drop_drop, hdrop, List.append_nil]
      · rw [List.append_nil]
        omega
    · have hupd := UpdateTableSize_reject t max_size (by omega)
      exact ⟨t, [], by simp [runCall, hupd], h, by simpa using hH, Nat.le_refl _,
        by simpa using hd⟩

theorem history_runCalls (s : QpackStaticTable) (calls : List Call) :
    ∀ (t : QpackHeaderTable), WellFormed s t → ∀ (H : List QpackEntry),
      t.dynamic_entries = H.drop t.dropped_entry_count →
      t.dropped_entry_count ≤ H.length →
      ∃ t1 ext, runCalls t calls = some t1 ∧
        t1.dynamic_entries = (H ++ ext).drop t1.dropped_entry_count ∧
        t.dropped_entry_count ≤ t1.dropped_entry_count := by
  induction calls with
  | nil =>
    intro t _ H hH _
    exact ⟨t, [], rfl, by simpa using hH, Nat.le_refl _⟩
  | cons c cs ih =>
    intro t h H hH hd
    obtain ⟨t1, ext1, hrun, hwf, hH1, hle1, hd1⟩ := history_runCall s t h c H hH hd
    obtain ⟨t2, ext2, hruns, hH2, hle2⟩ := ih t1 hwf (H ++ ext1) hH1 hd1
    refine ⟨t2, ext1 ++ ext2, by simp [runCalls, hrun, hruns], ?_, by omega⟩
    rw [← List.append_assoc]
    exact hH2

/-- C16. Absolute indices are stable.  For every index `i`, every reachable table and every
further sequence of calls on it: the calls return a table on which `dropped_entry_count_`
is not smaller than before; if `LookupEntry(false, i)` returns an entry before and after
the calls, it is the same entry (same name and value); and if `i` was below
`dropped_entry_count_` before the calls, `LookupEntry(false, i)` returns a null pointer
after them. -/
theorem absolute_indices_stable (s : QpackStaticTable) (t : QpackHeaderTable)
    (hr : Reachable s t) (calls : List Call) (i : Nat) :
    ∃ t1, runCalls t calls = some t1 ∧
      t.dropped_entry_count ≤ t1.dropped_entry_count ∧
      (∀ e e1, LookupEntry t false i = some e → LookupEntry t1 false i = some e1 →
        e1 = e ∧ e1.name = e.name ∧ e1.value = e.value) ∧
      (i < t.dropped_entry_count → LookupEntry t1 false i = none) := by
  have hH : t.dynamic_entries =
      (List.replicate t.dropped_entry_count (QpackEntry.query [] []) ++
        t.dynamic_entries).drop t.dropped_entry_count := by
    rw [List.drop_append_of_le_length (by simp)]
    simp
  obtain ⟨t1, ext, hrun, hH1, hle⟩ := history_runCalls s calls t hr.wellFormed _ hH (by simp)
  refine ⟨t1, hrun, hle, ?_, ?_⟩
  · intro e e1 h0 h1
    rw [LookupEntry_history t _ hH] at h0
    rw [LookupEntry_history t1 _ hH1] at h1
    by_cases hi : i < t.dropped_entry_count
    · simp [hi] at h0
    · by_cases hi1 : i < t1.dropped_entry_count
      · simp [hi1] at h1
      · rw [if_neg hi] at h0
        rw [if_neg hi1] at h1
        have hlt : i < (List.replicate t.dropped_entry_count (QpackEntry.query [] []) ++
            t.dynamic_entries).length := by
          by_contra hge
          rw [List.getElem?_eq_none (by omega)] at h0
          exact Option.noConfusion h0
        rw [List.getElem?_append_left hlt, h0] at h1
        have := Option.some.inj h1
        subst this
        exact ⟨rfl, rfl, rfl⟩
  · intro hi
    rw [LookupEntry_history t1 _ hH1, if_pos (by omega)]

theorem absolute_indices_stable_witness :
    Reachable exampleStatic exampleTable ∧
    ∃ t1, runCalls exampleTable [Call.InsertEntry [122] []] = some t1 ∧
      exampleTable.dropped_entry_count ≤ t1.dropped_entry_count ∧
      (∀ e e1, LookupEntry exampleTable false 2 = some e → LookupEntry t1 false 2 = some e1 →
        e1 = e ∧ e1.name = e.name ∧ e1.value = e.value) ∧
      (2 < exampleTable.dropped_entry_count → LookupEntry t1 false 2 = none) :=
  ⟨⟨exampleCalls, by decide⟩,
   absolute_indices_stable exampleStatic exampleTable ⟨exampleCalls, by decide⟩
     [Call.InsertEntry [122] []] 2⟩

/-- C17. `LookupEntry(true, index)` returns the static entry at position `index` when
`index` is below the size of the static table and a null pointer otherwise, whatever the
dynamic table holds: two tables with the same static entries give the same answer, and on
a table over the static table `s` the answer is read from the entries of `s`. -/
theorem LookupEntry_static (t : QpackHeaderTable) (index : Nat) :
    (index < t.static_entries.length →
      ∃ e, LookupEntry t true index = some e ∧ t.static_entries[index]? = some e) ∧
    (¬ index < t.static_entries.length → LookupEntry t true index = none) ∧
    (∀ t1 : QpackHeaderTable, t1.static_entries = t.static_entries →
      LookupEntry t1 true index = LookupEntry t true index) ∧
    (∀ s, Reachable s t → LookupEntry t true index = s.static_entries[index]?) := by
  have heq : ∀ t0 : QpackHeaderTable, LookupEntry t0 true index = t0.static_entries[index]? := by
    intro t0
    unfold LookupEntry
    by_cases h : index ≥ t0.static_entries.length
    · simp [h]
    · simp [h]
  refine ⟨?_, ?_, ?_, ?_⟩
  · intro h
    exact ⟨t.static_entries[index], by rw [heq, List.getElem?_eq_getElem h],
      List.getElem?_eq_getElem h⟩
  · intro h
    rw [heq, List.getElem?_eq_none (by omega)]
  · intro t1 h1
    rw [heq, heq, h1]
  · intro s hr
    rw [heq, hr.wellFormed.2.1]

theorem LookupEntry_static_witness :
    (1 < exampleTable.static_entries.length ∧
      ∃ e, LookupEntry exampleTable true 1 = some e ∧
        exampleTable.static_entries[1]? = some e) ∧
    (¬ 2 < exampleTable.static_entries.length ∧ LookupEntry exampleTable true 2 = none) :=
  ⟨⟨by decide, (LookupEntry_static exampleTable 1).1 (by decide)⟩,
   ⟨by decide, (LookupEntry_static exampleTable 2).2.1 (by decide)⟩⟩

/-! ## The instruction encoder -/

theorem varintExtension_spec (fuel : Nat) :
    ∀ value : Nat, value ≤ fuel →
      ∃ cont last, varintExtension fuel value = cont ++ [last] ∧
        (∀ b ∈ cont, 128 ≤ b ∧ b < 256) ∧ last < 128 ∧
        base128Value (cont ++ [last]) = value := by
  induction fuel with
  | zero =>
    intro value hv
    have h0 : value = 0 := by omega
    subst h0
    exact ⟨[], 0, rfl, by simp, by omega, rfl⟩
  | succ fuel ih =>
    intro value hv
    by_cases hge : value ≥ 128
    · obtain ⟨cont, last, heq, hcont, hlast, hval⟩ := ih (value / 128) (by omega)
      refine ⟨(value % 128 + 128) :: cont, last, ?_, ?_, hlast, ?_⟩
      · simp only [varintExtension, hge, if_true, heq, List.cons_append]
      · intro b hb
        rcases List.mem_cons.1 hb with hb | hb
        · subst hb
          omega
        · exact hcont b hb
      · rw [List.cons_append, base128Value, hval]
        omega
    · refine ⟨[], value, ?_, by simp, by omega, ?_⟩
      · simp only [varintExtension, hge, if_false, List.nil_append]
      · simp only [List.nil_append, base128Value]
        omega

theorem or_low_bits (N a b : Nat) (hb : b < 2 ^ N) : 2 ^ N * a ||| b = 2 ^ N * a + b :=
  (Nat.mul_add_lt_is_or hb a).symm

theorem div_pow_succ_128 (value i : Nat) :
    value / 128 ^ (i + 1) = value / 128 / 128 ^ i := by
  rw [Nat.div_div_eq_div_mul, Nat.pow_succ, Nat.mul_comm]

theorem varintExtension_digits (fuel : Nat) :
    ∀ value : Nat, value ≤ fuel →
      ∃ cont last, varintExtension fuel value = cont ++ [last] ∧
        (∀ i, i < cont.length →
          cont[i]? = some (128 + value / 128 ^ i % 128) ∧ 128 ≤ value / 128 ^ i) ∧
        last = value / 128 ^ cont.length ∧ last < 128 := by
  induction fuel with
  | zero =>
    intro value hv
    have h0 : value = 0 := by omega
    subst h0
    exact ⟨[], 0, rfl, by simp, by simp, by omega⟩
  | succ fuel ih =>
    intro value hv
    by_cases hge : value ≥ 128
    · obtain ⟨cont, last, heq, hdig, hlast, hlt⟩ := ih (value / 128) (by omega)
      refine ⟨(value % 128 + 128) :: cont, last, ?_, ?_, ?_, hlt⟩
      · simp only [varintExtension, hge, if_true, heq, List.cons_append]
      · intro i hi
        cases i with
        | zero =>
          rw [List.getElem?_cons_zero, Nat.pow_zero, Nat.div_one, Nat.add_comm]
          exact ⟨rfl, hge⟩
        | succ i =>
          rw [List.getElem?_cons_succ, div_pow_succ_128]
          exact hdig i (by simpa using hi)
      · rw [List.length_cons, div_pow_succ_128]
        exact hlast
    · refine ⟨[], value, ?_, by simp, by simp, by omega⟩
      simp only [varintExtension, hge, if_false, List.nil_append]

theorem HpackVarintEncode_fits (N a v : Nat) (hv : v < 2 ^ N - 1) :
    HpackVarintEncode (2 ^ N * a) N v = [2 ^ N * a + v] := by
  unfold HpackVarintEncode
  rw [if_pos hv, or_low_bits N a v (by omega)]

/-- C18. Prefix-varint rule.  For every number `N` of prefix bits, every content `a` of the
bits of the shared byte above them and every value `v`, with `prefix_max = 2 ^ N - 1`: if
`v < prefix_max` the integer is one byte, with `v` in the `N` low bits; otherwise the `N`
low bits of the first byte are all ones and `v - prefix_max` follows in continuation bytes,
the least significant seven bits first, every continuation byte but the last with its high
bit set and the last with it clear.  The bytes are fixed one by one: with
`r = v - prefix_max`, the continuation byte at position `i` before the last is
`128 + (r / 128 ^ i) % 128` and is followed by more because `r / 128 ^ i ≥ 128`, and the
last byte is `r / 128 ^ k < 128` for the number `k` of bytes before it; so `k` is the
least number with `r / 128 ^ k < 128`.  For `v = prefix_max` the continuation is the single
byte 00: 127 on 7 bits is 7f 00, 31 on 5 bits (under the bits 010) is 5f 00; 137 on 6
bits (under the bits 10) is bf 4a; 158 on 5 bits is 1f 7f, 159 on 5 bits is 1f 80 01 and
500 on 5 bits is 1f d5 03. -/
theorem prefix_varint_rule (N a v : Nat) :
    (v < 2 ^ N - 1 → HpackVarintEncode (2 ^ N * a) N v = [2 ^ N * a + v]) ∧
    (¬ v < 2 ^ N - 1 →
      ∃ cont last, HpackVarintEncode (2 ^ N * a) N v =
          (2 ^ N * a + (2 ^ N - 1)) :: (cont ++ [last]) ∧
        (∀ b ∈ cont, 128 ≤ b ∧ b < 256) ∧ last < 128 ∧
        base128Value (cont ++ [last]) = v - (2 ^ N - 1) ∧
        (∀ i, i < cont.length →
          cont[i]? = some (128 + (v - (2 ^ N - 1)) / 128 ^ i % 128) ∧
          128 ≤ (v - (2 ^ N - 1)) / 128 ^ i) ∧
        last = (v - (2 ^ N - 1)) / 128 ^ cont.length) ∧
    HpackVarintEncode (2 ^ N * a) N (2 ^ N - 1) = [2 ^ N * a + (2 ^ N - 1), 0] ∧
    HpackVarintEncode 0 7 127 = [0x7f, 0x00] ∧
    HpackVarintEncode 0x40 5 31 = [0x5f, 0x00] ∧
    HpackVarintEncode 0x80 6 137 = [0xbf, 0x4a] ∧
    HpackVarintEncode 0 5 158 = [0x1f, 0x7f] ∧
    HpackVarintEncode 0 5 159 = [0x1f, 0x80, 0x01] ∧
    HpackVarintEncode 0 5 500 = [0x1f, 0xd5, 0x03] := by
  have hpos : 0 < 2 ^ N := Nat.two_pow_pos N
  have hones : 2 ^ N * a ||| (2 ^ N - 1) = 2 ^ N * a + (2 ^ N - 1) :=
    or_low_bits N a _ (by omega)
  refine ⟨?_, ?_, ?_, by decide, by decide, by decide, by decide, by decide, by decide⟩
  · exact HpackVarintEncode_fits N a v
  · intro hv
    obtain ⟨cont, last, heq, hcont, hlast, hval⟩ :=
      varintExtension_spec (v - (2 ^ N - 1)) (v - (2 ^ N - 1)) (Nat.le_refl _)
    obtain ⟨cont2, last2, heq2, hdig, hlast2, _⟩ :=
      varintExtension_digits (v - (2 ^ N - 1)) (v - (2 ^ N - 1)) (Nat.le_refl _)
    have hsame : cont = cont2 ∧ last = last2 := by
      have h12 : cont ++ [last] = cont2 ++ [last2] := heq.symm.trans heq2
      have hc := List.append_inj_left' h12 rfl
      have hl := List.append_inj_right' h12 rfl
      exact ⟨hc, List.head_eq_of_cons_eq hl⟩
    obtain ⟨hc, hl⟩ := hsame
    subst hc
    subst hl
    refine ⟨cont, last, ?_, hcont, hlast, hval, hdig, hlast2⟩
    unfold HpackVarintEncode
    rw [if_neg hv, hones, heq]
  · unfold HpackVarintEncode
    rw [if_neg (Nat.lt_irrefl _), hones, Nat.sub_self]
    rfl

theorem prefix_varint_rule_witness :
    ¬ 500 < 2 ^ 5 - 1 ∧
    ∃ cont last, HpackVarintEncode (2 ^ 5 * 0) 5 500 =
        (2 ^ 5 * 0 + (2 ^ 5 - 1)) :: (cont ++ [last]) ∧
      (∀ b ∈ cont, 128 ≤ b ∧ b < 256) ∧ last < 128 ∧
      base128Value (cont ++ [last]) = 500 - (2 ^ 5 - 1) ∧
      (∀ i, i < cont.length →
        cont[i]? = some (128 + (500 - (2 ^ 5 - 1)) / 128 ^ i % 128) ∧
        128 ≤ (500 - (2 ^ 5 - 1)) / 128 ^ i) ∧
      last = (500 - (2 ^ 5 - 1)) / 128 ^ cont.length :=
  ⟨by decide, (prefix_varint_rule 5 0 500).2.1 (by decide)⟩

theorem HpackVarintEncode_head (a N v : Nat) :
    ∃ rest, HpackVarintEncode (2 ^ N * a) N v = (2 ^ N * a + min v (2 ^ N - 1)) :: rest := by
  have hpos : 0 < 2 ^ N := Nat.two_pow_pos N
  unfold HpackVarintEncode
  by_cases hv : v < 2 ^ N - 1
  · rw [if_pos hv, or_low_bits N a v (by omega), Nat.min_eq_left (by omega)]
    exact ⟨[], rfl⟩
  · rw [if_neg hv, or_low_bits N a _ (by omega), Nat.min_eq_right (by omega)]
    exact ⟨_, rfl⟩

theorem Encode_single_varint (h : HuffmanCoder) (enc : QpackInstructionEncoder)
    (opcode N : Nat) (s_bit : Bool) (varint varint2 : Nat) (name value output : Bytes) :
    Encode h enc
      { instruction := { opcode := opcode, fields := [⟨QpackInstructionFieldType.kVarint, N⟩] }
        s_bit := s_bit, varint := varint, varint2 := varint2, name := name, value := value }
      output =
    some ({ use_huffman := enc.use_huffman
            string_length := enc.string_length
            byte := 0
            state := QpackInstructionEncoder.State.kStartField
            instruction :=
              { opcode := opcode, fields := [⟨QpackInstructionFieldType.kVarint, N⟩] }
            field := [] },
          output ++ HpackVarintEncode opcode N varint) := rfl

/-- C19. Duplicate instruction.  For every index, whatever the encoder has encoded before,
the data written for `Duplicate(index)` is the varint of `index` on 5 bits with the top three
bits of the first byte 000, and nothing else; for `index < 31` it is the single byte
`index`.  `SendDuplicate(17)` writes 11 and `SendDuplicate(500)` writes 1f d5 03. -/
theorem Duplicate_encoding (h : HuffmanCoder) (enc : QpackInstructionEncoder) (index : Nat) :
    (∃ enc1, SendDuplicate h enc index = some (enc1, HpackVarintEncode 0 5 index)) ∧
    (∃ first rest, HpackVarintEncode 0 5 index = first :: rest ∧ first / 32 = 0) ∧
    (index < 31 → ∃ enc1, SendDuplicate h enc index = some (enc1, [index])) ∧
    (∃ enc1, SendDuplicate h enc 17 = some (enc1, [0x11])) ∧
    (∃ enc1, SendDuplicate h enc 500 = some (enc1, [0x1f, 0xd5, 0x03])) := by
  have hsend : ∀ i, ∃ enc1, SendDuplicate h enc i = some (enc1, HpackVarintEncode 0 5 i) :=
    fun i => ⟨_, Encode_single_varint h enc 0 5 false i 0 [] [] []⟩
  refine ⟨hsend index, ?_, ?_, hsend 17, hsend 500⟩
  · obtain ⟨rest, hrest⟩ := HpackVarintEncode_head 0 5 index
    rw [Nat.mul_zero, Nat.zero_add] at hrest
    refine ⟨_, rest, hrest, ?_⟩
    have : min index (2 ^ 5 - 1) ≤ 31 := Nat.min_le_right _ _
    omega
  · intro hlt
    obtain ⟨enc1, h1⟩ := hsend index
    refine ⟨enc1, ?_⟩
    rw [h1]
    have := HpackVarintEncode_fits 5 0 index (by omega)
    rw [Nat.mul_zero, Nat.zero_add] at this
    rw [this]

theorem Duplicate_encoding_witness :
    (17 : Nat) < 31 ∧
    ∃ enc1, SendDuplicate exampleHuffman QpackInstructionEncoder.new 17 = some (enc1, [17]) :=
  ⟨by decide, (Duplicate_encoding exampleHuffman QpackInstructionEncoder.new 17).2.2.1
    (by decide)⟩

/-- C20. Dynamic table size update instruction.  For every capacity `c`, whatever the
encoder has encoded before, the data written is the varint of `c` on 5 bits with the top
three bits of the first byte 001, and nothing else; for `c < 31` it is the single byte
`0x20 + c`.  `SendDynamicTableSizeUpdate(17)` writes 31 and
`SendDynamicTableSizeUpdate(500)` writes 3f d5 03. -/
theorem DynamicTableSizeUpdate_encoding (h : HuffmanCoder) (enc : QpackInstructionEncoder)
    (c : Nat) :
    (∃ enc1, SendDynamicTableSizeUpdate h enc c =
      some (enc1, HpackVarintEncode 0x20 5 c)) ∧
    (∃ first rest, HpackVarintEncode 0x20 5 c = first :: rest ∧ first / 32 = 1) ∧
    (c < 31 → ∃ enc1, SendDynamicTableSizeUpdate h enc c = some (enc1, [0x20 + c])) ∧
    (∃ enc1, SendDynamicTableSizeUpdate h enc 17 = some (enc1, [0x31])) ∧
    (∃ enc1, SendDynamicTableSizeUpdate h enc 500 = some (enc1, [0x3f, 0xd5, 0x03])) := by
  have hsend : ∀ i, ∃ enc1, SendDynamicTableSizeUpdate h enc i =
      some (enc1, HpackVarintEncode 0x20 5 i) :=
    fun i => ⟨_, Encode_single_varint h enc 0x20 5 false i 0 [] [] []⟩
  refine ⟨hsend c, ?_, ?_, hsend 17, hsend 500⟩
  · obtain ⟨rest, hrest⟩ := HpackVarintEncode_head 1 5 c
    refine ⟨_, rest, hrest, ?_⟩
    have : min c (2 ^ 5 - 1) ≤ 31 := Nat.min_le_right _ _
    omega
  · intro hlt
    obtain ⟨enc1, h1⟩ := hsend c
    refine ⟨enc1, ?_⟩
    rw [h1]
    have := HpackVarintEncode_fits 5 1 c (by omega)
    rw [show (0x20 : Nat) = 2 ^ 5 * 1 from rfl, this]

theorem DynamicTableSizeUpdate_encoding_witness :
    (17 : Nat) < 31 ∧
    ∃ enc1, SendDynamicTableSizeUpdate exampleHuffman QpackInstructionEncoder.new 17 =
      some (enc1, [0x20 + 17]) :=
  ⟨by decide,
   (DynamicTableSizeUpdate_encoding exampleHuffman QpackInstructionEncoder.new 17).2.2.1
     (by decide)⟩

/-! ## Termination and safety of the eviction loop -/

theorem EvictFront_some (t t1 : QpackHeaderTable) (e : QpackEntry) (rest : List QpackEntry)
    (h : EvictFront t e rest = some t1) :
    EntrySize e.name e.value ≤ t.dynamic_table_size ∧
    t1.dynamic_table_size + EntrySize e.name e.value = t.dynamic_table_size ∧
    t1.dropped_entry_count = t.dropped_entry_count + 1 ∧
    t1.dynamic_entries = rest ∧
    t1.dynamic_table_capacity = t.dynamic_table_capacity := by
  unfold EvictFront at h
  by_cases hlt : t.dynamic_table_size < EntrySize e.name e.value
  · simp only [hlt, if_true] at h
    exact Option.noConfusion h
  · simp only [hlt, if_false, Option.some.injEq] at h
    subst h
    refine ⟨by omega, ?_, rfl, rfl, rfl⟩
    show t.dynamic_table_size - EntrySize e.name e.value + EntrySize e.name e.value = _
    omega

theorem EvictLoopCount_spec (l : List QpackEntry) :
    ∀ t t1 : QpackHeaderTable, EvictLoop l t = some t1 →
      ∃ n, EvictLoopCount l t = some (t1, n) ∧ n ≤ l.length ∧
        t1.dropped_entry_count = t.dropped_entry_count + n ∧
        t1.dynamic_table_size + 32 * n ≤ t.dynamic_table_size := by
  induction l with
  | nil =>
    intro t t1 h
    by_cases hgt : t.dynamic_table_size > t.dynamic_table_capacity
    · simp [EvictLoop, hgt] at h
    · simp only [EvictLoop, hgt, if_false, Option.some.injEq] at h
      subst h
      exact ⟨0, by simp [EvictLoopCount, hgt], Nat.le_refl _, rfl, Nat.le_refl _⟩
  | cons e rest ih =>
    intro t t1 h
    by_cases hgt : t.dynamic_table_size > t.dynamic_table_capacity
    · simp only [EvictLoop, hgt, if_true] at h
      cases hf : EvictFront t e rest with
      | none =>
        rw [hf] at h
        exact Option.noConfusion h
      | some t2 =>
        rw [hf] at h
        obtain ⟨n, hcount, hn, hdrop, hsize⟩ := ih t2 t1 h
        obtain ⟨_, hs2, hd2, _, _⟩ := EvictFront_some t t2 e rest hf
        refine ⟨n + 1, ?_, by simpa using hn, by omega, ?_⟩
        · simp only [EvictLoopCount, hgt, if_true, hf, hcount, Option.map_some']
        · have : 32 ≤ EntrySize e.name e.value := by
            unfold EntrySize kEntrySizeOverhead
            omega
          omega
    · simp only [EvictLoop, hgt, if_false, Option.some.injEq] at h
      subst h
      exact ⟨0, by simp [EvictLoopCount, hgt], Nat.zero_le _, rfl, Nat.le_refl _⟩

/-- C26. The eviction loop terminates.  For every reachable table, with every value of
the capacity (as `UpdateTableSize` may set it), and for every table on which a public
method calls it, `EvictDownToCurrentCapacity` returns after a number `n` of passes that is
at most the number of live entries; every pass removes the front entry, adds one to
`dropped_entry_count_` and takes at least 32 from `dynamic_table_size_`. -/
theorem eviction_terminates (s : QpackStaticTable) :
    (∀ (t : QpackHeaderTable) (c : Nat), Reachable s t →
      ∃ t1 n, EvictDownToCurrentCapacity { t with dynamic_table_capacity := c } = some t1 ∧
        EvictLoopCount t.dynamic_entries { t with dynamic_table_capacity := c } =
          some (t1, n) ∧
        n ≤ t.dynamic_entries.length ∧
        t1.dynamic_entries = t.dynamic_entries.drop n ∧
        t1.dropped_entry_count = t.dropped_entry_count + n ∧
        t1.dynamic_table_size + 32 * n ≤ t.dynamic_table_size) ∧
    (∀ t0 : QpackHeaderTable, EvictionCall s t0 →
      ∃ t1 n, EvictDownToCurrentCapacity t0 = some t1 ∧
        EvictLoopCount t0.dynamic_entries t0 = some (t1, n) ∧
        n ≤ t0.dynamic_entries.length ∧
        t1.dynamic_entries = t0.dynamic_entries.drop n ∧
        t1.dropped_entry_count = t0.dropped_entry_count + n ∧
        t1.dynamic_table_size + 32 * n ≤ t0.dynamic_table_size) := by
  have key : ∀ (t0 : QpackHeaderTable) (live pend : List QpackEntry),
      TableInv t0 live pend → totalSize pend ≤ t0.dynamic_table_capacity →
      ∃ t1 n, EvictDownToCurrentCapacity t0 = some t1 ∧
        EvictLoopCount t0.dynamic_entries t0 = some (t1, n) ∧
        n ≤ t0.dynamic_entries.length ∧
        t1.dynamic_entries = t0.dynamic_entries.drop n ∧
        t1.dropped_entry_count = t0.dropped_entry_count + n ∧
        t1.dynamic_table_size + 32 * n ≤ t0.dynamic_table_size := by
    intro t0 live pend hinv hp
    obtain ⟨k, t1, hk, hloop, hinv1, _, hdrop, _, _⟩ := EvictLoop_inv live pend t0 hinv hp
    rw [← hinv.entries] at hloop
    obtain ⟨n, hcount, hn, hdropn, hsize⟩ := EvictLoopCount_spec _ t0 t1 hloop
    have hkn : k = n := by omega
    subst hkn
    refine ⟨t1, k, hloop, hcount, hn, ?_, hdrop, hsize⟩
    rw [hinv1.entries, hinv.entries, List.drop_append_of_le_length hk]
  constructor
  · intro t c hr
    have hinv := hr.wellFormed.1
    exact key { t with dynamic_table_capacity := c } t.dynamic_entries []
      ⟨hinv.entries, hinv.size, hinv.numbering, hinv.index_find, hinv.index_unique,
        hinv.name_find, hinv.name_unique⟩ (by simp [totalSize])
  · intro t0 h0
    obtain ⟨live, pend, hinv, hp⟩ := EvictionCall_inv s t0 h0
    exact key t0 live pend hinv hp

theorem eviction_terminates_witness :
    Reachable exampleStatic exampleTable ∧
    ∃ t1 n, EvictDownToCurrentCapacity { exampleTable with dynamic_table_capacity := 40 } =
        some t1 ∧
      EvictLoopCount exampleTable.dynamic_entries
        { exampleTable with dynamic_table_capacity := 40 } = some (t1, n) ∧
      n ≤ exampleTable.dynamic_entries.length ∧
      t1.dynamic_entries = exampleTable.dynamic_entries.drop n ∧
      t1.dropped_entry_count = exampleTable.dropped_entry_count + n ∧
      t1.dynamic_table_size + 32 * n ≤ exampleTable.dynamic_table_size :=
  ⟨⟨exampleCalls, by decide⟩,
   (eviction_terminates exampleStatic).1 exampleTable 40 ⟨exampleCalls, by decide⟩⟩

theorem EvictionLoopHead_inv (s : QpackStaticTable) (t : QpackHeaderTable)
    (h : EvictionLoopHead s t) :
    ∃ live pend, TableInv t live pend ∧ totalSize pend ≤ t.dynamic_table_capacity := by
  induction h with
  | reachable t hr =>
    exact ⟨t.dynamic_entries, [], hr.wellFormed.1, by simp [totalSize]⟩
  | call t hc => exact EvictionCall_inv s t hc
  | pass t t1 e rest _ hgt hent hfront ih =>
    obtain ⟨live, pend, hinv, hp⟩ := ih
    cases live with
    | nil =>
      have hsize := hinv.size
      rw [List.nil_append] at hsize
      omega
    | cons e1 live1 =>
      have hent1 := hinv.entries
      rw [hent, List.cons_append] at hent1
      obtain ⟨he, hrest⟩ := List.cons.inj hent1
      subst he
      subst hrest
      obtain ⟨t2, hfront2, hinv2, hframe, _⟩ := EvictFront_inv t e live1 pend hinv
      rw [hfront] at hfront2
      have ht : t1 = t2 := Option.some.inj hfront2
      subst ht
      exact ⟨live1, pend, hinv2, by rw [hframe.2.2.2.1]; exact hp⟩

/-- C27. The assertions inside the eviction loop never fail.  At every head of the loop (on
a reachable table, on the table inside `UpdateTableSize` or inside `InsertEntry` after the
new entry has been appended, and after every pass of the loop), when
`dynamic_table_size_ > dynamic_table_capacity_` the deque is not empty and
`dynamic_table_size_` is at least the size of the front entry: the front access and the
subtraction are defined, the pass of the loop body succeeds, and the loop returns. -/
theorem eviction_assertions_hold (s : QpackStaticTable) (t : QpackHeaderTable)
    (h : EvictionLoopHead s t)
    (hgt : t.dynamic_table_size > t.dynamic_table_capacity) :
    ∃ entry rest t1, t.dynamic_entries = entry :: rest ∧
      EntrySize entry.name entry.value ≤ t.dynamic_table_size ∧
      EvictFront t entry rest = some t1 ∧
      ∃ t2, EvictDownToCurrentCapacity t = some t2 := by
  obtain ⟨live, pend, hinv, hp⟩ := EvictionLoopHead_inv s t h
  cases live with
  | nil =>
    have hsize := hinv.size
    rw [List.nil_append] at hsize
    omega
  | cons e live1 =>
    obtain ⟨t1, hfront, _⟩ := EvictFront_inv t e live1 pend hinv
    obtain ⟨hle, _⟩ := EvictFront_some t t1 e _ hfront
    obtain ⟨k, t2, _, hloop, _⟩ := EvictLoop_inv (e :: live1) pend t hinv hp
    refine ⟨e, live1 ++ pend, t1, hinv.entries, hle, hfront, t2, ?_⟩
    unfold EvictDownToCurrentCapacity
    rw [hinv.entries]
    exact hloop

theorem eviction_assertions_hold_witness :
    EvictionLoopHead exampleStatic { exampleTable with dynamic_table_capacity := 40 } ∧
    (68 : Nat) > 40 ∧
    ∃ entry rest t1,
      ({ exampleTable with dynamic_table_capacity := 40 } : QpackHeaderTable).dynamic_entries =
        entry :: rest ∧
      EntrySize entry.name entry.value ≤ 68 ∧
      EvictFront { exampleTable with dynamic_table_capacity := 40 } entry rest = some t1 ∧
      ∃ t2, EvictDownToCurrentCapacity { exampleTable with dynamic_table_capacity := 40 } =
        some t2 :=
  ⟨EvictionLoopHead.call _
      (EvictionCall.update exampleTable 40 ⟨exampleCalls, by decide⟩ (by decide)),
   by decide,
   eviction_assertions_hold exampleStatic _
     (EvictionLoopHead.call _
        (EvictionCall.update exampleTable 40 ⟨exampleCalls, by decide⟩ (by decide)))
     (by decide)⟩

/-- C28. Most-recent-wins for name-only matches: on a reachable table whose static indices
agree with the static entry list, for a name that occurs in no static entry and a value
`v2` that no live dynamic entry has together with the name, right after a successful
`InsertEntry(name, v1)` with `v1` other than `v2` the call `FindHeaderField(name, v2)`
returns `kName` with `is_static = false` and the insertion index of the entry just
inserted, also when older live entries have the same name.  The insertion succeeds
whenever the entry fits the capacity. -/
theorem most_recent_wins_name (s : QpackStaticTable) (hs : s.Consistent)
    (t : QpackHeaderTable) (hr : Reachable s t) (name v1 v2 : Bytes)
    (hstat : ∀ e ∈ s.static_entries, e.name ≠ name)
    (hdyn : ∀ e ∈ t.dynamic_entries, ¬ (e.name = name ∧ e.value = v2))
    (hne : v1 ≠ v2) (b : Bool) (i : Nat) :
    (∀ t1 e, InsertEntry t name v1 = some (t1, some e) →
      FindHeaderField t1 name v2 b i = (MatchType.kName, false, e.insertion_index)) ∧
    (name.length + v1.length + 32 ≤ t.dynamic_table_capacity →
      ∃ t1 e, InsertEntry t name v1 = some (t1, some e) ∧
        FindHeaderField t1 name v2 b i = (MatchType.kName, false, e.insertion_index)) := by
  have hs1 : UnorderedEntrySet.find s.static_index (QpackEntry.query name v2) = none := by
    have h := static_find_isSome s hs name v2
    have hany : s.static_entries.any (fun e => e.name == name && e.value == v2) = false := by
      rw [Bool.eq_false_iff]
      intro hc
      rw [List.any_eq_true] at hc
      obtain ⟨e, he, hp⟩ := hc
      simp only [Bool.and_eq_true, beq_iff_eq] at hp
      exact hstat e he hp.1
    rw [hany] at h
    cases hf : UnorderedEntrySet.find s.static_index (QpackEntry.query name v2) with
    | none => rfl
    | some e =>
      rw [hf] at h
      exact Bool.noConfusion h
  have hs2 : NameToEntryMap.find s.static_name_index name = none := by
    have h := static_name_isSome s hs name
    have hany : s.static_entries.any (fun e => e.name == name) = false := by
      rw [Bool.eq_false_iff]
      intro hc
      rw [List.any_eq_true] at hc
      obtain ⟨e, he, hp⟩ := hc
      simp only [beq_iff_eq] at hp
      exact hstat e he hp
    rw [hany] at h
    cases hf : NameToEntryMap.find s.static_name_index name with
    | none => rfl
    | some e =>
      rw [hf] at h
      exact Bool.noConfusion h
  have key : ∀ t1 e, InsertEntry t name v1 = some (t1, some e) →
      FindHeaderField t1 name v2 b i = (MatchType.kName, false, e.insertion_index) := by
    intro t1 e hins
    obtain ⟨_, he, k, _, hent, hinv1, hframe, _, _, hnfind⟩ :=
      InsertEntry_some t hr.wellFormed.1 name v1 t1 e hins
    have hst1 : t1.static_index = s.static_index := hframe.2.1.trans hr.wellFormed.2.2.1
    have hst2 : t1.static_name_index = s.static_name_index :=
      hframe.2.2.1.trans hr.wellFormed.2.2.2
    have hd : UnorderedEntrySet.find t1.dynamic_index (QpackEntry.query name v2) = none := by
      rw [dynamic_find_query t1 hinv1, List.find?_eq_none]
      intro x hx
      rw [List.mem_reverse, hent, List.mem_append] at hx
      simp only [Bool.and_eq_true, beq_iff_eq]
      rcases hx with hx | hx
      · exact hdyn x (List.mem_of_mem_drop hx)
      · rw [List.mem_singleton] at hx
        rw [hx, he]
        exact fun hc => hne hc.2
    simp only [FindHeaderField, hst1, hst2, hs1, hs2, hd, hnfind]
  refine ⟨key, ?_⟩
  intro hfit
  obtain ⟨k, t1, _, hins, _⟩ := InsertEntry_inv t hr.wellFormed.1 name v1 hfit
  exact ⟨t1, _, hins, key t1 _ hins⟩

theorem most_recent_wins_name_witness :
    exampleStatic.Consistent ∧ Reachable exampleStatic exampleTable5 ∧
    (∃ e ∈ exampleTable5.dynamic_entries, e.name = [120]) ∧
    ∃ t1 e, InsertEntry exampleTable5 [120] [50] = some (t1, some e) ∧
      FindHeaderField t1 [120] [51] true 9 = (MatchType.kName, false, e.insertion_index) :=
  ⟨by decide,
   ⟨[Call.SetMaximumDynamicTableCapacity 200, Call.InsertEntry [120] [49]], by decide⟩,
   by decide,
   (most_recent_wins_name exampleStatic (by decide) exampleTable5
      ⟨[Call.SetMaximumDynamicTableCapacity 200, Call.InsertEntry [120] [49]], by decide⟩
      [120] [50] [51] (by decide) (by decide) (by decide) true 9).2 (by decide)⟩

theorem maxEntries_runCalls (s : QpackStaticTable) (calls : List Call) :
    ∀ t : QpackHeaderTable, WellFormed s t → (∀ c ∈ calls, isUpdateCall c = true) →
      ∃ t1, runCalls t calls = some t1 ∧ t1.max_entries = t.max_entries := by
  induction calls with
  | nil =>
    intro t _ _
    exact ⟨t, rfl, rfl⟩
  | cons c cs ih =>
    intro t h hall
    have hcs : ∀ c1 ∈ cs, isUpdateCall c1 = true :=
      fun c1 hc1 => hall c1 (List.mem_cons_of_mem _ hc1)
    cases c with
    | SetMaximumDynamicTableCapacity v =>
      exact absurd (hall _ (List.mem_cons_self _ _)) (by simp [isUpdateCall])
    | InsertEntry name value =>
      obtain ⟨t1, r, hins, hwf, _, _, _, hme⟩ := WellFormed_InsertEntry s t h name value
      obtain ⟨t2, hrun, hme2⟩ := ih t1 hwf hcs
      exact ⟨t2, by simp [runCalls, runCall, hins, hrun], hme2.trans hme⟩
    | UpdateTableSize max_size =>
      by_cases hfit : max_size ≤ t.maximum_dynamic_table_capacity
      · obtain ⟨k, t1, _, hupd, _, hinv, f1, f2, f3, _, _, hme, _⟩ :=
          UpdateTableSize_inv t h.1 max_size hfit
        obtain ⟨t2, hrun, hme2⟩ := ih t1
          ⟨hinv, f1.trans h.2.1, f2.trans h.2.2.1, f3.trans h.2.2.2⟩ hcs
        exact ⟨t2, by simp [runCalls, runCall, hupd, hrun], hme2.trans hme⟩
      · have hupd := UpdateTableSize_reject t max_size (by omega)
        obtain ⟨t2, hrun, hme2⟩ := ih t h hcs
        exact ⟨t2, by simp [runCalls, runCall, hupd, hrun], hme2⟩

theorem length_le_totalSize (l : List QpackEntry) : 32 * l.length ≤ totalSize l := by
  induction l with
  | nil => simp [totalSize]
  | cons e l ih =>
    rw [totalSize_cons, List.length_cons]
    unfold EntrySize kEntrySizeOverhead
    omega

/-- C29. The number of live dynamic entries never exceeds `max_entries_`: on a freshly
constructed table, after one call of `SetMaximumDynamicTableCapacity` and then any sequence
of `InsertEntry` and `UpdateTableSize` calls, every call returns and after every call
(after the first `n` calls, for every `n`) the number of live entries is at most
`max_entries_`, which is `maximum_dynamic_table_capacity_ / 32` rounded down. -/
theorem live_entries_le_max_entries (s : QpackStaticTable) (m : Nat) (calls : List Call)
    (h : ∀ c ∈ calls, isUpdateCall c = true) (n : Nat) :
    ∃ t, runCalls (SetMaximumDynamicTableCapacity (QpackHeaderTable.new s) m)
        (calls.take n) = some t ∧
      t.dynamic_entries.length ≤ t.max_entries ∧
      t.max_entries = t.maximum_dynamic_table_capacity / 32 := by
  have hall : ∀ c ∈ calls.take n, isUpdateCall c = true :=
    fun c hc => h c (List.mem_of_mem_take hc)
  have hwf0 := WellFormed_SetMaximumDynamicTableCapacity s _ (WellFormed_new s) m
  obtain ⟨t, hrun, hwf, hle⟩ := WellFormed_runCalls s (calls.take n) _ hwf0
  obtain ⟨t1, hrun1, hceil, hmax⟩ := ceiling_runCalls s (calls.take n) _ hwf0
  obtain ⟨t2, hrun2, hme⟩ := maxEntries_runCalls s (calls.take n) _ hwf0 hall
  rw [hrun] at hrun1 hrun2
  have e1 : t = t1 := Option.some.inj hrun1
  have e2 : t = t2 := Option.some.inj hrun2
  subst e1
  subst e2
  have hsize := hwf.1.size
  rw [List.append_nil] at hsize
  have h1 : t.dynamic_table_size ≤ t.dynamic_table_capacity := hle hall (Nat.zero_le m)
  have h2 : t.dynamic_table_capacity ≤ t.maximum_dynamic_table_capacity :=
    hceil (Nat.le_refl m)
  have h3 : t.maximum_dynamic_table_capacity = m := hmax hall
  have h4 : t.max_entries = m / 32 := hme
  have h5 := length_le_totalSize t.dynamic_entries
  refine ⟨t, hrun, ?_, by rw [h4, h3]⟩
  rw [h4]
  omega

theorem live_entries_le_max_entries_witness :
    (∀ c ∈ [Call.InsertEntry [120] [49], Call.InsertEntry [120] [50],
        Call.InsertEntry [121] [49], Call.UpdateTableSize 40], isUpdateCall c = true) ∧
    ∃ t, runCalls (SetMaximumDynamicTableCapacity (QpackHeaderTable.new exampleStatic) 70)
        ([Call.InsertEntry [120] [49], Call.InsertEntry [120] [50],
          Call.InsertEntry [121] [49], Call.UpdateTableSize 40].take 3) = some t ∧
      t.dynamic_entries.length ≤ t.max_entries ∧
      t.max_entries = t.maximum_dynamic_table_capacity / 32 :=
  ⟨by decide, live_entries_le_max_entries exampleStatic 70 _ (by decide) 3⟩

/-! ## The state machine of the instruction encoder -/

theorem EncodeLoop_fields (h : HuffmanCoder) (iv : QpackInstructionWithValues)
    (instr : QpackInstruction) (fs : List QpackInstructionField) :
    ∀ (fuel : Nat) (uh : Bool) (sl byte : Nat) (out : Bytes),
      fs ≠ [] → 4 * fs.length ≤ fuel →
      ∃ enc1, EncodeLoop h fuel
          ⟨uh, sl, byte, QpackInstructionEncoder.State.kStartField, instr, fs⟩ iv out =
          some (enc1, out ++ FieldsBytes h iv byte fs) ∧
        enc1.state = QpackInstructionEncoder.State.kStartField ∧ enc1.field = [] ∧
        enc1.instruction = instr := by
  induction fs with
  | nil =>
    intro _ _ _ _ _ hne
    exact absurd rfl hne
  | cons f rest ih =>
    intro fuel uh sl byte out _ hfuel
    obtain ⟨fuel, rfl⟩ : ∃ k, fuel = k + 4 := ⟨fuel - 4, by simp at hfuel; omega⟩
    have hrest : ∀ (uh1 : Bool) (sl1 byte1 : Nat) (out1 : Bytes) (k : Nat),
        4 * rest.length ≤ k →
        ∃ enc1, (if rest = [] then
            some ((⟨uh1, sl1, byte1, QpackInstructionEncoder.State.kStartField, instr, rest⟩ :
              QpackInstructionEncoder), out1)
          else EncodeLoop h k
            ⟨uh1, sl1, byte1, QpackInstructionEncoder.State.kStartField, instr, rest⟩ iv out1) =
          some (enc1, out1 ++ FieldsBytes h iv byte1 rest) ∧
        enc1.state = QpackInstructionEncoder.State.kStartField ∧ enc1.field = [] ∧
        enc1.instruction = instr := by
      intro uh1 sl1 byte1 out1 k hk
      by_cases hr : rest = []
      · subst hr
        exact ⟨⟨uh1, sl1, byte1, QpackInstructionEncoder.State.kStartField, instr, []⟩,
          by simp [FieldsBytes], rfl, rfl, rfl⟩
      · rw [if_neg hr]
        exact ih k uh1 sl1 byte1 out1 hr hk
    obtain ⟨ftype, param⟩ := f
    have hlen : 4 * rest.length ≤ fuel := by
      simp at hfuel
      omega
    cases ftype with
    | kSbit =>
      obtain ⟨enc1, h1, h2⟩ := hrest uh sl (if iv.s_bit then byte ||| param else byte) out
        (fuel + 2) (by omega)
      refine ⟨enc1, ?_, h2⟩
      have hb : FieldsBytes h iv byte (⟨QpackInstructionFieldType.kSbit, param⟩ :: rest) =
          FieldsBytes h iv (if iv.s_bit then byte ||| param else byte) rest := rfl
      rw [hb, ← h1]
      simp [EncodeLoop, EncodeStep, DoStartField, DoSBit]
    | kVarint =>
      obtain ⟨enc1, h1, h2⟩ := hrest uh sl 0 (out ++ HpackVarintEncode byte param iv.varint)
        (fuel + 2) (by omega)
      refine ⟨enc1, ?_, h2⟩
      rw [FieldsBytes, ← List.append_assoc, ← h1]
      simp [EncodeLoop, EncodeStep, DoStartField, DoVarintEncode]
    | kVarint2 =>
      obtain ⟨enc1, h1, h2⟩ := hrest uh sl 0 (out ++ HpackVarintEncode byte param iv.varint2)
        (fuel + 2) (by omega)
      refine ⟨enc1, ?_, h2⟩
      rw [FieldsBytes, ← List.append_assoc, ← h1]
      simp [EncodeLoop, EncodeStep, DoStartField, DoVarintEncode]
    | kName =>
      by_cases hh : h.HuffmanSize iv.name < iv.name.length
      · obtain ⟨enc1, h1, h2⟩ := hrest true (h.HuffmanSize iv.name) 0
          (out ++ StringFieldBytes h byte param iv.name) fuel hlen
        refine ⟨enc1, ?_, h2⟩
        rw [FieldsBytes, ← List.append_assoc, ← h1]
        simp [EncodeLoop, EncodeStep, DoStartField, DoStartString, DoVarintEncode,
          DoWriteString, StringFieldBytes, hh]
      · obtain ⟨enc1, h1, h2⟩ := hrest false iv.name.length 0
          (out ++ StringFieldBytes h byte param iv.name) fuel hlen
        refine ⟨enc1, ?_, h2⟩
        rw [FieldsBytes, ← List.append_assoc, ← h1]
        simp [EncodeLoop, EncodeStep, DoStartField, DoStartString, DoVarintEncode,
          DoWriteString, StringFieldBytes, hh]
    | kValue =>
      by_cases hh : h.HuffmanSize iv.value < iv.value.length
      · obtain ⟨enc1, h1, h2⟩ := hrest true (h.HuffmanSize iv.value) 0
          (out ++ StringFieldBytes h byte param iv.value) fuel hlen
        refine ⟨enc1, ?_, h2⟩
        rw [FieldsBytes, ← List.append_assoc, ← h1]
        simp [EncodeLoop, EncodeStep, DoStartField, DoStartString, DoVarintEncode,
          DoWriteString, StringFieldBytes, hh]
      · obtain ⟨enc1, h1, h2⟩ := hrest false iv.value.length 0
          (out ++ StringFieldBytes h byte param iv.value) fuel hlen
        refine ⟨enc1, ?_, h2⟩
        rw [FieldsBytes, ← List.append_assoc, ← h1]
        simp [EncodeLoop, EncodeStep, DoStartField, DoStartString, DoVarintEncode,
          DoWriteString, StringFieldBytes, hh]

/-- The method `Encode` returns for every instruction, and appends the reference encoding
of the instruction to the output. -/
theorem Encode_eq (h : HuffmanCoder) (enc : QpackInstructionEncoder)
    (iv : QpackInstructionWithValues) (out : Bytes) :
    ∃ enc1, Encode h enc iv out = some (enc1, out ++ InstructionBytes h iv) ∧
      enc1.state = QpackInstructionEncoder.State.kStartField ∧ enc1.field = [] ∧
      enc1.instruction = iv.instruction := by
  unfold Encode InstructionBytes
  by_cases hf : iv.instruction.fields = []
  · refine ⟨⟨enc.use_huffman, enc.string_length, iv.instruction.opcode,
      QpackInstructionEncoder.State.kStartField, iv.instruction, iv.instruction.fields⟩,
      ?_, rfl, hf, rfl⟩
    rw [hf]
    simp [EncodeLoop, EncodeStep, DoOpcode, hf, FieldsBytes]
  · obtain ⟨enc1, h1, h2⟩ := EncodeLoop_fields h iv iv.instruction iv.instruction.fields
      (4 * iv.instruction.fields.length) enc.use_huffman enc.string_length
      iv.instruction.opcode out hf (Nat.le_refl _)
    refine ⟨enc1, ?_, h2⟩
    rw [← h1]
    simp [EncodeLoop, EncodeStep, DoOpcode, hf]

theorem HuffmanBits_length (table : Nat → HuffmanSymbol) (s : Bytes) :
    (HuffmanBits table s).length = (s.map (fun b => (table b).length)).sum := by
  induction s with
  | nil => rfl
  | cons b s ih =>
    unfold HuffmanBits at ih ⊢
    rw [List.map_cons, List.flatten_cons, List.length_append, ih, List.map_cons,
      List.sum_cons]
    simp [HuffmanSymbol.bits]

theorem ofTable_exact (table : Nat → HuffmanSymbol) (s : Bytes) :
    ((HuffmanCoder.ofTable table).HuffmanEncode s).length =
      (HuffmanCoder.ofTable table).HuffmanSize s := by
  simp [HuffmanCoder.ofTable, HuffmanBits_length]

theorem HpackVarintEncode_first (a N v : Nat) :
    ∃ first rest, HpackVarintEncode (2 ^ N * a) N v = first :: rest ∧ first / 2 ^ N = a := by
  obtain ⟨rest, hrest⟩ := HpackVarintEncode_head a N v
  refine ⟨_, rest, hrest, ?_⟩
  have hpos : 0 < 2 ^ N := Nat.two_pow_pos N
  have hmin : min v (2 ^ N - 1) < 2 ^ N := by
    have := Nat.min_le_right v (2 ^ N - 1)
    omega
  rw [Nat.mul_add_div hpos, Nat.div_eq_of_lt hmin, Nat.add_zero]

theorem SendInsertWithNameReference_eq (h : HuffmanCoder) (enc : QpackInstructionEncoder)
    (is_static : Bool) (name_index : Nat) (value : Bytes) :
    ∃ enc1, SendInsertWithNameReference h enc is_static name_index value =
      some (enc1, HpackVarintEncode (if is_static then 0xc0 else 0x80) 6 name_index ++
        (if h.HuffmanSize value < value.length then
          HpackVarintEncode 0x80 7 (h.HuffmanSize value) ++ h.HuffmanEncode value
         else HpackVarintEncode 0x00 7 value.length ++ value)) := by
  obtain ⟨enc1, h1, _⟩ := Encode_eq h enc
    { instruction := InsertWithNameReferenceInstruction, s_bit := is_static,
      varint := name_index, varint2 := 0, name := [], value := value } []
  refine ⟨enc1, ?_⟩
  unfold SendInsertWithNameReference
  rw [h1, List.nil_append]
  cases is_static <;>
    simp [InstructionBytes, InsertWithNameReferenceInstruction, FieldsBytes, StringFieldBytes]

/-- C21. Insert-with-name-reference layout.  For every `(is_static, name_index, value)`
and whatever the encoder has encoded before, the data written is, in this order: the varint
of `name_index` on 6 bits, whose first byte has the top bit 1 and the second bit equal to
`is_static`; the varint on 7 bits of the number of value bytes that follow, whose first
byte has the Huffman flag as its top bit; and the value bytes, which are the Huffman form
of the value when the flag is set and the value itself otherwise.  With the codes of the
static Huffman table, `(true, 5, "")` writes c5 00, `(true, 2, "foo")` writes c2 82 94 e7
and `(false, 137, "bar")` writes bf 4a 03 62 61 72. -/
theorem InsertWithNameReference_layout (table : Nat → HuffmanSymbol)
    (enc : QpackInstructionEncoder) (is_static : Bool) (name_index : Nat) (value : Bytes) :
    (∃ enc1 first rest lfirst lrest flag body,
      SendInsertWithNameReference (HuffmanCoder.ofTable table) enc is_static name_index value =
        some (enc1, (first :: rest) ++ (lfirst :: lrest) ++ body) ∧
      first :: rest = HpackVarintEncode (if is_static then 0xc0 else 0x80) 6 name_index ∧
      first / 128 = 1 ∧ first / 64 % 2 = (if is_static then 1 else 0) ∧
      lfirst :: lrest = HpackVarintEncode (if flag then 0x80 else 0x00) 7 body.length ∧
      lfirst / 128 = (if flag then 1 else 0) ∧
      (flag = true ↔ (HuffmanCoder.ofTable table).HuffmanSize value < value.length) ∧
      body = (if flag then (HuffmanCoder.ofTable table).HuffmanEncode value else value)) ∧
    (∃ enc1, SendInsertWithNameReference (HuffmanCoder.ofTable testHuffmanTable) enc
      true 5 [] = some (enc1, [0xc5, 0x00])) ∧
    (∃ enc1, SendInsertWithNameReference (HuffmanCoder.ofTable testHuffmanTable) enc
      true 2 [102, 111, 111] = some (enc1, [0xc2, 0x82, 0x94, 0xe7])) ∧
    (∃ enc1, SendInsertWithNameReference (HuffmanCoder.ofTable testHuffmanTable) enc
      false 137 [98, 97, 114] = some (enc1, [0xbf, 0x4a, 0x03, 0x62, 0x61, 0x72])) := by
  refine ⟨?_, ?_, ?_, ?_⟩
  · obtain ⟨enc1, h1⟩ := SendInsertWithNameReference_eq (HuffmanCoder.ofTable table) enc
      is_static name_index value
    obtain ⟨first, rest, hf, hfd⟩ :=
      HpackVarintEncode_first (if is_static then 3 else 2) 6 name_index
    have hf1 : HpackVarintEncode (if is_static then 0xc0 else 0x80) 6 name_index =
        first :: rest := by
      rw [← hf]
      cases is_static <;> rfl
    have hfd1 : first / 64 = (if is_static then 3 else 2) := hfd
    by_cases hh : (HuffmanCoder.ofTable table).HuffmanSize value < value.length
    · obtain ⟨lfirst, lrest, hl, hld⟩ := HpackVarintEncode_first 1 7
        ((HuffmanCoder.ofTable table).HuffmanSize value)
      refine ⟨enc1, first, rest, lfirst, lrest, true,
        (HuffmanCoder.ofTable table).HuffmanEncode value, ?_, hf1.symm, ?_, ?_, ?_, hld,
        by simp [hh], rfl⟩
      · rw [h1, hf1, if_pos hh, ← hl, List.append_assoc]
        rfl
      · cases is_static <;> simp at hfd1 <;> omega
      · cases is_static <;> simp at hfd1 ⊢ <;> omega
      · rw [ofTable_exact, ← hl]
        rfl
    · obtain ⟨lfirst, lrest, hl, hld⟩ := HpackVarintEncode_first 0 7 value.length
      refine ⟨enc1, first, rest, lfirst, lrest, false, value, ?_, hf1.symm, ?_, ?_, ?_, hld,
        by simp [hh], rfl⟩
      · rw [h1, hf1, if_neg hh, ← hl, List.append_assoc]
        rfl
      · cases is_static <;> simp at hfd1 <;> omega
      · cases is_static <;> simp at hfd1 ⊢ <;> omega
      · rw [← hl]
        rfl
  · obtain ⟨enc1, h1⟩ := SendInsertWithNameReference_eq
      (HuffmanCoder.ofTable testHuffmanTable) enc true 5 []
    exact ⟨enc1, h1⟩
  · obtain ⟨enc1, h1⟩ := SendInsertWithNameReference_eq
      (HuffmanCoder.ofTable testHuffmanTable) enc true 2 [102, 111, 111]
    exact ⟨enc1, h1⟩
  · obtain ⟨enc1, h1⟩ := SendInsertWithNameReference_eq
      (HuffmanCoder.ofTable testHuffmanTable) enc false 137 [98, 97, 114]
    exact ⟨enc1, h1⟩

theorem string_field_layout (table : Nat → HuffmanSymbol) (a N : Nat) (s : Bytes) :
    ∃ first rest flag body,
      (if (HuffmanCoder.ofTable table).HuffmanSize s < s.length then
          HpackVarintEncode (2 ^ N * (2 * a + 1)) N ((HuffmanCoder.ofTable table).HuffmanSize s)
            ++ (HuffmanCoder.ofTable table).HuffmanEncode s
        else HpackVarintEncode (2 ^ N * (2 * a)) N s.length ++ s) = (first :: rest) ++ body ∧
      first :: rest =
        HpackVarintEncode (2 ^ N * (2 * a + if flag then 1 else 0)) N body.length ∧
      first / 2 ^ N = 2 * a + (if flag then 1 else 0) ∧
      (flag = true ↔ (HuffmanCoder.ofTable table).HuffmanSize s < s.length) ∧
      body = (if flag then (HuffmanCoder.ofTable table).HuffmanEncode s else s) := by
  by_cases hh : (HuffmanCoder.ofTable table).HuffmanSize s < s.length
  · obtain ⟨first, rest, hf, hfd⟩ := HpackVarintEncode_first (2 * a + 1) N
      ((HuffmanCoder.ofTable table).HuffmanSize s)
    refine ⟨first, rest, true, (HuffmanCoder.ofTable table).HuffmanEncode s, ?_, ?_, hfd,
      by simp [hh], rfl⟩
    · rw [if_pos hh, hf]
    · rw [ofTable_exact, ← hf]
      rfl
  · obtain ⟨first, rest, hf, hfd⟩ := HpackVarintEncode_first (2 * a) N s.length
    refine ⟨first, rest, false, s, ?_, ?_, hfd, by simp [hh], rfl⟩
    · rw [if_neg hh, hf]
    · rw [← hf]
      rfl

theorem SendInsertWithoutNameReference_eq (h : HuffmanCoder) (enc : QpackInstructionEncoder)
    (name value : Bytes) :
    ∃ enc1, SendInsertWithoutNameReference h enc name value =
      some (enc1,
        (if h.HuffmanSize name < name.length then
          HpackVarintEncode 0x60 5 (h.HuffmanSize name) ++ h.HuffmanEncode name
         else HpackVarintEncode 0x40 5 name.length ++ name) ++
        (if h.HuffmanSize value < value.length then
          HpackVarintEncode 0x80 7 (h.HuffmanSize value) ++ h.HuffmanEncode value
         else HpackVarintEncode 0x00 7 value.length ++ value)) := by
  obtain ⟨enc1, h1, _⟩ := Encode_eq h enc
    { instruction := InsertWithoutNameReferenceInstruction, s_bit := false, varint := 0,
      varint2 := 0, name := name, value := value } []
  refine ⟨enc1, ?_⟩
  unfold SendInsertWithoutNameReference
  rw [h1, List.nil_append]
  have h60 : (0x40 : Nat) ||| 2 ^ 5 = 0x60 := by decide
  simp [InstructionBytes, InsertWithoutNameReferenceInstruction, FieldsBytes,
    StringFieldBytes, h60]

/-- C22. Insert-without-name-reference layout.  For every `(name, value)` and whatever the
encoder has encoded before, the data written is, in this order: the varint on 5 bits of the
number of name bytes that follow, whose first byte has the top bits 01 and the Huffman flag
of the name as its third bit; the name bytes; the varint on 7 bits of the number of value
bytes that follow, whose first byte has the Huffman flag of the value as its top bit; the
value bytes.  Each flag is decided on its own string, and the bytes are the Huffman form
when the flag is set and the string itself otherwise.  With the codes of the static
Huffman table, `("", "")` writes 40 00, `("bar", "bar")` writes 43 62 61 72 03 62 61 72 and
`("foo", "foo")` writes 62 94 e7 82 94 e7. -/
theorem InsertWithoutNameReference_layout (table : Nat → HuffmanSymbol)
    (enc : QpackInstructionEncoder) (name value : Bytes) :
    (∃ enc1 nfirst nrest nflag nbody vfirst vrest vflag vbody,
      SendInsertWithoutNameReference (HuffmanCoder.ofTable table) enc name value =
        some (enc1, (nfirst :: nrest) ++ nbody ++ (vfirst :: vrest) ++ vbody) ∧
      nfirst :: nrest = HpackVarintEncode (if nflag then 0x60 else 0x40) 5 nbody.length ∧
      nfirst / 64 = 1 ∧ nfirst / 32 % 2 = (if nflag then 1 else 0) ∧
      (nflag = true ↔ (HuffmanCoder.ofTable table).HuffmanSize name < name.length) ∧
      nbody = (if nflag then (HuffmanCoder.ofTable table).HuffmanEncode name else name) ∧
      vfirst :: vrest = HpackVarintEncode (if vflag then 0x80 else 0x00) 7 vbody.length ∧
      vfirst / 128 = (if vflag then 1 else 0) ∧
      (vflag = true ↔ (HuffmanCoder.ofTable table).HuffmanSize value < value.length) ∧
      vbody = (if vflag then (HuffmanCoder.ofTable table).HuffmanEncode value else value)) ∧
    (∃ enc1, SendInsertWithoutNameReference (HuffmanCoder.ofTable testHuffmanTable) enc
      [] [] = some (enc1, [0x40, 0x00])) ∧
    (∃ enc1, SendInsertWithoutNameReference (HuffmanCoder.ofTable testHuffmanTable) enc
      [98, 97, 114] [98, 97, 114] =
        some (enc1, [0x43, 0x62, 0x61, 0x72, 0x03, 0x62, 0x61, 0x72])) ∧
    (∃ enc1, SendInsertWithoutNameReference (HuffmanCoder.ofTable testHuffmanTable) enc
      [102, 111, 111] [102, 111, 111] =
        some (enc1, [0x62, 0x94, 0xe7, 0x82, 0x94, 0xe7])) := by
  refine ⟨?_, ?_, ?_, ?_⟩
  · obtain ⟨enc1, h1⟩ := SendInsertWithoutNameReference_eq (HuffmanCoder.ofTable table) enc
      name value
    obtain ⟨nfirst, nrest, nflag, nbody, hn, hnf, hnd, hni, hnb⟩ :=
      string_field_layout table 1 5 name
    obtain ⟨vfirst, vrest, vflag, vbody, hv, hvf, hvd, hvi, hvb⟩ :=
      string_field_layout table 0 7 value
    refine ⟨enc1, nfirst, nrest, nflag, nbody, vfirst, vrest, vflag, vbody, ?_, ?_, ?_, ?_,
      hni, hnb, ?_, ?_, hvi, hvb⟩
    · rw [h1, List.append_assoc ((nfirst :: nrest) ++ nbody), ← hn, ← hv]
      rfl
    · rw [hnf]
      cases nflag <;> rfl
    · cases nflag <;> simp at hnd <;> omega
    · cases nflag <;> simp at hnd ⊢ <;> omega
    · rw [hvf]
      cases vflag <;> rfl
    · cases vflag <;> simp at hvd ⊢ <;> omega
  · obtain ⟨enc1, h1⟩ := SendInsertWithoutNameReference_eq
      (HuffmanCoder.ofTable testHuffmanTable) enc [] []
    exact ⟨enc1, h1⟩
  · obtain ⟨enc1, h1⟩ := SendInsertWithoutNameReference_eq
      (HuffmanCoder.ofTable testHuffmanTable) enc [98, 97, 114] [98, 97, 114]
    exact ⟨enc1, h1⟩
  · obtain ⟨enc1, h1⟩ := SendInsertWithoutNameReference_eq
      (HuffmanCoder.ofTable testHuffmanTable) enc [102, 111, 111] [102, 111, 111]
    exact ⟨enc1, h1⟩

/-- C23. Huffman selection rule.  For every string `s` the encoder writes (the name or the
value of a string field, from the state `kStartString` on): `use_huffman_` is set if and
only if the Huffman size of `s` in bytes is strictly smaller than the length of `s`.  Then
the Huffman bit is written to the shared byte, the length field carries the Huffman size
and the Huffman form follows; otherwise the shared byte is left as it is, the length field
carries the length of `s` and the bytes of `s` follow as they are. -/
theorem Huffman_selection_rule (h : HuffmanCoder) (enc : QpackInstructionEncoder)
    (iv : QpackInstructionWithValues) (out : Bytes) (f : QpackInstructionField)
    (rest : List QpackInstructionField) (s : Bytes)
    (hstate : enc.state = QpackInstructionEncoder.State.kStartString)
    (hfield : enc.field = f :: rest)
    (hs : (f.type = QpackInstructionFieldType.kName ∧ s = iv.name) ∨
      (f.type = QpackInstructionFieldType.kValue ∧ s = iv.value)) :
    ((EncodeStep h enc iv out).1.use_huffman = true ↔ h.HuffmanSize s < s.length) ∧
    (h.HuffmanSize s < s.length →
      (EncodeStep h enc iv out).1.byte = enc.byte ||| 2 ^ f.param ∧
      (EncodeStep h enc iv out).1.string_length = h.HuffmanSize s ∧
      (EncodeSteps h 3 enc iv out).2 =
        out ++ HpackVarintEncode (enc.byte ||| 2 ^ f.param) f.param (h.HuffmanSize s) ++
          h.HuffmanEncode s) ∧
    (¬ h.HuffmanSize s < s.length →
      (EncodeStep h enc iv out).1.byte = enc.byte ∧
      (EncodeStep h enc iv out).1.string_length = s.length ∧
      (EncodeSteps h 3 enc iv out).2 = out ++ HpackVarintEncode enc.byte f.param s.length ++ s) ∧
    (EncodeSteps h 3 enc iv out).1.state = QpackInstructionEncoder.State.kStartField ∧
    (EncodeSteps h 3 enc iv out).1.field = rest := by
  obtain ⟨uh, sl, byte, state, instr, field⟩ := enc
  obtain ⟨ftype, param⟩ := f
  simp only at hstate hfield
  subst hstate
  subst hfield
  rcases hs with ⟨ht, hs⟩ | ⟨ht, hs⟩
  · simp only at ht
    subst ht
    subst hs
    by_cases hh : h.HuffmanSize iv.name < iv.name.length
    · simp [EncodeSteps, EncodeStep, DoStartString, DoVarintEncode, DoWriteString, hh]
    · simp [EncodeSteps, EncodeStep, DoStartString, DoVarintEncode, DoWriteString, hh]
  · simp only at ht
    subst ht
    subst hs
    by_cases hh : h.HuffmanSize iv.value < iv.value.length
    · simp [EncodeSteps, EncodeStep, DoStartString, DoVarintEncode, DoWriteString, hh]
    · simp [EncodeSteps, EncodeStep, DoStartString, DoVarintEncode, DoWriteString, hh]

theorem Huffman_selection_rule_witness :
    ((HuffmanCoder.ofTable testHuffmanTable).HuffmanSize [102, 111, 111] < 3 ∧
      (EncodeSteps (HuffmanCoder.ofTable testHuffmanTable) 3
        ⟨false, 0, 0, QpackInstructionEncoder.State.kStartString,
          InsertWithNameReferenceInstruction, [⟨QpackInstructionFieldType.kValue, 7⟩]⟩
        ⟨InsertWithNameReferenceInstruction, true, 2, 0, [], [102, 111, 111]⟩ []).2 =
        [0x82, 0x94, 0xe7]) ∧
    (¬ (HuffmanCoder.ofTable testHuffmanTable).HuffmanSize [98, 97, 114] < 3 ∧
      (EncodeSteps (HuffmanCoder.ofTable testHuffmanTable) 3
        ⟨false, 0, 0, QpackInstructionEncoder.State.kStartString,
          InsertWithNameReferenceInstruction, [⟨QpackInstructionFieldType.kValue, 7⟩]⟩
        ⟨InsertWithNameReferenceInstruction, false, 137, 0, [], [98, 97, 114]⟩ []).2 =
        [0x03, 0x62, 0x61, 0x72]) :=
  ⟨⟨by decide,
    ((Huffman_selection_rule (HuffmanCoder.ofTable testHuffmanTable)
      ⟨false, 0, 0, QpackInstructionEncoder.State.kStartString,
        InsertWithNameReferenceInstruction, [⟨QpackInstructionFieldType.kValue, 7⟩]⟩
      ⟨InsertWithNameReferenceInstruction, true, 2, 0, [], [102, 111, 111]⟩ []
      ⟨QpackInstructionFieldType.kValue, 7⟩ [] [102, 111, 111] rfl rfl
      (Or.inr ⟨rfl, rfl⟩)).2.1 (by decide)).2.2⟩,
   ⟨by decide,
    ((Huffman_selection_rule (HuffmanCoder.ofTable testHuffmanTable)
      ⟨false, 0, 0, QpackInstructionEncoder.State.kStartString,
        InsertWithNameReferenceInstruction, [⟨QpackInstructionFieldType.kValue, 7⟩]⟩
      ⟨InsertWithNameReferenceInstruction, false, 137, 0, [], [98, 97, 114]⟩ []
      ⟨QpackInstructionFieldType.kValue, 7⟩ [] [98, 97, 114] rfl rfl
      (Or.inr ⟨rfl, rfl⟩)).2.2.1 (by decide)).2.2⟩⟩

theorem ofTable_size_replicate (table : Nat → HuffmanSymbol) (b n : Nat)
    (hb : (table b).length = 8) :
    (HuffmanCoder.ofTable table).HuffmanSize (List.replicate n b) = n := by
  have hsum : ((List.replicate n b).map (fun c => (table c).length)).sum = n * 8 := by
    rw [List.map_replicate, List.sum_replicate, hb]
    rfl
  show (((List.replicate n b).map (fun c => (table c).length)).sum + 7) / 8 = n
  rw [hsum]
  omega

theorem StringFieldBytes_replicate (table : Nat → HuffmanSymbol) (b n : Nat)
    (hb : (table b).length = 8) :
    ¬ (HuffmanCoder.ofTable table).HuffmanSize (List.replicate n b) <
      (List.replicate n b).length := by
  rw [ofTable_size_replicate table b n hb, List.length_replicate]
  exact Nat.lt_irrefl n

/-- C24. Strings of the byte 'Z' are written as they are.  Whenever the code of 'Z' (byte
5a) in the Huffman table has 8 bits, for every `n` the Huffman size of the string of `n`
bytes 'Z' is `n`, never strictly smaller than `n`; so as a value it is written as the
varint of `n` on 7 bits with the Huffman flag (the top bit) 0 followed by `n` bytes 5a, and
as a name as the varint of `n` on 5 bits below the bits 010 (Huffman flag 0) followed by
`n` bytes 5a.  The length field of 127 on 7 bits is 7f 00 and the length field of 31 on 5
bits is 5f 00. -/
theorem Z_strings_written_raw (table : Nat → HuffmanSymbol) (hZ : (table 0x5a).length = 8)
    (enc : QpackInstructionEncoder) (n : Nat) :
    (HuffmanCoder.ofTable table).HuffmanSize (List.replicate n 0x5a) = n ∧
    (∀ is_static name_index, ∃ enc1,
      SendInsertWithNameReference (HuffmanCoder.ofTable table) enc is_static name_index
          (List.replicate n 0x5a) =
        some (enc1, HpackVarintEncode (if is_static then 0xc0 else 0x80) 6 name_index ++
          (HpackVarintEncode 0x00 7 n ++ List.replicate n 0x5a))) ∧
    (∀ value, ∃ enc1 tail,
      SendInsertWithoutNameReference (HuffmanCoder.ofTable table) enc
          (List.replicate n 0x5a) value =
        some (enc1, (HpackVarintEncode 0x40 5 n ++ List.replicate n 0x5a) ++ tail)) ∧
    (∀ name, ∃ enc1 head,
      SendInsertWithoutNameReference (HuffmanCoder.ofTable table) enc name
          (List.replicate n 0x5a) =
        some (enc1, head ++ (HpackVarintEncode 0x00 7 n ++ List.replicate n 0x5a))) ∧
    (∀ m, ∃ enc1,
      SendInsertWithoutNameReference (HuffmanCoder.ofTable table) enc
          (List.replicate m 0x5a) (List.replicate n 0x5a) =
        some (enc1, (HpackVarintEncode 0x40 5 m ++ List.replicate m 0x5a) ++
          (HpackVarintEncode 0x00 7 n ++ List.replicate n 0x5a))) ∧
    (∃ first rest, HpackVarintEncode 0x00 7 n = first :: rest ∧ first / 128 = 0) ∧
    (∃ first rest, HpackVarintEncode 0x40 5 n = first :: rest ∧ first / 32 = 2) ∧
    HpackVarintEncode 0x00 7 127 = [0x7f, 0x00] ∧
    HpackVarintEncode 0x40 5 31 = [0x5f, 0x00] := by
  have hn := StringFieldBytes_replicate table 0x5a n hZ
  refine ⟨ofTable_size_replicate table 0x5a n hZ, ?_, ?_, ?_, ?_,
    HpackVarintEncode_first 0 7 n, HpackVarintEncode_first 2 5 n, by decide, by decide⟩
  · intro is_static name_index
    obtain ⟨enc1, h1⟩ := SendInsertWithNameReference_eq (HuffmanCoder.ofTable table) enc
      is_static name_index (List.replicate n 0x5a)
    refine ⟨enc1, ?_⟩
    rw [h1, if_neg hn, List.length_replicate]
  · intro value
    obtain ⟨enc1, h1⟩ := SendInsertWithoutNameReference_eq (HuffmanCoder.ofTable table) enc
      (List.replicate n 0x5a) value
    rw [if_neg hn, List.length_replicate] at h1
    exact ⟨enc1, _, h1⟩
  · intro name
    obtain ⟨enc1, h1⟩ := SendInsertWithoutNameReference_eq (HuffmanCoder.ofTable table) enc
      name (List.replicate n 0x5a)
    rw [if_neg hn, List.length_replicate] at h1
    exact ⟨enc1, _, h1⟩
  · intro m
    obtain ⟨enc1, h1⟩ := SendInsertWithoutNameReference_eq (HuffmanCoder.ofTable table) enc
      (List.replicate m 0x5a) (List.replicate n 0x5a)
    refine ⟨enc1, ?_⟩
    rw [h1, if_neg hn, if_neg (StringFieldBytes_replicate table 0x5a m hZ),
      List.length_replicate, List.length_replicate]

theorem Z_strings_written_raw_witness :
    (testHuffmanTable 0x5a).length = 8 ∧
    (∃ enc1, SendInsertWithNameReference (HuffmanCoder.ofTable testHuffmanTable)
        QpackInstructionEncoder.new false 42 (List.replicate 127 0x5a) =
      some (enc1, [0xaa] ++ ([0x7f, 0x00] ++ List.replicate 127 0x5a))) ∧
    (∃ enc1, SendInsertWithoutNameReference (HuffmanCoder.ofTable testHuffmanTable)
        QpackInstructionEncoder.new (List.replicate 31 0x5a) (List.replicate 127 0x5a) =
      some (enc1, ([0x5f, 0x00] ++ List.replicate 31 0x5a) ++
        ([0x7f, 0x00] ++ List.replicate 127 0x5a))) :=
  ⟨rfl,
   (Z_strings_written_raw testHuffmanTable rfl QpackInstructionEncoder.new 127).2.1 false 42,
   (Z_strings_written_raw testHuffmanTable rfl QpackInstructionEncoder.new 127).2.2.2.2.1 31⟩

/-- Encoding a sequence of instructions on one encoder returns and appends the reference
encodings of the instructions, one after the other, to the output. -/
theorem EncodeAll_eq (h : HuffmanCoder) (ivs : List QpackInstructionWithValues) :
    ∀ (enc : QpackInstructionEncoder) (out : Bytes),
      ∃ enc1, EncodeAll h enc ivs out =
        some (enc1, out ++ (ivs.map (InstructionBytes h)).flatten) := by
  induction ivs with
  | nil =>
    intro enc out
    exact ⟨enc, by simp [EncodeAll]⟩
  | cons iv ivs ih =>
    intro enc out
    obtain ⟨e1, h1, _⟩ := Encode_eq h enc iv out
    obtain ⟨e2, h2⟩ := ih e1 (out ++ InstructionBytes h iv)
    refine ⟨e2, ?_⟩
    simp only [EncodeAll, h1, h2, List.map_cons, List.flatten_cons, List.append_assoc]

end quic
